import Mathlib

/-! # Statistics visitor of `src/V3Stats.cpp`

A shallow embedding of `StatsVisitor`: the node accounting rule `allNodes`, the
seven `visit` overloads, the constructor (`statsStageAll`) and the part of the
destructor that publishes the statistics.

Conventions of the embedding:

* `V3Double0` counters and `double m_instrs` hold sums of `int` weights and unit
  increments; they are embedded as `Int` (sums of weights) and `Nat` (tallies),
  which is exact as long as the magnitudes stay below `2^53`.
* The recursion of the visitor is driven by a fuel argument: one unit per nested
  `accept`.  Running out of fuel is reported as `Abort.fuel`; an
  `std::out_of_range` thrown by `vector::at` is reported as `Abort.out_of_range`.
* `firstAbovep()` is non-null exactly for the head of an operand list, where it is
  the node holding the list; the embedding passes the type of that node down.
-/

namespace V3Stats

/-! ## The syntax tree (declared in `V3Ast.h`, consumed by the visitor) -/

/-- Modelled from the spec: the closed enumeration of node kinds `AstType`, whose
declaration is not part of the sources; a kind is its index into
`m_statTypeCount`. -/
abbrev AstType := Nat

/-- Modelled from the spec: the branch-prediction hint of a conditional
(`AstBranchPred`, hints `NONE`, `LIKELY`, `UNLIKELY`); the visitor only compares it
with `BP_LIKELY` and `BP_UNLIKELY`. -/
inductive AstBranchPred where
  | BP_NONE
  | BP_LIKELY
  | BP_UNLIKELY
  deriving DecidableEq, Repr

/-- Modelled from the spec: what the visitor reads from the data-type descriptor
returned by `dtypeSkipRefp()`: whether `castUnpackArrayDType()` and
`castBasicDType()` are non-null, and `widthTotalBytes()`. -/
structure AstNodeDType where
  isUnpackArray : Bool
  isBasic : Bool
  widthTotalBytes : Int
  deriving DecidableEq, Repr

/-- The dynamic class of a node below a module, which selects the `visit` overload,
together with the attributes that overload reads.  Module-like containers and the
netlist are the separate types `AstNodeModule` and `AstNetlist`. -/
inductive NodeClass where
  /-- AstVar: `dtypep()` (none for NULL), `isUsedClock()`, `width()` (a bit width),
  `prettyName()`. -/
  | Var (dtypep : Option AstNodeDType) (isUsedClock : Bool) (width : Nat) (prettyName : String)
  /-- AstVarScope: the descriptor `varp()->dtypeSkipRefp()`. -/
  | VarScope (varDType : AstNodeDType)
  /-- AstNodeIf and its subclasses: `branchPred()`. -/
  | NodeIf (branchPred : AstBranchPred)
  /-- AstCCall: `funcp()`, as the index of the callee in the function table. -/
  | CCall (funcp : Nat)
  /-- AstCFunc: `name()` and `slow()`. -/
  | CFunc (name : String) (slow : Bool)
  /-- Any other class: handled by `visit(AstNode*)`. -/
  | Other
  deriving DecidableEq, Repr

/-- Modelled from the spec: a syntax tree node (`AstNode`, declared in `V3Ast.h`):
`type()`, `instrCount()`, the dynamic class, and the four operand lists
`op1p() .. op4p()`, each a list of siblings linked by `nextp()`. -/
inductive AstNode where
  | mk (type : AstType) (instrCount : Int) (cls : NodeClass)
      (op1p op2p op3p op4p : List AstNode)
  deriving Repr

namespace AstNode

/-- Kind of the node, `type()`. -/
def type : AstNode → AstType
  | mk t _ _ _ _ _ _ => t

/-- Cost weight of the node, `instrCount()`. -/
def instrCount : AstNode → Int
  | mk _ c _ _ _ _ _ => c

/-- Dynamic class of the node. -/
def cls : AstNode → NodeClass
  | mk _ _ k _ _ _ _ => k

/-- First operand list. -/
def op1p : AstNode → List AstNode
  | mk _ _ _ a _ _ _ => a

/-- Second operand list. -/
def op2p : AstNode → List AstNode
  | mk _ _ _ _ b _ _ => b

/-- Third operand list. -/
def op3p : AstNode → List AstNode
  | mk _ _ _ _ _ c _ => c

/-- Fourth operand list. -/
def op4p : AstNode → List AstNode
  | mk _ _ _ _ _ _ d => d

/-- Modelled from the spec: `AstNodeIf::condp()`, the condition subtree; the first
operand list. -/
def condp (n : AstNode) : List AstNode := n.op1p

/-- Modelled from the spec: `AstNodeIf::ifsp()`, the if-arm; the second operand list. -/
def ifsp (n : AstNode) : List AstNode := n.op2p

/-- Modelled from the spec: `AstNodeIf::elsesp()`, the else-arm; the third operand
list. -/
def elsesp (n : AstNode) : List AstNode := n.op3p

end AstNode

/-- Modelled from the spec: a module-like container (`AstNodeModule` and its
subclasses, declared in `V3AstNodes.h`); `stmtsp()` is its second operand list. -/
structure AstNodeModule where
  type : AstType
  instrCount : Int
  op1p : List AstNode
  stmtsp : List AstNode
  op3p : List AstNode
  op4p : List AstNode
  deriving Repr

/-- Modelled from the spec: the root of the tree (`AstNetlist`, declared in
`V3AstNodes.h`), the argument of `statsStageAll`; `modulesp()`, its first operand
list, holds the module-like containers. -/
structure AstNetlist where
  type : AstType
  instrCount : Int
  modulesp : List AstNodeModule
  op2p : List AstNode
  op3p : List AstNode
  op4p : List AstNode
  deriving Repr

/-- A function the call edges can refer to: the `AstCFunc` node and the type of its
`firstAbovep()` at its place in the tree (none when it is not the head of a list). -/
structure FuncEntry where
  abovep : Option AstType
  type : AstType
  instrCount : Int
  name : String
  slow : Bool
  op1p : List AstNode
  op2p : List AstNode
  op3p : List AstNode
  op4p : List AstNode

/-- The `AstCFunc` node of a table entry. -/
def FuncEntry.node (e : FuncEntry) : AstNode :=
  .mk e.type e.instrCount (.CFunc e.name e.slow) e.op1p e.op2p e.op3p e.op4p

/-- Resolution of `AstCCall::funcp()`. -/
abbrev FuncTable := Nat → FuncEntry

/-! ## The visitor state -/

/-- `NameMap`: `std::map<string,int>`, kept as a list of pairs ordered by key. -/
abbrev NameMap := List (String × Nat)

/-- The members of `StatsVisitor` (`m_stage` is only a label of the report), and one
ghost member, `varVisits`. -/
structure StatsVisitor where
  m_fast : Bool
  /-- Current CFUNC: `some b` for a function with `slow() = b`, `none` for NULL. -/
  m_cfuncp : Option Bool
  m_counting : Bool
  m_instrs : Int
  m_statTypeCount : AstType → Nat
  m_statAbove : AstType → AstType → Nat
  m_statPred : AstBranchPred → Nat
  m_statInstr : Int
  m_statInstrFast : Int
  m_statVarWidths : List Nat
  m_statVarWidthNames : List NameMap
  m_statVarArray : Nat
  m_statVarBytes : Int
  m_statVarClock : Nat
  m_statVarScpBytes : Int
  /-- Ghost member, not in the class and never read by the visitor: the width and
  display name of every counted visit of a variable that has a data type, latest
  first.  It is what the statements about "counted variable visits" refer to. -/
  varVisits : List (Nat × String)

/-- Ways the traversal can fail to return. -/
inductive Abort where
  /-- The fuel of the embedding ran out. -/
  | fuel
  /-- A `vector::at` threw `std::out_of_range`. -/
  | out_of_range
  deriving DecidableEq, Repr

/-- `allNodes(nodep)`, with `above` the type of `nodep->firstAbovep()`. -/
def allNodes (above : Option AstType) (type : AstType) (instrCount : Int)
    (s : StatsVisitor) : StatsVisitor :=
  if s.m_counting then
    { s with
      m_instrs := s.m_instrs + instrCount
      m_statTypeCount := fun k =>
        if k = type then s.m_statTypeCount k + 1 else s.m_statTypeCount k
      m_statAbove := fun k1 k2 =>
        if above = some k1 ∧ k2 = type then s.m_statAbove k1 k2 + 1 else s.m_statAbove k1 k2
      m_statInstr := s.m_statInstr + instrCount
      m_statInstrFast :=
        if s.m_cfuncp = some false then s.m_statInstrFast + instrCount
        else s.m_statInstrFast }
  else { s with m_instrs := s.m_instrs + instrCount }

/-- The type of one `accept`: the type above, the node, the state. -/
abbrev Visit := Option AstType → AstNode → StatsVisitor → Except Abort StatsVisitor

/-- The tail of `iterateAndNextConst`: the siblings after the head, which have no
`firstAbovep()`. -/
def iterateNext (v : Visit) : List AstNode → StatsVisitor → Except Abort StatsVisitor
  | [], s => .ok s
  | n :: rest, s => (v none n s).bind (iterateNext v rest)

/-- `listp->iterateAndNextConst(*this)` for an operand list of a node of type
`parent`; an empty list is skipped. -/
def iterateAndNextConst (v : Visit) (parent : AstType) :
    List AstNode → StatsVisitor → Except Abort StatsVisitor
  | [], s => .ok s
  | n :: rest, s => (v (some parent) n s).bind (iterateNext v rest)

/-- `nodep->iterateChildrenConst(*this)`: the four operand lists in order. -/
def iterateChildrenConst (v : Visit) (parent : AstType) (o1 o2 o3 o4 : List AstNode)
    (s : StatsVisitor) : Except Abort StatsVisitor :=
  (((iterateAndNextConst v parent o1 s).bind
    (iterateAndNextConst v parent o2)).bind
    (iterateAndNextConst v parent o3)).bind
    (iterateAndNextConst v parent o4)

/-- "Track prediction" in `visit(AstNodeIf*)`: `if (m_counting) ++m_statPred[pred]`. -/
def trackPred (branchPred : AstBranchPred) (s : StatsVisitor) : StatsVisitor :=
  if s.m_counting then
    { s with m_statPred := fun p =>
        if p = branchPred then s.m_statPred p + 1 else s.m_statPred p }
  else s

/-- One dry-run of an arm in `visit(AstNodeIf*)`: save `m_instrs` and `m_counting`,
iterate the arm with counting off and the local counter at zero, and return the
estimate and the state with `m_instrs` and `m_counting` put back. -/
def dryRun (v : Visit) (parent : AstType) (arm : List AstNode) (s : StatsVisitor) :
    Except Abort (Int × StatsVisitor) :=
  (iterateAndNextConst v parent arm { s with m_counting := false, m_instrs := 0 }).bind
    (fun s1 => .ok (s1.m_instrs, { s1 with m_instrs := s.m_instrs, m_counting := s.m_counting }))

/-- The critical-path branch of `visit(AstNodeIf*)`, the `else` of `if (!m_fast)`:
estimate the if-arm unless the hint is UNLIKELY, the else-arm unless the hint is
LIKELY, then, when counting, iterate the arm whose estimate is greater, the if-arm on
a tie. -/
def criticalBranch (v : Visit) (parent : AstType) (branchPred : AstBranchPred)
    (ifsp elsesp : List AstNode) (s : StatsVisitor) : Except Abort StatsVisitor :=
  (if branchPred ≠ .BP_UNLIKELY then dryRun v parent ifsp s else .ok (0, s)).bind fun r1 =>
  (if branchPred ≠ .BP_LIKELY then dryRun v parent elsesp r1.2 else .ok (0, r1.2)).bind
    fun r2 =>
  if r2.2.m_counting then
    if r1.1 ≥ r2.1 then iterateAndNextConst v parent ifsp r2.2
    else iterateAndNextConst v parent elsesp r2.2
  else .ok r2.2

/-- `resize(n)` of a vector: truncate, or pad with value-initialised elements. -/
def resize {α : Type} (l : List α) (n : Nat) (dflt : α) : List α :=
  l.take n ++ List.replicate (n - l.length) dflt

/-- `nameMapr.find(pn) != nameMapr.end()`. -/
def nameMapFind (m : NameMap) (pn : String) : Bool :=
  m.any fun it => decide (it.1 = pn)

/-- `nameMapr[pn] = 1` for a key that is not in the map: the entry is inserted at its place
in the order of the keys (strings compare by their characters). -/
def nameMapInsert : NameMap → String → NameMap
  | [], pn => [(pn, 1)]
  | (k, c) :: rest, pn =>
    if pn.data < k.data then (pn, 1) :: (k, c) :: rest
    else (k, c) :: nameMapInsert rest pn

/-- The update of a `NameMap` in `visit(AstVar*)`:
`if (nameMapr.find(pn) != nameMapr.end()) nameMapr[pn]++; else nameMapr[pn] = 1;`. -/
def nameMapIncr (m : NameMap) (pn : String) : NameMap :=
  if nameMapFind m pn then m.map fun it => if it.1 = pn then (it.1, it.2 + 1) else it
  else nameMapInsert m pn

/-- The running totals of `visit(AstVar*)`: the clock count, and the array count or the
byte total. -/
def varTotals (dt : AstNodeDType) (isUsedClock : Bool) (s : StatsVisitor) : StatsVisitor :=
  { s with
    m_statVarClock := if isUsedClock then s.m_statVarClock + 1 else s.m_statVarClock
    m_statVarArray := if dt.isUnpackArray then s.m_statVarArray + 1 else s.m_statVarArray
    m_statVarBytes :=
      if dt.isUnpackArray then s.m_statVarBytes else s.m_statVarBytes + dt.widthTotalBytes }

/-- The growth of the histogram in `visit(AstVar*)`:
`if (int(m_statVarWidths.size()) <= width) { resize(width+5); if (statsVars) resize(width+5); }`. -/
def growWidths (statsVars : Bool) (width : Nat) (s : StatsVisitor) : StatsVisitor :=
  if s.m_statVarWidths.length ≤ width then
    { s with
      m_statVarWidths := resize s.m_statVarWidths (width + 5) 0
      m_statVarWidthNames :=
        if statsVars then resize s.m_statVarWidthNames (width + 5) []
        else s.m_statVarWidthNames }
  else s

/-- The variable statistics of `visit(AstVar*)`, the body of
`if (m_counting && nodep->dtypep())`; `statsVars` is `v3Global.opt.statsVars()`.  A
failing `at` is `Abort.out_of_range`. -/
def varStats (statsVars : Bool) (dt : AstNodeDType) (isUsedClock : Bool) (width : Nat)
    (prettyName : String) (s : StatsVisitor) : Except Abort StatsVisitor :=
  let s1 := growWidths statsVars width (varTotals dt isUsedClock s)
  match s1.m_statVarWidths[width]? with
  | none => .error .out_of_range
  | some c =>
    let s2 : StatsVisitor := { s1 with
      m_statVarWidths := s1.m_statVarWidths.set width (c + 1)
      varVisits := (width, prettyName) :: s1.varVisits }
    if statsVars then
      match s2.m_statVarWidthNames[width]? with
      | none => .error .out_of_range
      | some nameMapr =>
        .ok { s2 with
          m_statVarWidthNames := s2.m_statVarWidthNames.set width
            (nameMapIncr nameMapr prettyName) }
    else .ok s2

/-- The end of `visit(AstVar*)`: `if (m_counting && nodep->dtypep()) { ... }`. -/
def varRule (statsVars : Bool) (dtypep : Option AstNodeDType) (isUsedClock : Bool)
    (width : Nat) (prettyName : String) (s : StatsVisitor) : Except Abort StatsVisitor :=
  match s.m_counting, dtypep with
  | true, some dt => varStats statsVars dt isUsedClock width prettyName s
  | _, _ => .ok s

/-- The end of `visit(AstVarScope*)`: when counting, a variable of basic type adds its
byte width to `m_statVarScpBytes`. -/
def varScopeRule (varDType : AstNodeDType) (s : StatsVisitor) : StatsVisitor :=
  if s.m_counting && varDType.isBasic then
    { s with m_statVarScpBytes := s.m_statVarScpBytes + varDType.widthTotalBytes }
  else s

/-- The `visit` overloads for the nodes below a module, selected by the dynamic class
of the node; `funcs` resolves call edges and `above` is the type of
`firstAbovep()`. -/
def visit (statsVars : Bool) (funcs : FuncTable) : Nat → Visit
  | 0, _, _, _ => .error .fuel
  | fuel + 1, above, .mk t c k o1 o2 o3 o4, s =>
    let v : Visit := visit statsVars funcs fuel
    match k with
    | .Var dtypep isUsedClock width prettyName =>
      (iterateChildrenConst v t o1 o2 o3 o4 (allNodes above t c s)).bind
        (varRule statsVars dtypep isUsedClock width prettyName)
    | .VarScope varDType =>
      (iterateChildrenConst v t o1 o2 o3 o4 (allNodes above t c s)).bind fun s2 =>
        .ok (varScopeRule varDType s2)
    | .NodeIf branchPred =>
      (iterateAndNextConst v t o1 (allNodes above t c s)).bind fun s2 =>
        if !(trackPred branchPred s2).m_fast then
          iterateChildrenConst v t o1 o2 o3 o4 (trackPred branchPred s2)
        else criticalBranch v t branchPred o2 o3 (trackPred branchPred s2)
    | .CCall funcp =>
      (iterateChildrenConst v t o1 o2 o3 o4 (allNodes above t c s)).bind fun s2 =>
        if s2.m_fast then v (funcs funcp).abovep (funcs funcp).node s2
        else .ok s2
    | .CFunc _ slow =>
      (iterateChildrenConst v t o1 o2 o3 o4
        (allNodes above t c { s with m_cfuncp := some slow })).bind fun s2 =>
        .ok { s2 with m_cfuncp := none }
    | .Other => iterateChildrenConst v t o1 o2 o3 o4 (allNodes above t c s)

/-- The loop of `visit(AstNodeModule*)` in critical-path mode over `stmtsp()`: the
children of every `AstCFunc` named `_eval` are iterated with counting on. -/
def moduleEvalLoop (v : Visit) : List AstNode → StatsVisitor → Except Abort StatsVisitor
  | [], s => .ok s
  | .mk t _ (.CFunc name _) o1 o2 o3 o4 :: rest, s =>
    if name = "_eval" then
      (iterateChildrenConst v t o1 o2 o3 o4 { s with m_instrs := 0, m_counting := true }).bind
        (fun s1 => moduleEvalLoop v rest { s1 with m_counting := false })
    else moduleEvalLoop v rest s
  | _ :: rest, s => moduleEvalLoop v rest s

/-- `visit(AstNodeModule*)`. -/
def visitNodeModule (v : Visit) (above : Option AstType) (m : AstNodeModule)
    (s : StatsVisitor) : Except Abort StatsVisitor :=
  let s1 := allNodes above m.type m.instrCount s
  if !s1.m_fast then iterateChildrenConst v m.type m.op1p m.stmtsp m.op3p m.op4p s1
  else moduleEvalLoop v m.stmtsp s1

/-- The siblings after the first module of `modulesp()`. -/
def iterateNextModules (v : Visit) :
    List AstNodeModule → StatsVisitor → Except Abort StatsVisitor
  | [], s => .ok s
  | m :: rest, s => (visitNodeModule v none m s).bind (iterateNextModules v rest)

/-- `iterateAndNextConst` over `modulesp()`, the first operand list of the netlist. -/
def iterateModules (v : Visit) (parent : AstType) :
    List AstNodeModule → StatsVisitor → Except Abort StatsVisitor
  | [], s => .ok s
  | m :: rest, s => (visitNodeModule v (some parent) m s).bind (iterateNextModules v rest)

/-- `visit(AstNode*)` applied to the netlist, which has no `firstAbovep()`. -/
def visitNetlist (v : Visit) (n : AstNetlist) (s : StatsVisitor) :
    Except Abort StatsVisitor :=
  (((iterateModules v n.type n.modulesp (allNodes none n.type n.instrCount s)).bind
    (iterateAndNextConst v n.type n.op2p)).bind
    (iterateAndNextConst v n.type n.op3p)).bind
    (iterateAndNextConst v n.type n.op4p)

/-- The constructor of `StatsVisitor` before `nodep->accept(*this)`. -/
def StatsVisitor.init (fast : Bool) : StatsVisitor where
  m_fast := fast
  m_cfuncp := none
  m_counting := !fast
  m_instrs := 0
  m_statTypeCount := fun _ => 0
  m_statAbove := fun _ _ => 0
  m_statPred := fun _ => 0
  m_statInstr := 0
  m_statInstrFast := 0
  m_statVarWidths := []
  m_statVarWidthNames := []
  m_statVarArray := 0
  m_statVarBytes := 0
  m_statVarClock := 0
  m_statVarScpBytes := 0
  varVisits := []

/-- `V3Stats::statsStageAll(nodep, stage, fast)` up to the destructor: the state of
the visitor after the traversal of the netlist.  The fuel bounds the depth of nested
`accept` calls below the modules. -/
def statsStageAll (statsVars : Bool) (funcs : FuncTable) (fuel : Nat) (nodep : AstNetlist)
    (fast : Bool) : Except Abort StatsVisitor :=
  visitNetlist (visit statsVars funcs fuel) nodep (StatsVisitor.init fast)

/-! ## The report of the destructor -/

/-- The label of a published entry, `V3Stats::addStat(m_stage, label, value)`, by
category and parameters instead of the formatted text. -/
inductive StatLabel where
  /-- "Instruction count, TOTAL" -/
  | instrTotal
  /-- "Instruction count, fast critical" -/
  | instrFast
  /-- "Vars, unpacked arrayed" -/
  | varsArrayed
  /-- "Vars, clock attribute" -/
  | varsClock
  /-- "Var space, non-arrays, bytes" -/
  | varBytes
  /-- "Var space, scoped, bytes" -/
  | varScpBytes
  /-- "Vars, width <i>" -/
  | varsWidth (i : Nat)
  /-- "Vars, width <i> <name>" -/
  | varsWidthName (i : Nat) (name : String)
  /-- "Node count, <type>" -/
  | nodeCount (type : AstType)
  /-- "Node pairs, <type>_<type2>" -/
  | nodePairs (type type2 : AstType)
  /-- "Branch prediction, <pred>" -/
  | branchPred (pred : AstBranchPred)
  deriving DecidableEq, Repr

/-- A published entry: label and value. -/
abbrev StatEntry := StatLabel × Int

/-- The body of the loop over `m_statVarWidths` in the destructor, for index `i`. -/
def widthEntries (statsVars : Bool) (s : StatsVisitor) (i : Nat) :
    Except Abort (List StatEntry) :=
  match s.m_statVarWidths[i]? with
  | none => .error .out_of_range
  | some count =>
    if count ≠ 0 then
      if statsVars then
        match s.m_statVarWidthNames[i]? with
        | none => .error .out_of_range
        | some nameMapr =>
          .ok (nameMapr.map fun it => (StatLabel.varsWidthName i it.1, (it.2 : Int)))
      else .ok [(StatLabel.varsWidth i, (count : Int))]
    else .ok []

/-- The loop over `m_statVarWidths` in the destructor, over the indices `is`. -/
def publishWidths (statsVars : Bool) (s : StatsVisitor) :
    List Nat → Except Abort (List StatEntry)
  | [] => .ok []
  | i :: rest =>
    match widthEntries statsVars s i with
    | .error e => .error e
    | .ok es =>
      match publishWidths statsVars s rest with
      | .error e => .error e
      | .ok more => .ok (es ++ more)

/-- The loop over the node types in the destructor. -/
def publishTypes (enumEnd : Nat) (s : StatsVisitor) : List StatEntry :=
  (List.range enumEnd).filterMap fun type =>
    if s.m_statTypeCount type ≠ 0 then
      some (StatLabel.nodeCount type, (s.m_statTypeCount type : Int))
    else none

/-- The double loop over the pairs of node types in the destructor. -/
def publishAbove (enumEnd : Nat) (s : StatsVisitor) : List StatEntry :=
  (List.range enumEnd).flatMap fun type =>
    (List.range enumEnd).filterMap fun type2 =>
      if s.m_statAbove type type2 ≠ 0 then
        some (StatLabel.nodePairs type type2, (s.m_statAbove type type2 : Int))
      else none

/-- The loop over the prediction hints in the destructor. -/
def publishPred (s : StatsVisitor) : List StatEntry :=
  [AstBranchPred.BP_NONE, AstBranchPred.BP_LIKELY, AstBranchPred.BP_UNLIKELY].filterMap
    fun pred =>
      if s.m_statPred pred ≠ 0 then some (StatLabel.branchPred pred, (s.m_statPred pred : Int))
      else none

/-- The destructor `~StatsVisitor`: the entries handed to `V3Stats::addStat`, in
order; `enumEnd` is `AstType::_ENUM_END`. -/
def publish (enumEnd : Nat) (statsVars : Bool) (s : StatsVisitor) :
    Except Abort (List StatEntry) :=
  match publishWidths statsVars s (List.range s.m_statVarWidths.length) with
  | .error e => .error e
  | .ok widths =>
    .ok ([(StatLabel.instrTotal, s.m_statInstr),
          (StatLabel.instrFast, s.m_statInstrFast),
          (StatLabel.varsArrayed, (s.m_statVarArray : Int)),
          (StatLabel.varsClock, (s.m_statVarClock : Int)),
          (StatLabel.varBytes, s.m_statVarBytes)]
      ++ (if s.m_statVarScpBytes ≠ 0 then [(StatLabel.varScpBytes, s.m_statVarScpBytes)]
          else [])
      ++ widths ++ publishTypes enumEnd s ++ publishAbove enumEnd s ++ publishPred s)

/-! ## Measures of a tree -/

mutual
/-- Number of nodes of a subtree. -/
def AstNode.size : AstNode → Nat
  | .mk _ _ _ o1 o2 o3 o4 => 1 + sizeList o1 + sizeList o2 + sizeList o3 + sizeList o4
/-- Number of nodes of a list of subtrees. -/
def sizeList : List AstNode → Nat
  | [] => 0
  | n :: rest => n.size + sizeList rest
end

mutual
/-- Sum of the cost weights of the nodes of a subtree, each node once. -/
def AstNode.sumInstr : AstNode → Int
  | .mk _ c _ o1 o2 o3 o4 =>
    c + sumInstrList o1 + sumInstrList o2 + sumInstrList o3 + sumInstrList o4
/-- Sum of the cost weights of the nodes of a list of subtrees. -/
def sumInstrList : List AstNode → Int
  | [] => 0
  | n :: rest => n.sumInstr + sumInstrList rest
end

/-- Number of nodes of a module, itself included. -/
def AstNodeModule.size (m : AstNodeModule) : Nat :=
  1 + sizeList m.op1p + sizeList m.stmtsp + sizeList m.op3p + sizeList m.op4p

/-- Sum of the cost weights of the nodes of a module, itself included. -/
def AstNodeModule.sumInstr (m : AstNodeModule) : Int :=
  m.instrCount + sumInstrList m.op1p + sumInstrList m.stmtsp + sumInstrList m.op3p
    + sumInstrList m.op4p

/-- Total number of nodes of the tree. -/
def AstNetlist.size (n : AstNetlist) : Nat :=
  1 + (n.modulesp.map AstNodeModule.size).sum + sizeList n.op2p + sizeList n.op3p
    + sizeList n.op4p

/-- Sum of the cost weights of all nodes of the tree, each node once. -/
def AstNetlist.sumInstr (n : AstNetlist) : Int :=
  n.instrCount + (n.modulesp.map AstNodeModule.sumInstr).sum + sumInstrList n.op2p
    + sumInstrList n.op3p + sumInstrList n.op4p

/-- Sum of `m_statTypeCount` over the kinds below `enumEnd` (`AstType::_ENUM_END`). -/
def sumTypeCount (enumEnd : Nat) (s : StatsVisitor) : Nat :=
  ((List.range enumEnd).map s.m_statTypeCount).sum

/-! ## Predicates on trees and states -/

mutual
/-- Whether every node of a subtree passes the node-local test `R` on its type, cost
weight and class. -/
def AstNode.all (R : AstType → Int → NodeClass → Bool) : AstNode → Bool
  | .mk t c k o1 o2 o3 o4 =>
    R t c k && allList R o1 && allList R o2 && allList R o3 && allList R o4
/-- Whether every node of a list of subtrees passes `R`. -/
def allList (R : AstType → Int → NodeClass → Bool) : List AstNode → Bool
  | [] => true
  | n :: rest => n.all R && allList R rest
end

/-- Whether every node of a module, itself included as a node of class `Other`,
passes `R`. -/
def AstNodeModule.all (R : AstType → Int → NodeClass → Bool) (m : AstNodeModule) : Bool :=
  R m.type m.instrCount .Other && allList R m.op1p && allList R m.stmtsp && allList R m.op3p
    && allList R m.op4p

/-- Whether every node of the tree passes `R` (the netlist and the modules as nodes of
class `Other`). -/
def AstNetlist.all (R : AstType → Int → NodeClass → Bool) (n : AstNetlist) : Bool :=
  R n.type n.instrCount .Other && n.modulesp.all (AstNodeModule.all R) && allList R n.op2p
    && allList R n.op3p && allList R n.op4p

/-- Node test: the cost weight is not negative. -/
def costNonneg : AstType → Int → NodeClass → Bool := fun _ c _ => decide (0 ≤ c)

/-- The mode flag and the counting flag of `s'` are those of `s`. -/
def Flags (s s' : StatsVisitor) : Prop :=
  s'.m_counting = s.m_counting ∧ s'.m_fast = s.m_fast

/-- A predicate on visitor states is closed under the elementary steps of the `visit`
overloads, for nodes that pass `R`: the accounting of a node, entering and leaving a
function, entering and leaving a dry-run (critical-path mode only), the tally of a
prediction hint, the variable statistics and the scoped-variable bytes. -/
structure StepClosed (statsVars : Bool) (R : AstType → Int → NodeClass → Bool)
    (P : StatsVisitor → Prop) : Prop where
  allNodes : ∀ a t c k s, R t c k = true → P s → P (allNodes a t c s)
  cfuncEnter : ∀ t c name slow s, R t c (.CFunc name slow) = true → P s →
    P { s with m_cfuncp := some slow }
  cfuncLeave : ∀ t c name slow s, R t c (.CFunc name slow) = true → P s →
    P { s with m_cfuncp := none }
  dryEnter : ∀ s, P s → s.m_fast = true → P { s with m_counting := false, m_instrs := 0 }
  dryLeave : ∀ s s1, P s → s.m_fast = true → P s1 →
    P { s1 with m_instrs := s.m_instrs, m_counting := s.m_counting }
  pred : ∀ t c p s, R t c (.NodeIf p) = true → P s → s.m_counting = true →
    P { s with m_statPred := fun q => if q = p then s.m_statPred q + 1 else s.m_statPred q }
  var : ∀ t c dt clk w name s s', R t c (.Var (some dt) clk w name) = true → P s →
    s.m_counting = true → varStats statsVars dt clk w name s = .ok s' → P s'
  scp : ∀ t c dt s, R t c (.VarScope dt) = true → P s → s.m_counting = true →
    P { s with m_statVarScpBytes := s.m_statVarScpBytes + dt.widthTotalBytes }

/-! ## Sample trees -/

/-- A node of class `Other` without children. -/
def leaf (type : AstType) (instrCount : Int) : AstNode :=
  .mk type instrCount .Other [] [] [] []

/-- A function table for trees without call edges: every entry is an empty function. -/
def noFuncs : FuncTable := fun _ => ⟨none, 0, 0, "", false, [], [], [], []⟩

/-- A conditional with hint NONE (kind 3, weight 1): condition of weight 2 (kind 4),
if-arm of weight 4 (kind 5), else-arm of weight 1 (kind 6). -/
def sampleCond : AstNode :=
  .mk 3 1 (.NodeIf .BP_NONE) [leaf 4 2] [leaf 5 4] [leaf 6 1] []

/-- The function `_eval` (kind 2, weight 0, not slow) whose statement, its third
operand, is `sampleCond`. -/
def sampleEval : AstNode :=
  .mk 2 0 (.CFunc "_eval" false) [] [] [sampleCond] []

/-- A netlist (kind 0, weight 0) with one module (kind 1, weight 0) holding
`sampleEval`. -/
def sampleIf : AstNetlist :=
  ⟨0, 0, [⟨1, 0, [], [sampleEval], [], []⟩], [], [], []⟩

/-- Node test: the node is not a function marked slow. -/
def notSlow : AstType → Int → NodeClass → Bool := fun _ _ k =>
  match k with
  | .CFunc _ slow => !slow
  | _ => true

/-- A netlist (kind 0, weight 0) with one module (kind 1, weight 3) holding the function
`_eval` (kind 2, weight 0, not slow), whose only statement is a node of weight 5
(kind 3). -/
def sampleEvalOnly : AstNetlist :=
  ⟨0, 0, [⟨1, 3, [], [.mk 2 0 (.CFunc "_eval" false) [] [] [leaf 3 5] []], [], []⟩], [], [], []⟩

/-! ## The critical path as a pure function -/

/-- Sum of a partial function over a list of nodes. -/
def sumOver (g : AstNode → Option Int) : List AstNode → Option Int
  | [] => some 0
  | n :: rest =>
    match g n, sumOver g rest with
    | some a, some b => some (a + b)
    | _, _ => none

/-- The dry-run estimate of a node: its cost weight and the estimates of its children; a
call edge adds the estimate of the callee function node; a conditional adds only the
estimate of its condition, nothing of its arms.  The fuel bounds the depth, as in
`visit`. -/
def estRef (funcs : FuncTable) : Nat → AstNode → Option Int
  | 0, _ => none
  | fuel + 1, .mk _ c k o1 o2 o3 o4 =>
    let est := sumOver (estRef funcs fuel)
    match k with
    | .NodeIf _ => (est o1).map (c + ·)
    | .CCall funcp =>
      match est (o1 ++ o2 ++ o3 ++ o4), estRef funcs fuel (funcs funcp).node with
      | some a, some b => some (c + a + b)
      | _, _ => none
    | _ => (est (o1 ++ o2 ++ o3 ++ o4)).map (c + ·)

/-- The cost of the chosen path through a node as a pure function: `path(n)` is the cost
weight of `n` plus the path of its children; a call edge adds the path of the callee
function node; a conditional adds the path of its condition and the path of one arm, the
if-arm when its estimate is at least that of the else-arm, the estimate of the if-arm
taken as 0 under hint UNLIKELY and that of the else-arm as 0 under hint LIKELY. -/
def pathRef (funcs : FuncTable) : Nat → AstNode → Option Int
  | 0, _ => none
  | fuel + 1, .mk _ c k o1 o2 o3 o4 =>
    let path := sumOver (pathRef funcs fuel)
    let est := sumOver (estRef funcs fuel)
    match k with
    | .NodeIf branchPred =>
      match path o1,
        (if branchPred = .BP_UNLIKELY then some 0 else est o2),
        (if branchPred = .BP_LIKELY then some 0 else est o3) with
      | some pc, some ei, some ee =>
        (if ei ≥ ee then path o2 else path o3).map (c + pc + ·)
      | _, _, _ => none
    | .CCall funcp =>
      match path (o1 ++ o2 ++ o3 ++ o4), pathRef funcs fuel (funcs funcp).node with
      | some a, some b => some (c + a + b)
      | _, _ => none
    | _ => (path (o1 ++ o2 ++ o3 ++ o4)).map (c + ·)

/-- The children of the functions named `_eval` among the statements of a module. -/
def evalBodies : List AstNode → List AstNode
  | [] => []
  | .mk _ _ (.CFunc name _) o1 o2 o3 o4 :: rest =>
    if name = "_eval" then o1 ++ o2 ++ o3 ++ o4 ++ evalBodies rest else evalBodies rest
  | _ :: rest => evalBodies rest

/-- The reference value of the critical path of a tree: the sum, over every function named
`_eval` that is a statement of a module, of `path` over the children of that function. -/
def critPathRef (funcs : FuncTable) (fuel : Nat) (n : AstNetlist) : Option Int :=
  sumOver (pathRef funcs fuel) (n.modulesp.flatMap fun m => evalBodies m.stmtsp)

mutual
/-- The callees of the call edges of a subtree. -/
def AstNode.calls : AstNode → List Nat
  | .mk _ _ k o1 o2 o3 o4 =>
    (match k with
      | .CCall funcp => [funcp]
      | _ => []) ++ callsList o1 ++ callsList o2 ++ callsList o3 ++ callsList o4
/-- The callees of the call edges of a list of subtrees. -/
def callsList : List AstNode → List Nat
  | [] => []
  | n :: rest => n.calls ++ callsList rest
end

/-- The call graph is acyclic: the functions can be ranked so that every call edge in the
body of a function leads to a function of lower rank. -/
def Acyclic (funcs : FuncTable) : Prop :=
  ∃ rank : Nat → Nat, ∀ i, ∀ j ∈ (funcs i).node.calls, rank j < rank i

/-- The statistics of the accumulator, without the traversal state (`m_fast`,
`m_cfuncp`, `m_counting`, `m_instrs`). -/
structure Accumulator where
  statTypeCount : AstType → Nat
  statAbove : AstType → AstType → Nat
  statPred : AstBranchPred → Nat
  statInstr : Int
  statInstrFast : Int
  statVarWidths : List Nat
  statVarWidthNames : List NameMap
  statVarArray : Nat
  statVarBytes : Int
  statVarClock : Nat
  statVarScpBytes : Int
  varVisits : List (Nat × String)

/-- The statistics held by a visitor. -/
def StatsVisitor.accum (s : StatsVisitor) : Accumulator :=
  ⟨s.m_statTypeCount, s.m_statAbove, s.m_statPred, s.m_statInstr, s.m_statInstrFast,
    s.m_statVarWidths, s.m_statVarWidthNames, s.m_statVarArray, s.m_statVarBytes,
    s.m_statVarClock, s.m_statVarScpBytes, s.varVisits⟩

/-- Node test that every node passes. -/
def anyNode : AstType → Int → NodeClass → Bool := fun _ _ _ => true

/-- The per-name breakdown is as long as the width histogram whenever it is kept
(`statsVars`): both are resized together. -/
def NamesInv (statsVars : Bool) (s : StatsVisitor) : Prop :=
  statsVars = true → s.m_statVarWidthNames.length = s.m_statVarWidths.length

/-- Bucket `w` of the width histogram; a bucket beyond the size of the vector holds
nothing. -/
def StatsVisitor.widthCount (s : StatsVisitor) (w : Nat) : Nat :=
  s.m_statVarWidths.getD w 0

/-- A visitor state in full mode whose histogram is sized for the widths up to 10 (buckets
0, 8 and 10 hold 3, 1 and 2) and whose per-name breakdown has the same size. -/
def sampleHistogram : StatsVisitor :=
  { StatsVisitor.init false with
    m_statVarWidths := [3, 0, 0, 0, 0, 0, 0, 0, 1, 0, 2]
    m_statVarWidthNames :=
      [[("a", 2), ("b", 1)], [], [], [], [], [], [], [], [("c", 1)], [], [("d", 2)]] }

/-- The visit `v` returns on node `n` from every state that satisfies `NamesInv`. -/
def Ret (statsVars : Bool) (v : Visit) (n : AstNode) : Prop :=
  ∀ a s, NamesInv statsVars s → ∃ s', v a n s = .ok s'

/-- From `N` units of fuel on, `visit` returns on node `n`. -/
def Returns (statsVars : Bool) (funcs : FuncTable) (n : AstNode) (N : Nat) : Prop :=
  ∀ fuel, N ≤ fuel → Ret statsVars (visit statsVars funcs fuel) n

/-- The nodes below which critical-path mode descends from the top of the tree: the children
of the `_eval` functions of the modules, and the other operands of the netlist. -/
def AstNetlist.entryNodes (n : AstNetlist) : List AstNode :=
  (n.modulesp.flatMap fun m => evalBodies m.stmtsp) ++ (n.op2p ++ (n.op3p ++ n.op4p))

/-- A function table with call edges: function 1 calls function 0 (a body of weight 7) and
then executes a node of weight 2; every other entry is an empty function. -/
def sampleFuncs : FuncTable := fun i =>
  match i with
  | 0 => ⟨none, 2, 1, "leaf_func", false, [], [], [leaf 9 7], []⟩
  | 1 => ⟨none, 2, 1, "mid_func", false, [], [],
      [.mk 7 1 (.CCall 0) [] [] [] [], leaf 9 2], []⟩
  | _ => ⟨none, 0, 0, "", false, [], [], [], []⟩

/-- A netlist whose module holds `_eval` and the two functions of `sampleFuncs`; `_eval`
calls function 1 and then runs a conditional with hint NONE: the if-arm is a node of weight
4, the else-arm a call to function 0 (estimate 9). -/
def sampleCalls : AstNetlist :=
  ⟨0, 0, [⟨1, 0, [],
    [.mk 2 0 (.CFunc "_eval" false) [] []
      [.mk 7 1 (.CCall 1) [] [] [] [],
       .mk 3 1 (.NodeIf .BP_NONE) [leaf 4 2] [leaf 5 4] [.mk 7 1 (.CCall 0) [] [] [] []] []]
      [],
     (sampleFuncs 1).node, (sampleFuncs 0).node],
    [], []⟩], [], [], []⟩

/-- A visitor state in critical-path mode with counting on, as inside the body of
`_eval`. -/
def countingState : StatsVisitor :=
  { StatsVisitor.init true with m_counting := true }

/-- A conditional of kind 3 and weight 1 with a condition of weight 2 (kind 4), an if-arm of
one node of kind 5 and an else-arm of one node of kind 6, with the given hint and arm
weights. -/
def armsIf (branchPred : AstBranchPred) (ifWeight elseWeight : Int) : AstNode :=
  .mk 3 1 (.NodeIf branchPred) [leaf 4 2] [leaf 5 ifWeight] [leaf 6 elseWeight] []

/-- Node test: the node is neither a conditional nor a call edge. -/
def plain : AstType → Int → NodeClass → Bool := fun _ _ k =>
  match k with
  | .NodeIf _ => false
  | .CCall _ => false
  | _ => true

/-- The tree of the end-to-end scenario with distinct weights: module of weight 3, function
`_eval` of weight 5, conditional of weight 1 with hint NONE, condition of weight 2, if-arm
of weight 4, else-arm of weight 1. -/
def sampleScenario : AstNetlist :=
  ⟨0, 0, [⟨1, 3, [], [.mk 2 5 (.CFunc "_eval" false) [] [] [sampleCond] []], [], []⟩],
    [], [], []⟩

/-- The children of the modules and the other operands of the netlist: the nodes below
which full mode descends from the top of the tree. -/
def AstNetlist.topNodes (n : AstNetlist) : List AstNode :=
  (n.modulesp.flatMap fun m => m.op1p ++ (m.stmtsp ++ (m.op3p ++ m.op4p)))
    ++ (n.op2p ++ (n.op3p ++ n.op4p))

/-- Node test: the node is not a function node. -/
def notFunc : AstType → Int → NodeClass → Bool := fun _ _ k =>
  match k with
  | .CFunc _ _ => false
  | _ => true

mutual
/-- Whether, below a node that lies outside every function, all cost lies inside functions
that are not slow and do not nest: a function node is not slow and holds no function node;
any other node has cost weight zero and children of the same kind. -/
def AstNode.costInFuncs : AstNode → Bool
  | .mk _ c k o1 o2 o3 o4 =>
    match k with
    | .CFunc _ slow =>
      !slow && allList notFunc o1 && allList notFunc o2 && allList notFunc o3
        && allList notFunc o4
    | _ =>
      decide (c = 0) && costInFuncsList o1 && costInFuncsList o2 && costInFuncsList o3
        && costInFuncsList o4
/-- The list form of `AstNode.costInFuncs`. -/
def costInFuncsList : List AstNode → Bool
  | [] => true
  | n :: rest => n.costInFuncs && costInFuncsList rest
end

/-- Whether all cost of the tree lies inside functions that are not slow and do not nest:
the netlist and the modules have cost weight zero. -/
def AstNetlist.costInFuncs (n : AstNetlist) : Bool :=
  decide (n.instrCount = 0)
    && n.modulesp.all (fun m => decide (m.instrCount = 0) && costInFuncsList m.op1p
        && costInFuncsList m.stmtsp && costInFuncsList m.op3p && costInFuncsList m.op4p)
    && costInFuncsList n.op2p && costInFuncsList n.op3p && costInFuncsList n.op4p

/-- A netlist of weight 0 with one module of weight 0 holding two functions that are not
slow: `_eval` with a conditional, and a helper with a variable. -/
def sampleFuncsOnly : AstNetlist :=
  ⟨0, 0, [⟨1, 0, [],
    [sampleEval,
     .mk 2 3 (.CFunc "helper" false) [] []
       [.mk 8 2 (.Var (some ⟨false, true, 4⟩) false 32 "v") [] [] [] []] []],
    [], []⟩], [], [], []⟩

/-- A name map `m` records the visits `vs` at width `w`: its keys are distinct, its entries
are exactly the names visited at that width, each with its number of visits, and its counts
sum to the number of visits at that width. -/
def NameMapOK (m : NameMap) (w : Nat) (vs : List (Nat × String)) : Prop :=
  (m.map fun it => it.1).Nodup ∧
  (∀ name c, (name, c) ∈ m ↔ (c = vs.count (w, name) ∧ 0 < c)) ∧
  (m.map fun it => it.2).sum = vs.countP fun v => decide (v.1 = w)

/-- The histogram and the breakdown record the counted variable visits `varVisits`: bucket
`w` is the number of visits at width `w`, the two vectors have one length when the breakdown
is kept, and then every name map records the visits at its width. -/
def HistInv (statsVars : Bool) (s : StatsVisitor) : Prop :=
  (∀ w, s.widthCount w = s.varVisits.countP fun v => decide (v.1 = w)) ∧
  NamesInv statsVars s ∧
  (statsVars = true → ∀ w, NameMapOK (s.m_statVarWidthNames.getD w []) w s.varVisits)

/-- A label of the report of the width histogram for width `w`: the aggregate entry of the
bucket or one of its per-name entries. -/
def isWidthEntry (w : Nat) : StatLabel → Bool
  | .varsWidth i => decide (i = w)
  | .varsWidthName i _ => decide (i = w)
  | _ => false

/-- The entries that the destructor publishes for bucket `i`, read off the state without the
checked accesses. -/
def widthReport (statsVars : Bool) (s : StatsVisitor) (i : Nat) : List StatEntry :=
  if s.widthCount i ≠ 0 then
    if statsVars then
      (s.m_statVarWidthNames.getD i []).map fun it =>
        (StatLabel.varsWidthName i it.1, (it.2 : Int))
    else [(StatLabel.varsWidth i, (s.widthCount i : Int))]
  else []

/-- A netlist (kind 0) with one module (kind 1) that declares two variables (kind 7) of
width 8 with the display name "clk", each with a basic data type of one byte. -/
def sampleTwoVars : AstNetlist :=
  ⟨0, 0, [⟨1, 0, [],
    [.mk 7 0 (.Var (some ⟨false, true, 1⟩) false 8 "clk") [] [] [] [],
     .mk 7 0 (.Var (some ⟨false, true, 1⟩) false 8 "clk") [] [] [] []], [], []⟩], [], [], []⟩

/-- A function table with a call edge back to its own function: function 0 (kind 2,
weight 1) holds one call edge (kind 7, weight 1) to function 0; every other entry is an
empty function. -/
def loopFuncs : FuncTable := fun i =>
  match i with
  | 0 => ⟨none, 2, 1, "again", false, [], [], [.mk 7 1 (.CCall 0) [] [] [] []], []⟩
  | _ => ⟨none, 0, 0, "", false, [], [], [], []⟩

/-- A finite tree whose module holds `_eval`, with one call edge to function 0 of
`loopFuncs`, and that function. -/
def sampleLoop : AstNetlist :=
  ⟨0, 0, [⟨1, 0, [],
    [.mk 2 0 (.CFunc "_eval" false) [] [] [.mk 7 1 (.CCall 0) [] [] [] []] [],
     (loopFuncs 0).node],
    [], []⟩], [], [], []⟩

/-- Whether a published entry carries the label `L`. -/
def hasLabel (L : StatLabel) (e : StatEntry) : Bool := decide (e.1 = L)

/-- What a module visit does to the flags: the mode is kept; in full mode the counting flag is
kept; a visit entered with counting off leaves it off. -/
def ModuleFlags (s s' : StatsVisitor) : Prop :=
  s'.m_fast = s.m_fast ∧ (s.m_fast = false → s'.m_counting = s.m_counting) ∧
    (s.m_counting = false → s'.m_counting = false)

/-- Node test: the cost weight is not negative, and neither is the byte width of the data type
of a variable or of a scoped variable. -/
def weightsNonneg : AstType → Int → NodeClass → Bool := fun _ c k =>
  decide (0 ≤ c) &&
    match k with
    | .Var (some dt) _ _ _ => decide (0 ≤ dt.widthTotalBytes)
    | .VarScope dt => decide (0 ≤ dt.widthTotalBytes)
    | _ => true

/-- No statistic of `s'` is below its value in `s`, no bucket of the histogram and no name
map of `s` is missing in `s'`, and every name entry of `s` is in `s'` with a count that is at
least as large. -/
def AppendOnly (s s' : StatsVisitor) : Prop :=
  s.m_statInstr ≤ s'.m_statInstr ∧ s.m_statInstrFast ≤ s'.m_statInstrFast ∧
  (∀ k, s.m_statTypeCount k ≤ s'.m_statTypeCount k) ∧
  (∀ k1 k2, s.m_statAbove k1 k2 ≤ s'.m_statAbove k1 k2) ∧
  (∀ p, s.m_statPred p ≤ s'.m_statPred p) ∧
  (∀ w, s.widthCount w ≤ s'.widthCount w) ∧
  s.m_statVarWidths.length ≤ s'.m_statVarWidths.length ∧
  s.m_statVarWidthNames.length ≤ s'.m_statVarWidthNames.length ∧
  (∀ w name c, (name, c) ∈ s.m_statVarWidthNames.getD w [] →
    ∃ c', c ≤ c' ∧ (name, c') ∈ s'.m_statVarWidthNames.getD w []) ∧
  s.m_statVarArray ≤ s'.m_statVarArray ∧ s.m_statVarClock ≤ s'.m_statVarClock ∧
  s.m_statVarBytes ≤ s'.m_statVarBytes ∧ s.m_statVarScpBytes ≤ s'.m_statVarScpBytes

/-- Node test: the node is neither a call edge nor a function node. -/
def noCallFunc : AstType → Int → NodeClass → Bool := fun _ _ k =>
  match k with
  | .CCall _ => false
  | .CFunc _ _ => false
  | _ => true

/-- Whether a list of statements holds a function named `_eval`. -/
def hasEval : List AstNode → Bool
  | [] => false
  | .mk _ _ (.CFunc name _) _ _ _ _ :: rest => decide (name = "_eval") || hasEval rest
  | _ :: rest => hasEval rest

/-- Sum of `m_statPred` over the prediction hints. -/
def predSum (s : StatsVisitor) : Nat :=
  s.m_statPred .BP_NONE + s.m_statPred .BP_LIKELY + s.m_statPred .BP_UNLIKELY

/-- Sum of `m_statTypeCount` over the kinds of the list `ifKinds`. -/
def ifKindSum (ifKinds : List AstType) (s : StatsVisitor) : Nat :=
  (ifKinds.map s.m_statTypeCount).sum

/-- Whether the class of a node is `AstNodeIf`. -/
def isNodeIf : NodeClass → Bool
  | .NodeIf _ => true
  | _ => false

/-- Node test: the kind of the node is one of the conditional kinds `ifKinds` exactly when
its class is `AstNodeIf`. -/
def kindsOfIf (ifKinds : List AstType) : AstType → Int → NodeClass → Bool := fun t _ k =>
  decide (t ∈ ifKinds) == isNodeIf k

/-- By how much the counts of the conditional kinds exceed the prediction tallies. -/
def condBalance (ifKinds : List AstType) (s : StatsVisitor) : Int :=
  (ifKindSum ifKinds s : Int) - (predSum s : Int)

/-- A netlist whose `_eval` holds a conditional (kind 3, hint LIKELY) whose condition holds
another conditional (kind 3, hint NONE): the kinds of the conditionals are `[3]`. -/
def sampleNestedIf : AstNetlist :=
  ⟨0, 0, [⟨1, 0, [],
    [.mk 2 0 (.CFunc "_eval" false) [] []
      [.mk 3 1 (.NodeIf .BP_LIKELY) [armsIf .BP_NONE 4 1] [leaf 5 4] [leaf 6 1] []] []],
    [], []⟩], [], [], []⟩

theorem bind_eq_ok {α β : Type} {x : Except Abort α} {f : α → Except Abort β} {b : β} :
    x.bind f = .ok b ↔ ∃ a, x = .ok a ∧ f a = .ok b := by
  cases x with
  | error e => simp [Except.bind]
  | ok a => simp [Except.bind]

theorem Flags.refl (s : StatsVisitor) : Flags s s := ⟨rfl, rfl⟩
theorem Flags.trans {a b c : StatsVisitor} (h1 : Flags a b) (h2 : Flags b c) : Flags a c :=
  ⟨h2.1.trans h1.1, h2.2.trans h1.2⟩

theorem allNodes_flags (a t c s) : Flags s (allNodes a t c s) := by
  unfold allNodes Flags; split <;> simp

theorem iterateNext_rel {v : Visit} {Rel : StatsVisitor → StatsVisitor → Prop}
    (hrefl : ∀ s, Rel s s) (htrans : ∀ a b c, Rel a b → Rel b c → Rel a c)
    (hv : ∀ a n s s', v a n s = .ok s' → Rel s s') :
    ∀ l s s', iterateNext v l s = .ok s' → Rel s s' := by
  intro l
  induction l with
  | nil => intro s s' h; simp [iterateNext] at h; subst h; exact hrefl _
  | cons n rest ih =>
    intro s s' h
    simp only [iterateNext, bind_eq_ok] at h
    obtain ⟨s1, h1, h2⟩ := h
    exact htrans _ _ _ (hv _ _ _ _ h1) (ih _ _ h2)

theorem iterateAndNextConst_rel {v : Visit} {Rel : StatsVisitor → StatsVisitor → Prop}
    (hrefl : ∀ s, Rel s s) (htrans : ∀ a b c, Rel a b → Rel b c → Rel a c)
    (hv : ∀ a n s s', v a n s = .ok s' → Rel s s') (p : AstType) :
    ∀ l s s', iterateAndNextConst v p l s = .ok s' → Rel s s' := by
  intro l s s' h
  cases l with
  | nil => simp [iterateAndNextConst] at h; subst h; exact hrefl _
  | cons n rest =>
    simp only [iterateAndNextConst, bind_eq_ok] at h
    obtain ⟨s1, h1, h2⟩ := h
    exact htrans _ _ _ (hv _ _ _ _ h1) (iterateNext_rel hrefl htrans hv _ _ _ h2)

theorem iterateChildrenConst_rel {v : Visit} {Rel : StatsVisitor → StatsVisitor → Prop}
    (hrefl : ∀ s, Rel s s) (htrans : ∀ a b c, Rel a b → Rel b c → Rel a c)
    (hv : ∀ a n s s', v a n s = .ok s' → Rel s s') (p : AstType) (o1 o2 o3 o4 : List AstNode) :
    ∀ s s', iterateChildrenConst v p o1 o2 o3 o4 s = .ok s' → Rel s s' := by
  intro s s' h
  simp only [iterateChildrenConst, bind_eq_ok] at h
  obtain ⟨s3, ⟨s2, ⟨s1, h1, h2⟩, h3⟩, h4⟩ := h
  have r := iterateAndNextConst_rel hrefl htrans hv p
  exact htrans _ _ _ (htrans _ _ _ (htrans _ _ _ (r _ _ _ h1) (r _ _ _ h2)) (r _ _ _ h3)) (r _ _ _ h4)

/-- `growWidths` changes only the two vectors. -/
theorem growWidths_frame (statsVars : Bool) (w : Nat) (s : StatsVisitor) :
    growWidths statsVars w s = { s with
      m_statVarWidths := (growWidths statsVars w s).m_statVarWidths
      m_statVarWidthNames := (growWidths statsVars w s).m_statVarWidthNames } := by
  unfold growWidths; split <;> rfl

theorem varStats_flags {statsVars : Bool} {dt : AstNodeDType} {clk : Bool} {w : Nat}
    {name : String} {s s' : StatsVisitor}
    (h : varStats statsVars dt clk w name s = .ok s') : Flags s s' := by
  have hg : Flags s (growWidths statsVars w (varTotals dt clk s)) := by
    rw [growWidths_frame]; exact ⟨rfl, rfl⟩
  unfold varStats at h
  simp only at h
  split at h
  · cases h
  · split at h
    · split at h
      · cases h
      · cases h; exact hg
    · cases h; exact hg

theorem trackPred_flags (p : AstBranchPred) (s : StatsVisitor) : Flags s (trackPred p s) := by
  unfold trackPred; split <;> exact ⟨rfl, rfl⟩

theorem varScopeRule_flags (dt : AstNodeDType) (s : StatsVisitor) :
    Flags s (varScopeRule dt s) := by
  unfold varScopeRule; split <;> exact ⟨rfl, rfl⟩

theorem varRule_flags {statsVars : Bool} {dt : Option AstNodeDType} {clk : Bool} {w : Nat}
    {name : String} {s s' : StatsVisitor}
    (h : varRule statsVars dt clk w name s = .ok s') : Flags s s' := by
  unfold varRule at h
  split at h
  · exact varStats_flags h
  · cases h; exact Flags.refl _

theorem dryRun_flags {v : Visit} (hv : ∀ a n s s', v a n s = .ok s' → Flags s s')
    {p : AstType} {arm : List AstNode} {s : StatsVisitor} {r : Int × StatsVisitor}
    (h : dryRun v p arm s = .ok r) : Flags s r.2 := by
  simp only [dryRun, bind_eq_ok] at h
  obtain ⟨s1, h1, h2⟩ := h
  cases h2
  exact ⟨rfl, (iterateAndNextConst_rel Flags.refl (fun _ _ _ => Flags.trans) hv _ _ _ _ h1).2⟩

theorem criticalBranch_flags {v : Visit} (hv : ∀ a n s s', v a n s = .ok s' → Flags s s')
    {p : AstType} {pred : AstBranchPred} {o2 o3 : List AstNode} {s s' : StatsVisitor}
    (h : criticalBranch v p pred o2 o3 s = .ok s') : Flags s s' := by
  simp only [criticalBranch, bind_eq_ok] at h
  obtain ⟨r1, hr1, r2, hr2, h3⟩ := h
  have hl := iterateAndNextConst_rel Flags.refl (fun _ _ _ => Flags.trans) hv
  have f1 : Flags s r1.2 := by
    split at hr1
    · exact dryRun_flags hv hr1
    · cases hr1; exact Flags.refl _
  have f2 : Flags r1.2 r2.2 := by
    split at hr2
    · exact dryRun_flags hv hr2
    · cases hr2; exact Flags.refl _
  split at h3
  · split at h3
    · exact (f1.trans f2).trans (hl _ _ _ _ h3)
    · exact (f1.trans f2).trans (hl _ _ _ _ h3)
  · cases h3; exact f1.trans f2

theorem visit_flags (statsVars : Bool) (funcs : FuncTable) :
    ∀ fuel a n s s', visit statsVars funcs fuel a n s = .ok s' → Flags s s' := by
  intro fuel
  induction fuel with
  | zero => intro a n s s' h; simp [visit] at h
  | succ fuel ih =>
    intro a n s s' h
    obtain ⟨t, c, k, o1, o2, o3, o4⟩ := n
    simp only [visit] at h
    have hc := iterateChildrenConst_rel Flags.refl (fun _ _ _ => Flags.trans) ih
    have hl := iterateAndNextConst_rel Flags.refl (fun _ _ _ => Flags.trans) ih
    have ha := allNodes_flags a t c
    cases k with
    | Other =>
      simp only at h
      exact (ha _).trans (hc _ _ _ _ _ _ _ h)
    | Var dt clk w name =>
      simp only [bind_eq_ok] at h
      obtain ⟨s2, h1, h2⟩ := h
      exact ((ha _).trans (hc _ _ _ _ _ _ _ h1)).trans (varRule_flags h2)
    | VarScope dt =>
      simp only [bind_eq_ok] at h
      obtain ⟨s2, h1, h2⟩ := h
      cases h2
      exact ((ha _).trans (hc _ _ _ _ _ _ _ h1)).trans (varScopeRule_flags _ _)
    | NodeIf pred =>
      simp only [bind_eq_ok] at h
      obtain ⟨s2, h1, h2⟩ := h
      have h13 := ((ha _).trans (hl _ _ _ _ h1)).trans (trackPred_flags pred s2)
      split at h2
      · exact h13.trans (hc _ _ _ _ _ _ _ h2)
      · exact h13.trans (criticalBranch_flags ih h2)
    | CCall f =>
      simp only [bind_eq_ok] at h
      obtain ⟨s2, h1, h2⟩ := h
      have h12 := (ha _).trans (hc _ _ _ _ _ _ _ h1)
      split at h2
      · exact h12.trans (ih _ _ _ _ h2)
      · cases h2; exact h12
    | CFunc name slow =>
      simp only [bind_eq_ok] at h
      obtain ⟨s2, h1, h2⟩ := h
      cases h2
      have h12 := (allNodes_flags a t c { s with m_cfuncp := some slow }).trans
        (hc _ _ _ _ _ _ _ h1)
      exact ⟨h12.1, h12.2⟩

/-! ### Invariants of the traversal -/

theorem all_mk {R : AstType → Int → NodeClass → Bool} {t : AstType} {c : Int} {k : NodeClass}
    {o1 o2 o3 o4 : List AstNode} :
    (AstNode.mk t c k o1 o2 o3 o4).all R = true ↔
      R t c k = true ∧ allList R o1 = true ∧ allList R o2 = true ∧ allList R o3 = true
        ∧ allList R o4 = true := by
  simp [AstNode.all, and_assoc]

theorem allList_iff {R : AstType → Int → NodeClass → Bool} {l : List AstNode} :
    allList R l = true ↔ ∀ n ∈ l, n.all R = true := by
  induction l with
  | nil => simp [allList]
  | cons n rest ih => simp [allList, ih]

theorem iterateNext_inv {v : Visit} {G : AstNode → Prop} {P : StatsVisitor → Prop}
    (hv : ∀ a n s s', G n → P s → v a n s = .ok s' → P s') :
    ∀ l s s', (∀ n ∈ l, G n) → P s → iterateNext v l s = .ok s' → P s' := by
  intro l
  induction l with
  | nil => intro s s' _ hp h; simp [iterateNext] at h; subst h; exact hp
  | cons n rest ih =>
    intro s s' hl hp h
    simp only [iterateNext, bind_eq_ok] at h
    obtain ⟨s1, h1, h2⟩ := h
    exact ih _ _ (fun x hx => hl x (List.mem_cons_of_mem _ hx))
      (hv _ _ _ _ (hl n (List.mem_cons_self _ _)) hp h1) h2

theorem iterateAndNextConst_inv {v : Visit} {G : AstNode → Prop} {P : StatsVisitor → Prop}
    (hv : ∀ a n s s', G n → P s → v a n s = .ok s' → P s') (p : AstType) :
    ∀ l s s', (∀ n ∈ l, G n) → P s → iterateAndNextConst v p l s = .ok s' → P s' := by
  intro l s s' hl hp h
  cases l with
  | nil => simp [iterateAndNextConst] at h; subst h; exact hp
  | cons n rest =>
    simp only [iterateAndNextConst, bind_eq_ok] at h
    obtain ⟨s1, h1, h2⟩ := h
    exact iterateNext_inv hv _ _ _ (fun x hx => hl x (List.mem_cons_of_mem _ hx))
      (hv _ _ _ _ (hl n (List.mem_cons_self _ _)) hp h1) h2

theorem iterateChildrenConst_inv {v : Visit} {G : AstNode → Prop} {P : StatsVisitor → Prop}
    (hv : ∀ a n s s', G n → P s → v a n s = .ok s' → P s') (p : AstType)
    {o1 o2 o3 o4 : List AstNode} (h1 : ∀ n ∈ o1, G n) (h2 : ∀ n ∈ o2, G n)
    (h3 : ∀ n ∈ o3, G n) (h4 : ∀ n ∈ o4, G n) :
    ∀ s s', P s → iterateChildrenConst v p o1 o2 o3 o4 s = .ok s' → P s' := by
  intro s s' hp h
  simp only [iterateChildrenConst, bind_eq_ok] at h
  obtain ⟨s3, ⟨s2, ⟨s1, e1, e2⟩, e3⟩, e4⟩ := h
  have r := iterateAndNextConst_inv hv p
  exact r _ _ _ h4 (r _ _ _ h3 (r _ _ _ h2 (r _ _ _ h1 hp e1) e2) e3) e4

theorem dryRun_inv {statsVars : Bool} {v : Visit} {R : AstType → Int → NodeClass → Bool}
    {G : AstNode → Prop} {P : StatsVisitor → Prop} (hP : StepClosed statsVars R P)
    (hv : ∀ a n s s', G n → P s → v a n s = .ok s' → P s')
    {p : AstType} {arm : List AstNode} {s : StatsVisitor} {r : Int × StatsVisitor}
    (harm : ∀ n ∈ arm, G n) (hp : P s) (hf : s.m_fast = true)
    (h : dryRun v p arm s = .ok r) : P r.2 := by
  simp only [dryRun, bind_eq_ok] at h
  obtain ⟨s1, h1, h2⟩ := h
  cases h2
  exact hP.dryLeave s s1 hp hf
    (iterateAndNextConst_inv hv p _ _ _ harm (hP.dryEnter s hp hf) h1)

theorem criticalBranch_inv {statsVars : Bool} {v : Visit}
    {R : AstType → Int → NodeClass → Bool} {G : AstNode → Prop}
    {P : StatsVisitor → Prop} (hP : StepClosed statsVars R P)
    (hv : ∀ a n s s', G n → P s → v a n s = .ok s' → P s')
    (hvf : ∀ a n s s', v a n s = .ok s' → Flags s s')
    {p : AstType} {pred : AstBranchPred} {o2 o3 : List AstNode} {s s' : StatsVisitor}
    (h2 : ∀ n ∈ o2, G n) (h3 : ∀ n ∈ o3, G n) (hp : P s) (hf : s.m_fast = true)
    (h : criticalBranch v p pred o2 o3 s = .ok s') : P s' := by
  simp only [criticalBranch, bind_eq_ok] at h
  obtain ⟨r1, hr1, r2, hr2, e⟩ := h
  have f1 : P r1.2 ∧ r1.2.m_fast = true := by
    split at hr1
    · exact ⟨dryRun_inv hP hv h2 hp hf hr1, (dryRun_flags hvf hr1).2.trans hf⟩
    · cases hr1; exact ⟨hp, hf⟩
  have f2 : P r2.2 := by
    split at hr2
    · exact dryRun_inv hP hv h3 f1.1 f1.2 hr2
    · cases hr2; exact f1.1
  split at e
  · split at e
    · exact iterateAndNextConst_inv hv p _ _ _ h2 f2 e
    · exact iterateAndNextConst_inv hv p _ _ _ h3 f2 e
  · cases e; exact f2

theorem trackPred_inv {statsVars : Bool} {R : AstType → Int → NodeClass → Bool}
    {P : StatsVisitor → Prop} (hP : StepClosed statsVars R P) {t : AstType} {c : Int}
    {p : AstBranchPred} (hR : R t c (.NodeIf p) = true)
    {s : StatsVisitor} (hp : P s) : P (trackPred p s) := by
  unfold trackPred
  split
  · exact hP.pred t c p s hR hp ‹_›
  · exact hp

theorem trackPred_fast (p : AstBranchPred) (s : StatsVisitor) :
    (trackPred p s).m_fast = s.m_fast := (trackPred_flags p s).2

/-- A predicate closed under the elementary steps is preserved by every `visit`, when the
nodes of the subtree pass `R` and, as far as call edges are entered, so do the nodes of the
callable functions. -/
theorem visit_inv {statsVars : Bool} {funcs : FuncTable}
    {R : AstType → Int → NodeClass → Bool} {P : StatsVisitor → Prop}
    (hP : StepClosed statsVars R P)
    (hfuncs : ∀ i s, P s → s.m_fast = true → (funcs i).node.all R = true) :
    ∀ fuel a n s s', n.all R = true → P s → visit statsVars funcs fuel a n s = .ok s' →
      P s' := by
  intro fuel
  induction fuel with
  | zero => intro a n s s' _ _ h; simp [visit] at h
  | succ fuel ih =>
    intro a n s s' hn hp h
    obtain ⟨t, c, k, o1, o2, o3, o4⟩ := n
    obtain ⟨hR, h1, h2, h3, h4⟩ := all_mk.1 hn
    rw [allList_iff] at h1 h2 h3 h4
    simp only [visit] at h
    have hc := fun s s' => iterateChildrenConst_inv (P := P) ih t h1 h2 h3 h4 s s'
    have ha := hP.allNodes a t c k s hR hp
    cases k with
    | Other => exact hc _ _ ha h
    | Var dt clk w name =>
      simp only [bind_eq_ok] at h
      obtain ⟨s2, e1, e2⟩ := h
      have p2 := hc _ _ ha e1
      unfold varRule at e2
      split at e2
      · exact hP.var t c _ clk w name _ _ hR p2 ‹_› e2
      · cases e2; exact p2
    | VarScope dt =>
      simp only [bind_eq_ok] at h
      obtain ⟨s2, e1, e2⟩ := h
      cases e2
      have p2 := hc _ _ ha e1
      unfold varScopeRule
      split
      · rename_i hcnd
        simp only [Bool.and_eq_true] at hcnd
        exact hP.scp t c dt s2 hR p2 hcnd.1
      · exact p2
    | NodeIf pred =>
      simp only [bind_eq_ok] at h
      obtain ⟨s2, e1, e2⟩ := h
      have p2 := iterateAndNextConst_inv ih t _ _ _ h1 ha e1
      have p3 := trackPred_inv hP hR p2
      split at e2
      · exact hc _ _ p3 e2
      · rename_i hf
        simp only [Bool.not_eq_true, Bool.not_eq_false'] at hf
        exact criticalBranch_inv hP ih (visit_flags statsVars funcs fuel) h2 h3 p3
          (by simpa using hf) e2
    | CCall f =>
      simp only [bind_eq_ok] at h
      obtain ⟨s2, e1, e2⟩ := h
      have p2 := hc _ _ ha e1
      split at e2
      · exact ih _ _ _ _ (hfuncs f s2 p2 ‹_›) p2 e2
      · cases e2; exact p2
    | CFunc name slow =>
      simp only [bind_eq_ok] at h
      obtain ⟨s2, e1, e2⟩ := h
      cases e2
      exact hP.cfuncLeave t c name slow _ hR
        (hc _ _ (hP.allNodes a t c _ _ hR (hP.cfuncEnter t c name slow s hR hp)) e1)

theorem moduleEvalLoop_inv {v : Visit} {R : AstType → Int → NodeClass → Bool}
    {P : StatsVisitor → Prop}
    (hv : ∀ a n s s', n.all R = true → P s → v a n s = .ok s' → P s')
    (hEnter : ∀ s, P s → P { s with m_instrs := 0, m_counting := true })
    (hLeave : ∀ s, P s → P { s with m_counting := false }) :
    ∀ l s s', allList R l = true → P s → moduleEvalLoop v l s = .ok s' → P s' := by
  intro l
  induction l with
  | nil => intro s s' _ hp h; simp [moduleEvalLoop] at h; subst h; exact hp
  | cons n rest ih =>
    intro s s' hl hp h
    simp only [allList, Bool.and_eq_true] at hl
    obtain ⟨t, c, k, o1, o2, o3, o4⟩ := n
    obtain ⟨_, h1, h2, h3, h4⟩ := all_mk.1 hl.1
    rw [allList_iff] at h1 h2 h3 h4
    cases k with
    | CFunc name slow =>
      simp only [moduleEvalLoop] at h
      split at h
      · simp only [bind_eq_ok] at h
        obtain ⟨s1, e1, e2⟩ := h
        exact ih _ _ hl.2 (hLeave _ (iterateChildrenConst_inv hv t h1 h2 h3 h4 _ _
          (hEnter s hp) e1)) e2
      · exact ih _ _ hl.2 hp h
    | _ => simp only [moduleEvalLoop] at h; exact ih _ _ hl.2 hp h

theorem visitNodeModule_inv {statsVars : Bool} {funcs : FuncTable}
    {R : AstType → Int → NodeClass → Bool} {P : StatsVisitor → Prop}
    (hP : StepClosed statsVars R P)
    (hfuncs : ∀ i s, P s → s.m_fast = true → (funcs i).node.all R = true)
    (hEnter : ∀ s, P s → P { s with m_instrs := 0, m_counting := true })
    (hLeave : ∀ s, P s → P { s with m_counting := false })
    {fuel : Nat} {a : Option AstType} {m : AstNodeModule} {s s' : StatsVisitor}
    (hm : m.all R = true) (hp : P s)
    (h : visitNodeModule (visit statsVars funcs fuel) a m s = .ok s') : P s' := by
  have hv := visit_inv hP hfuncs fuel
  simp only [AstNodeModule.all, Bool.and_eq_true] at hm
  obtain ⟨⟨⟨⟨hR, h1⟩, h2⟩, h3⟩, h4⟩ := hm
  have ha := hP.allNodes a m.type m.instrCount _ s hR hp
  unfold visitNodeModule at h
  simp only at h
  split at h
  · rw [allList_iff] at h1 h2 h3 h4
    exact iterateChildrenConst_inv hv _ h1 h2 h3 h4 _ _ ha h
  · exact moduleEvalLoop_inv hv hEnter hLeave _ _ _ h2 ha h

/-- A predicate closed under the elementary steps, including those of the module rule, is
preserved by the traversal of the netlist. -/
theorem visitNetlist_inv {statsVars : Bool} {funcs : FuncTable}
    {R : AstType → Int → NodeClass → Bool} {P : StatsVisitor → Prop}
    (hP : StepClosed statsVars R P)
    (hfuncs : ∀ i s, P s → s.m_fast = true → (funcs i).node.all R = true)
    (hEnter : ∀ s, P s → P { s with m_instrs := 0, m_counting := true })
    (hLeave : ∀ s, P s → P { s with m_counting := false })
    {fuel : Nat} {n : AstNetlist} {s s' : StatsVisitor} (hn : n.all R = true) (hp : P s)
    (h : visitNetlist (visit statsVars funcs fuel) n s = .ok s') : P s' := by
  have hv := visit_inv hP hfuncs fuel
  have hmod : ∀ a m s s', AstNodeModule.all R m = true → P s →
      visitNodeModule (visit statsVars funcs fuel) a m s = .ok s' → P s' :=
    fun a m s s' hm hp h => visitNodeModule_inv hP hfuncs hEnter hLeave hm hp h
  have hnext : ∀ l s s', l.all (AstNodeModule.all R) = true → P s →
      iterateNextModules (visit statsVars funcs fuel) l s = .ok s' → P s' := by
    intro l
    induction l with
    | nil => intro s s' _ hp h; simp [iterateNextModules] at h; subst h; exact hp
    | cons m rest ih =>
      intro s s' hl hp h
      simp only [List.all_cons, Bool.and_eq_true] at hl
      simp only [iterateNextModules, bind_eq_ok] at h
      obtain ⟨s1, e1, e2⟩ := h
      exact ih _ _ hl.2 (hmod _ _ _ _ hl.1 hp e1) e2
  simp only [AstNetlist.all, Bool.and_eq_true] at hn
  obtain ⟨⟨⟨⟨hR, hm⟩, h2⟩, h3⟩, h4⟩ := hn
  rw [allList_iff] at h2 h3 h4
  simp only [visitNetlist, bind_eq_ok] at h
  obtain ⟨s3, ⟨s2, ⟨s1, e1, e2⟩, e3⟩, e4⟩ := h
  have ha := hP.allNodes none n.type n.instrCount _ s hR hp
  have p1 : P s1 := by
    cases hmp : n.modulesp with
    | nil => rw [hmp] at e1; simp [iterateModules] at e1; subst e1; exact ha
    | cons m rest =>
      rw [hmp] at e1 hm
      simp only [List.all_cons, Bool.and_eq_true] at hm
      simp only [iterateModules, bind_eq_ok] at e1
      obtain ⟨s0, e0, e1⟩ := e1
      exact hnext _ _ _ hm.2 (hmod _ _ _ _ hm.1 ha e0) e1
  have r := iterateAndNextConst_inv hv n.type
  exact r _ _ _ h4 (r _ _ _ h3 (r _ _ _ h2 p1 e2) e3) e4

/-! ### The variable statistics -/

/-- `varStats` changes only the variable statistics. -/
theorem varStats_frame {statsVars : Bool} {dt : AstNodeDType} {clk : Bool} {w : Nat}
    {name : String} {s s' : StatsVisitor}
    (h : varStats statsVars dt clk w name s = .ok s') :
    s' = { s with
      m_statVarClock := s'.m_statVarClock
      m_statVarArray := s'.m_statVarArray
      m_statVarBytes := s'.m_statVarBytes
      m_statVarWidths := s'.m_statVarWidths
      m_statVarWidthNames := s'.m_statVarWidthNames
      varVisits := s'.varVisits } := by
  have hg := growWidths_frame statsVars w (varTotals dt clk s)
  unfold varStats at h
  simp only at h
  split at h
  · cases h
  · split at h
    · split at h
      · cases h
      · cases h; rw [hg]; rfl
    · cases h; rw [hg]; rfl

/-! ### The fast-critical count is bounded by the total -/

theorem stepClosed_fast_le (statsVars : Bool) :
    StepClosed statsVars costNonneg (fun s => s.m_statInstrFast ≤ s.m_statInstr) where
  allNodes := by
    intro a t c k s hR hp
    simp only [costNonneg, decide_eq_true_eq] at hR
    unfold allNodes
    split
    · simp only
      split <;> omega
    · exact hp
  cfuncEnter := fun _ _ _ _ _ _ hp => hp
  cfuncLeave := fun _ _ _ _ _ _ hp => hp
  dryEnter := fun _ hp _ => hp
  dryLeave := fun _ _ _ _ hp => hp
  pred := fun _ _ _ _ _ hp _ => hp
  var := by
    intro t c dt clk w name s s' _ hp _ h
    rw [varStats_frame h]
    exact hp
  scp := fun _ _ _ _ _ hp _ => hp

/-- C5: with cost weights that are not negative, in the tree and in the callable functions,
`m_statInstrFast ≤ m_statInstr` is preserved by every visit of a node, of a module and of
the netlist, in either mode, and so holds at the end of `statsStageAll` and for the two
values that the destructor publishes first, "Instruction count, TOTAL" and "Instruction
count, fast critical". -/
theorem fastCritical_le_total (statsVars : Bool) (funcs : FuncTable)
    (hfuncs : ∀ i, (funcs i).node.all costNonneg = true) :
    (∀ fuel a n s s', n.all costNonneg = true → s.m_statInstrFast ≤ s.m_statInstr →
      visit statsVars funcs fuel a n s = .ok s' → s'.m_statInstrFast ≤ s'.m_statInstr) ∧
    (∀ fuel a m s s', AstNodeModule.all costNonneg m = true →
      s.m_statInstrFast ≤ s.m_statInstr →
      visitNodeModule (visit statsVars funcs fuel) a m s = .ok s' →
      s'.m_statInstrFast ≤ s'.m_statInstr) ∧
    (∀ fuel nodep fast s', AstNetlist.all costNonneg nodep = true →
      statsStageAll statsVars funcs fuel nodep fast = .ok s' →
      s'.m_statInstrFast ≤ s'.m_statInstr) ∧
    (∀ enumEnd fuel nodep fast s' es, AstNetlist.all costNonneg nodep = true →
      statsStageAll statsVars funcs fuel nodep fast = .ok s' →
      publish enumEnd statsVars s' = .ok es →
      ∃ total fastCritical, es[0]? = some (StatLabel.instrTotal, total) ∧
        es[1]? = some (StatLabel.instrFast, fastCritical) ∧ fastCritical ≤ total) := by
  have hP := stepClosed_fast_le statsVars
  have hfuncs := fun i (s : StatsVisitor) (_ : s.m_statInstrFast ≤ s.m_statInstr)
    (_ : s.m_fast = true) => hfuncs i
  have hinit : ∀ fast, (StatsVisitor.init fast).m_statInstrFast
      ≤ (StatsVisitor.init fast).m_statInstr := fun _ => le_refl _
  refine ⟨fun fuel a n s s' hn hp h => visit_inv hP hfuncs fuel a n s s' hn hp h,
    fun fuel a m s s' hm hp h =>
      visitNodeModule_inv hP hfuncs (fun _ hp => hp) (fun _ hp => hp) hm hp h,
    fun fuel nodep fast s' hn h =>
      visitNetlist_inv hP hfuncs (fun _ hp => hp) (fun _ hp => hp) hn (hinit fast) h,
    fun enumEnd fuel nodep fast s' es hn h hes => ?_⟩
  have hle := visitNetlist_inv hP hfuncs (fun _ hp => hp) (fun _ hp => hp) hn (hinit fast) h
  unfold publish at hes
  split at hes
  · cases hes
  · cases hes
    exact ⟨_, _, rfl, rfl, hle⟩

theorem fastCritical_le_total_witness :
    (∀ i, (noFuncs i).node.all costNonneg = true) ∧ sampleIf.all costNonneg = true ∧
    ∃ s', statsStageAll false noFuncs 10 sampleIf true = .ok s' ∧
      s'.m_statInstrFast ≤ s'.m_statInstr :=
  ⟨fun _ => rfl, by decide,
    match h : statsStageAll false noFuncs 10 sampleIf true with
    | .ok s' => ⟨s', rfl,
        (fastCritical_le_total false noFuncs (fun _ => rfl)).2.2.1 10 sampleIf true s'
          (by decide) h⟩
    | .error e => by
        have : (statsStageAll false noFuncs 10 sampleIf true).toOption.isSome = true := by
          decide
        rw [h] at this
        cases this⟩

/-! ### Full mode: the condition of a conditional is visited twice -/

/-- C1 at a failing input: on `sampleIf`, a tree of 7 nodes whose kinds are below 7, the
full-mode traversal returns with `m_statTypeCount` summing to 8: the node of the condition
(kind 4) is counted twice, once by `condp()->iterateAndNextConst` and once by
`iterateChildrenConst`. -/
theorem full_mode_counts_condition_twice :
    (statsStageAll false noFuncs 10 sampleIf false).toOption.map (sumTypeCount 7) = some 8
      ∧ (statsStageAll false noFuncs 10 sampleIf false).toOption.map
          (fun s => s.m_statTypeCount 4) = some 2
      ∧ sampleIf.size = 7 := by
  decide

/-- C2 at a failing input: on `sampleIf`, whose cost weights sum to 8, the full-mode
traversal returns with `m_statInstr = 10`: the weight 2 of the condition is added twice. -/
theorem full_mode_adds_condition_cost_twice :
    (statsStageAll false noFuncs 10 sampleIf false).toOption.map (fun s => s.m_statInstr)
        = some 10
      ∧ sampleIf.sumInstr = 8 := by
  decide

/-! ### The fast-critical count against the total -/

/-- C4 refuted: `sampleEvalOnly` has no function marked slow, yet `m_statInstrFast` differs
from `m_statInstr` in both modes: 5 against 8 in full mode (the module is counted outside any
function), 0 against 5 in critical-path mode (the body of `_eval` is iterated without
entering the function node). -/
theorem fastCritical_ne_total_without_slow :
    sampleEvalOnly.all notSlow = true
      ∧ (statsStageAll false noFuncs 10 sampleEvalOnly false).toOption.map
          (fun s => (s.m_statInstr, s.m_statInstrFast)) = some (8, 5)
      ∧ (statsStageAll false noFuncs 10 sampleEvalOnly true).toOption.map
          (fun s => (s.m_statInstr, s.m_statInstrFast)) = some (5, 0) := by
  decide

/-! ### Dry-runs -/

theorem all_anyNode (n : AstNode) : n.all anyNode = true := by
  exact @AstNode.rec (fun n => n.all anyNode = true) (fun l => allList anyNode l = true)
    (fun t c k o1 o2 o3 o4 h1 h2 h3 h4 => by simp [AstNode.all, h1, h2, h3, h4, anyNode])
    (by simp [allList]) (fun n rest hn hr => by simp [allList, hn, hr]) n

/-- With counting off, no step of a `visit` changes a statistic of the accumulator. -/
theorem stepClosed_dry (statsVars : Bool) (acc : Accumulator) :
    StepClosed statsVars anyNode (fun s => s.m_counting = false ∧ s.accum = acc) where
  allNodes := by
    intro a t c k s _ hp
    unfold allNodes
    rw [if_neg (by simp [hp.1])]
    exact hp
  cfuncEnter := fun _ _ _ _ _ _ hp => hp
  cfuncLeave := fun _ _ _ _ _ _ hp => hp
  dryEnter := fun _ hp _ => ⟨rfl, hp.2⟩
  dryLeave := fun _ _ hp _ hp1 => ⟨hp.1, hp1.2⟩
  pred := fun _ _ _ _ _ hp hc => by simp [hp.1] at hc
  var := fun _ _ _ _ _ _ _ _ _ hp hc _ => by simp [hp.1] at hc
  scp := fun _ _ _ _ _ hp hc => by simp [hp.1] at hc

theorem sumOver_cons_some {g : AstNode → Option Int} {n : AstNode} {rest : List AstNode}
    {a b : Int} (h1 : g n = some a) (h2 : sumOver g rest = some b) :
    sumOver g (n :: rest) = some (a + b) := by
  simp [sumOver, h1, h2]

theorem sumOver_append_some {g : AstNode → Option Int} :
    ∀ {l1 l2 : List AstNode} {a b : Int}, sumOver g l1 = some a → sumOver g l2 = some b →
      sumOver g (l1 ++ l2) = some (a + b) := by
  intro l1
  induction l1 with
  | nil => intro l2 a b h1 h2; simp [sumOver] at h1; subst h1; simpa using h2
  | cons n rest ih =>
    intro l2 a b h1 h2
    simp only [sumOver] at h1
    split at h1
    · rename_i x y hx hy
      cases h1
      rw [List.cons_append, sumOver_cons_some hx (ih hy h2)]
      simp [add_assoc]
    · cases h1

/-- The effect of a traversal on a counter `q` is the sum of `g` over the nodes, when
this holds for each visit under the precondition `Pre`, which the visits maintain. -/
theorem iterateNext_sum {v : Visit} {Pre : StatsVisitor → Prop} {q : StatsVisitor → Int}
    {g : AstNode → Option Int}
    (hv : ∀ a n s s', Pre s → v a n s = .ok s' →
      Pre s' ∧ ∃ r, g n = some r ∧ q s' = q s + r) :
    ∀ l s s', Pre s → iterateNext v l s = .ok s' →
      Pre s' ∧ ∃ r, sumOver g l = some r ∧ q s' = q s + r := by
  intro l
  induction l with
  | nil =>
    intro s s' hp h
    simp [iterateNext] at h
    subst h
    exact ⟨hp, 0, rfl, by simp⟩
  | cons n rest ih =>
    intro s s' hp h
    simp only [iterateNext, bind_eq_ok] at h
    obtain ⟨s1, h1, h2⟩ := h
    obtain ⟨hp1, r1, hr1, e1⟩ := hv _ _ _ _ hp h1
    obtain ⟨hp2, r2, hr2, e2⟩ := ih _ _ hp1 h2
    exact ⟨hp2, r1 + r2, sumOver_cons_some hr1 hr2, by rw [e2, e1, add_assoc]⟩

theorem iterateAndNextConst_sum {v : Visit} {Pre : StatsVisitor → Prop}
    {q : StatsVisitor → Int} {g : AstNode → Option Int}
    (hv : ∀ a n s s', Pre s → v a n s = .ok s' →
      Pre s' ∧ ∃ r, g n = some r ∧ q s' = q s + r) (p : AstType) :
    ∀ l s s', Pre s → iterateAndNextConst v p l s = .ok s' →
      Pre s' ∧ ∃ r, sumOver g l = some r ∧ q s' = q s + r := by
  intro l s s' hp h
  cases l with
  | nil =>
    simp [iterateAndNextConst] at h
    subst h
    exact ⟨hp, 0, rfl, by simp⟩
  | cons n rest =>
    simp only [iterateAndNextConst, bind_eq_ok] at h
    obtain ⟨s1, h1, h2⟩ := h
    obtain ⟨hp1, r1, hr1, e1⟩ := hv _ _ _ _ hp h1
    obtain ⟨hp2, r2, hr2, e2⟩ := iterateNext_sum hv _ _ _ hp1 h2
    exact ⟨hp2, r1 + r2, sumOver_cons_some hr1 hr2, by rw [e2, e1, add_assoc]⟩

theorem iterateChildrenConst_sum {v : Visit} {Pre : StatsVisitor → Prop}
    {q : StatsVisitor → Int} {g : AstNode → Option Int}
    (hv : ∀ a n s s', Pre s → v a n s = .ok s' →
      Pre s' ∧ ∃ r, g n = some r ∧ q s' = q s + r) (p : AstType)
    (o1 o2 o3 o4 : List AstNode) :
    ∀ s s', Pre s → iterateChildrenConst v p o1 o2 o3 o4 s = .ok s' →
      Pre s' ∧ ∃ r, sumOver g (o1 ++ o2 ++ o3 ++ o4) = some r ∧ q s' = q s + r := by
  intro s s' hp h
  simp only [iterateChildrenConst, bind_eq_ok] at h
  obtain ⟨s3, ⟨s2, ⟨s1, e1, e2⟩, e3⟩, e4⟩ := h
  have r := iterateAndNextConst_sum hv p
  obtain ⟨p1, r1, g1, q1⟩ := r _ _ _ hp e1
  obtain ⟨p2, r2, g2, q2⟩ := r _ _ _ p1 e2
  obtain ⟨p3, r3, g3, q3⟩ := r _ _ _ p2 e3
  obtain ⟨p4, r4, g4, q4⟩ := r _ _ _ p3 e4
  refine ⟨p4, r1 + r2 + r3 + r4,
    sumOver_append_some (sumOver_append_some (sumOver_append_some g1 g2) g3) g4, ?_⟩
  rw [q4, q3, q2, q1]
  ring

/-- A dry-run puts `m_instrs` and `m_counting` back. -/
theorem dryRun_restores {v : Visit} {p : AstType} {arm : List AstNode} {s : StatsVisitor}
    {r : Int × StatsVisitor} (h : dryRun v p arm s = .ok r) :
    r.2.m_instrs = s.m_instrs ∧ r.2.m_counting = s.m_counting := by
  simp only [dryRun, bind_eq_ok] at h
  obtain ⟨s1, _, h2⟩ := h
  cases h2
  exact ⟨rfl, rfl⟩

/-- With counting off, the critical-path branch of a conditional leaves `m_instrs` as it
was. -/
theorem criticalBranch_dry {v : Visit} (hvf : ∀ a n s s', v a n s = .ok s' → Flags s s')
    {p : AstType} {pred : AstBranchPred} {o2 o3 : List AstNode} {s s' : StatsVisitor}
    (hc : s.m_counting = false) (h : criticalBranch v p pred o2 o3 s = .ok s') :
    s'.m_instrs = s.m_instrs ∧ Flags s s' := by
  have hfl := criticalBranch_flags hvf h
  simp only [criticalBranch, bind_eq_ok] at h
  obtain ⟨r1, hr1, r2, hr2, e⟩ := h
  have f1 : r1.2.m_instrs = s.m_instrs ∧ r1.2.m_counting = s.m_counting := by
    split at hr1
    · exact dryRun_restores hr1
    · cases hr1; exact ⟨rfl, rfl⟩
  have f2 : r2.2.m_instrs = r1.2.m_instrs ∧ r2.2.m_counting = r1.2.m_counting := by
    split at hr2
    · exact dryRun_restores hr2
    · cases hr2; exact ⟨rfl, rfl⟩
  have hc2 : r2.2.m_counting = false := by rw [f2.2, f1.2, hc]
  rw [if_neg (by simp [hc2])] at e
  cases e
  exact ⟨f2.1.trans f1.1, hfl⟩

theorem allNodes_dry {a : Option AstType} {t : AstType} {c : Int} {s : StatsVisitor}
    (hc : s.m_counting = false) :
    allNodes a t c s = { s with m_instrs := s.m_instrs + c } := by
  unfold allNodes
  rw [if_neg (by simp [hc])]

/-- In critical-path mode with counting off, a visit adds the estimate `estRef` of the node
to `m_instrs` and keeps the flags. -/
theorem visit_dry (statsVars : Bool) (funcs : FuncTable) :
    ∀ fuel a n s s', (s.m_fast = true ∧ s.m_counting = false) →
      visit statsVars funcs fuel a n s = .ok s' →
      (s'.m_fast = true ∧ s'.m_counting = false) ∧
        ∃ e, estRef funcs fuel n = some e ∧ s'.m_instrs = s.m_instrs + e := by
  intro fuel
  induction fuel with
  | zero => intro a n s s' _ h; simp [visit] at h
  | succ fuel ih =>
    intro a n s s' hp h
    obtain ⟨t, c, k, o1, o2, o3, o4⟩ := n
    simp only [visit] at h
    have hc := iterateChildrenConst_sum (q := fun s => s.m_instrs) ih t o1 o2 o3 o4
    have ha : allNodes a t c s = { s with m_instrs := s.m_instrs + c } := allNodes_dry hp.2
    have hpa : ∀ x : Option Bool, (({ s with m_cfuncp := x, m_instrs := s.m_instrs + c } :
        StatsVisitor).m_fast = true ∧
        ({ s with m_cfuncp := x, m_instrs := s.m_instrs + c } : StatsVisitor).m_counting
          = false) := fun _ => hp
    cases k with
    | Other =>
      simp only at h
      rw [ha] at h
      obtain ⟨hp', r, hr, e⟩ := hc _ _ (hpa s.m_cfuncp) h
      refine ⟨hp', c + r, by simp only [estRef, hr, Option.map], ?_⟩
      rw [e]; simp only; ring
    | Var dt clk w name =>
      simp only [bind_eq_ok] at h
      obtain ⟨s2, e1, e2⟩ := h
      rw [ha] at e1
      obtain ⟨hp', r, hr, e⟩ := hc _ _ (hpa s.m_cfuncp) e1
      have : s' = s2 := by
        unfold varRule at e2
        rw [hp'.2] at e2
        simpa using e2.symm
      subst this
      refine ⟨hp', c + r, by simp only [estRef, hr, Option.map], ?_⟩
      rw [e]; simp only; ring
    | VarScope dt =>
      simp only [bind_eq_ok] at h
      obtain ⟨s2, e1, e2⟩ := h
      rw [ha] at e1
      obtain ⟨hp', r, hr, e⟩ := hc _ _ (hpa s.m_cfuncp) e1
      have : s' = s2 := by
        unfold varScopeRule at e2
        rw [hp'.2] at e2
        simpa using e2.symm
      subst this
      refine ⟨hp', c + r, by simp only [estRef, hr, Option.map], ?_⟩
      rw [e]; simp only; ring
    | NodeIf pred =>
      simp only [bind_eq_ok] at h
      obtain ⟨s2, e1, e2⟩ := h
      rw [ha] at e1
      obtain ⟨hp', r, hr, e⟩ :=
        iterateAndNextConst_sum (q := fun s => s.m_instrs) ih t _ _ _ (hpa s.m_cfuncp) e1
      have htp : trackPred pred s2 = s2 := by
        unfold trackPred
        rw [if_neg (by simp [hp'.2])]
      rw [htp, if_neg (by simp [hp'.1])] at e2
      obtain ⟨hi, hf⟩ := criticalBranch_dry (visit_flags statsVars funcs fuel) hp'.2 e2
      refine ⟨⟨hf.2.trans hp'.1, hf.1.trans hp'.2⟩, c + r, by simp only [estRef, hr, Option.map], ?_⟩
      rw [hi, e]; simp only; ring
    | CCall f =>
      simp only [bind_eq_ok] at h
      obtain ⟨s2, e1, e2⟩ := h
      rw [ha] at e1
      obtain ⟨hp', r, hr, e⟩ := hc _ _ (hpa s.m_cfuncp) e1
      rw [if_pos hp'.1] at e2
      obtain ⟨hp'', r', hr', e'⟩ := ih _ _ _ _ hp' e2
      refine ⟨hp'', c + r + r', by simp only [estRef, hr, hr'], ?_⟩
      rw [e', e]; simp only; ring
    | CFunc name slow =>
      simp only [bind_eq_ok] at h
      obtain ⟨s2, e1, e2⟩ := h
      cases e2
      rw [allNodes_dry (s := { s with m_cfuncp := some slow }) hp.2] at e1
      obtain ⟨hp', r, hr, e⟩ := hc _ _ (hpa (some slow)) e1
      refine ⟨hp', c + r, by simp only [estRef, hr, Option.map], ?_⟩
      show s2.m_instrs = _
      rw [e]; simp only; ring

/-- A dry-run in critical-path mode: the estimate is `estRef` summed over the arm, no
statistic of the accumulator changes, and `m_instrs`, `m_counting` and `m_fast` are as
before. -/
theorem dryRun_spec {statsVars : Bool} {funcs : FuncTable} {fuel : Nat} {p : AstType}
    {arm : List AstNode} {s : StatsVisitor} {r : Int × StatsVisitor}
    (hf : s.m_fast = true) (h : dryRun (visit statsVars funcs fuel) p arm s = .ok r) :
    sumOver (estRef funcs fuel) arm = some r.1 ∧ r.2.accum = s.accum ∧
      r.2.m_instrs = s.m_instrs ∧ r.2.m_counting = s.m_counting ∧ r.2.m_fast = true := by
  have hres := dryRun_restores h
  have hfl := dryRun_flags (visit_flags statsVars funcs fuel) h
  simp only [dryRun, bind_eq_ok] at h
  obtain ⟨s1, h1, h2⟩ := h
  cases h2
  obtain ⟨_, e, he, hi⟩ := iterateAndNextConst_sum (q := fun s => s.m_instrs)
    (visit_dry statsVars funcs fuel) p arm
    { s with m_counting := false, m_instrs := 0 } s1 ⟨hf, rfl⟩ h1
  have hacc := iterateAndNextConst_inv (G := fun n => n.all anyNode = true)
    (visit_inv (stepClosed_dry statsVars s.accum) (fun i _ _ _ => all_anyNode _) fuel) p arm
    { s with m_counting := false, m_instrs := 0 } s1
    (fun n _ => all_anyNode n) ⟨rfl, rfl⟩ h1
  refine ⟨?_, hacc.2, hres.1, hres.2, hfl.2.trans hf⟩
  simp only at hi
  rw [he, hi]
  simp

theorem allNodes_counted {a : Option AstType} {t : AstType} {c : Int} {s : StatsVisitor}
    (hc : s.m_counting = true) :
    (allNodes a t c s).m_statInstr = s.m_statInstr + c := by
  unfold allNodes
  rw [if_pos hc]

theorem allNodes_fast (a : Option AstType) (t : AstType) (c : Int) (s : StatsVisitor) :
    (allNodes a t c s).m_fast = s.m_fast := (allNodes_flags a t c s).2

theorem allNodes_counting (a : Option AstType) (t : AstType) (c : Int) (s : StatsVisitor) :
    (allNodes a t c s).m_counting = s.m_counting := (allNodes_flags a t c s).1

theorem trackPred_statInstr (p : AstBranchPred) (s : StatsVisitor) :
    (trackPred p s).m_statInstr = s.m_statInstr := by
  unfold trackPred; split <;> rfl

theorem varRule_statInstr {statsVars : Bool} {dt : Option AstNodeDType} {clk : Bool} {w : Nat}
    {name : String} {s s' : StatsVisitor}
    (h : varRule statsVars dt clk w name s = .ok s') : s'.m_statInstr = s.m_statInstr := by
  unfold varRule at h
  split at h
  · rw [varStats_frame h]
  · cases h; rfl

theorem varScopeRule_statInstr (dt : AstNodeDType) (s : StatsVisitor) :
    (varScopeRule dt s).m_statInstr = s.m_statInstr := by
  unfold varScopeRule; split <;> rfl

/-- The estimate step of the critical-path branch, when the hint does not skip it. -/
theorem estimate_spec {statsVars : Bool} {funcs : FuncTable} {fuel : Nat} {p : AstType}
    {arm : List AstNode} {s : StatsVisitor} {r : Int × StatsVisitor} {k : Prop}
    [Decidable k] (hf : s.m_fast = true)
    (h : (if ¬ k then dryRun (visit statsVars funcs fuel) p arm s else .ok (0, s)) = .ok r) :
    (if k then some 0 else sumOver (estRef funcs fuel) arm) = some r.1 ∧
      r.2.accum = s.accum ∧ r.2.m_instrs = s.m_instrs ∧ r.2.m_counting = s.m_counting ∧
      r.2.m_fast = true := by
  by_cases hs : k
  · rw [if_neg (not_not.2 hs)] at h
    cases h
    rw [if_pos hs]
    exact ⟨rfl, rfl, rfl, rfl, hf⟩
  · rw [if_pos hs] at h
    rw [if_neg hs]
    exact dryRun_spec hf h

/-- In critical-path mode with counting on, a visit adds the path cost `pathRef` of the node
to `m_statInstr` and keeps the flags. -/
theorem visit_counted (statsVars : Bool) (funcs : FuncTable) :
    ∀ fuel a n s s', (s.m_fast = true ∧ s.m_counting = true) →
      visit statsVars funcs fuel a n s = .ok s' →
      (s'.m_fast = true ∧ s'.m_counting = true) ∧
        ∃ r, pathRef funcs fuel n = some r ∧ s'.m_statInstr = s.m_statInstr + r := by
  intro fuel
  induction fuel with
  | zero => intro a n s s' _ h; simp [visit] at h
  | succ fuel ih =>
    intro a n s s' hp h
    obtain ⟨t, c, k, o1, o2, o3, o4⟩ := n
    simp only [visit] at h
    have hc := iterateChildrenConst_sum (q := fun s => s.m_statInstr) ih t o1 o2 o3 o4
    have hl := iterateAndNextConst_sum (q := fun s => s.m_statInstr) ih t
    have ha : (allNodes a t c s).m_statInstr = s.m_statInstr + c := allNodes_counted hp.2
    have hpa : (allNodes a t c s).m_fast = true ∧ (allNodes a t c s).m_counting = true :=
      ⟨(allNodes_fast _ _ _ _).trans hp.1, (allNodes_counting _ _ _ _).trans hp.2⟩
    cases k with
    | Other =>
      simp only at h
      obtain ⟨hp', r, hr, e⟩ := hc _ _ hpa h
      refine ⟨hp', c + r, by simp only [pathRef, hr, Option.map], ?_⟩
      rw [e, ha]; ring
    | Var dt clk w name =>
      simp only [bind_eq_ok] at h
      obtain ⟨s2, e1, e2⟩ := h
      obtain ⟨hp', r, hr, e⟩ := hc _ _ hpa e1
      have hfl := varRule_flags e2
      refine ⟨⟨hfl.2.trans hp'.1, hfl.1.trans hp'.2⟩, c + r,
        by simp only [pathRef, hr, Option.map], ?_⟩
      rw [varRule_statInstr e2, e, ha]; ring
    | VarScope dt =>
      simp only [bind_eq_ok] at h
      obtain ⟨s2, e1, e2⟩ := h
      cases e2
      obtain ⟨hp', r, hr, e⟩ := hc _ _ hpa e1
      have hfl := varScopeRule_flags dt s2
      refine ⟨⟨hfl.2.trans hp'.1, hfl.1.trans hp'.2⟩, c + r,
        by simp only [pathRef, hr, Option.map], ?_⟩
      rw [varScopeRule_statInstr, e, ha]; ring
    | NodeIf pred =>
      simp only [bind_eq_ok] at h
      obtain ⟨s2, e1, e2⟩ := h
      obtain ⟨hp2, pc, hpc, e⟩ := hl _ _ _ hpa e1
      have hf3 : (trackPred pred s2).m_fast = true := (trackPred_fast _ _).trans hp2.1
      have hc3 : (trackPred pred s2).m_counting = true :=
        (trackPred_flags pred s2).1.trans hp2.2
      rw [if_neg (by simp [hf3])] at e2
      simp only [criticalBranch, bind_eq_ok] at e2
      obtain ⟨r1, hr1, r2, hr2, e3⟩ := e2
      obtain ⟨g1, a1, _, c1, f1⟩ := estimate_spec (k := pred = .BP_UNLIKELY) hf3 hr1
      obtain ⟨g2, a2, _, c2, f2⟩ := estimate_spec (k := pred = .BP_LIKELY) f1 hr2
      have hc5 : r2.2.m_counting = true := by rw [c2, c1, hc3]
      have hi5 : r2.2.m_statInstr = s2.m_statInstr := by
        have h1 : r2.2.m_statInstr = r2.2.accum.statInstr := rfl
        rw [h1, a2, a1]
        exact trackPred_statInstr pred s2
      rw [if_pos hc5] at e3
      split at e3
      · rename_i hge
        obtain ⟨hp', pa, hpa', e'⟩ := hl _ _ _ ⟨f2, hc5⟩ e3
        refine ⟨hp', c + pc + pa, ?_, ?_⟩
        · simp only [pathRef, hpc, g1, g2, if_pos hge, hpa', Option.map]
        · rw [e', hi5, e, ha]; ring
      · rename_i hge
        obtain ⟨hp', pa, hpa', e'⟩ := hl _ _ _ ⟨f2, hc5⟩ e3
        refine ⟨hp', c + pc + pa, ?_, ?_⟩
        · simp only [pathRef, hpc, g1, g2, if_neg hge, hpa', Option.map]
        · rw [e', hi5, e, ha]; ring
    | CCall f =>
      simp only [bind_eq_ok] at h
      obtain ⟨s2, e1, e2⟩ := h
      obtain ⟨hp', r, hr, e⟩ := hc _ _ hpa e1
      rw [if_pos hp'.1] at e2
      obtain ⟨hp'', r', hr', e'⟩ := ih _ _ _ _ hp' e2
      refine ⟨hp'', c + r + r', by simp only [pathRef, hr, hr'], ?_⟩
      rw [e', e, ha]; ring
    | CFunc name slow =>
      simp only [bind_eq_ok] at h
      obtain ⟨s2, e1, e2⟩ := h
      cases e2
      have hpa' : (allNodes a t c { s with m_cfuncp := some slow }).m_fast = true ∧
          (allNodes a t c { s with m_cfuncp := some slow }).m_counting = true :=
        ⟨(allNodes_fast _ _ _ _).trans hp.1, (allNodes_counting _ _ _ _).trans hp.2⟩
      obtain ⟨hp', r, hr, e⟩ := hc _ _ hpa' e1
      refine ⟨hp', c + r, by simp only [pathRef, hr, Option.map], ?_⟩
      show s2.m_statInstr = _
      rw [e, allNodes_counted (s := { s with m_cfuncp := some slow }) hp.2]; ring

/-! ### The width histogram -/

theorem resize_length {α : Type} (l : List α) (n : Nat) (d : α) :
    (resize l n d).length = n := by
  simp [resize]
  omega

theorem resize_of_le {α : Type} {l : List α} {n : Nat} (d : α) (h : l.length ≤ n) :
    resize l n d = l ++ List.replicate (n - l.length) d := by
  simp [resize, List.take_of_length_le h]

theorem resize_getD (l : List Nat) {n : Nat} (h : l.length ≤ n) (i : Nat) :
    (resize l n 0).getD i 0 = l.getD i 0 := by
  rw [resize_of_le 0 h]
  simp only [List.getD_eq_getElem?_getD, List.getElem?_append]
  split
  · rfl
  · rename_i hlt
    rw [List.getElem?_eq_none (by omega : l.length ≤ i)]
    by_cases hi : i - l.length < n - l.length
    · simp [List.getElem?_replicate, hi]
    · simp [List.getElem?_replicate, hi]

theorem resize_getD_nil (l : List NameMap) {n : Nat} (h : l.length ≤ n) (i : Nat) :
    (resize l n []).getD i [] = l.getD i [] := by
  rw [resize_of_le [] h]
  simp only [List.getD_eq_getElem?_getD, List.getElem?_append]
  split
  · rfl
  · rename_i hlt
    rw [List.getElem?_eq_none (by omega : l.length ≤ i)]
    by_cases hi : i - l.length < n - l.length
    · simp [List.getElem?_replicate, hi]
    · simp [List.getElem?_replicate, hi]

/-- The growth step makes room for bucket `w`, keeps every bucket and every name map, never
shrinks a vector and keeps the two vectors of equal length. -/
theorem growWidths_spec (statsVars : Bool) (w : Nat) (s : StatsVisitor)
    (hinv : NamesInv statsVars s) :
    w < (growWidths statsVars w s).m_statVarWidths.length ∧
      s.m_statVarWidths.length ≤ (growWidths statsVars w s).m_statVarWidths.length ∧
      (∀ i, (growWidths statsVars w s).m_statVarWidths.getD i 0 = s.m_statVarWidths.getD i 0) ∧
      s.m_statVarWidthNames.length ≤ (growWidths statsVars w s).m_statVarWidthNames.length ∧
      (∀ i, (growWidths statsVars w s).m_statVarWidthNames.getD i []
        = s.m_statVarWidthNames.getD i []) ∧
      NamesInv statsVars (growWidths statsVars w s) := by
  unfold growWidths
  by_cases hg : s.m_statVarWidths.length ≤ w
  · rw [if_pos hg]
    cases statsVars with
    | false =>
      refine ⟨by simp [resize_length], by simp only [resize_length]; omega,
        fun i => resize_getD _ (by omega) i, le_refl _, fun _ => rfl, fun h => by cases h⟩
    | true =>
      have hl := hinv rfl
      refine ⟨by simp [resize_length], by simp only [resize_length]; omega,
        fun i => resize_getD _ (by omega) i, by simp only [if_true, resize_length]; omega,
        fun i => by simp only [if_true]; exact resize_getD_nil _ (by omega) i,
        fun _ => by simp only [if_true, resize_length]⟩
  · rw [if_neg hg]
    exact ⟨by omega, le_refl _, fun _ => rfl, le_refl _, fun _ => rfl, hinv⟩

/-- The variable statistics of a counted variable with a data type: the `at` accesses do
not fail, bucket `w` of the histogram grows by one, every other bucket is kept, the vectors
do not shrink, and the histogram ends strictly larger than `w`. -/
theorem varStats_spec (statsVars : Bool) (dt : AstNodeDType) (clk : Bool) (w : Nat)
    (name : String) (s : StatsVisitor) (hinv : NamesInv statsVars s) :
    ∃ s', varStats statsVars dt clk w name s = .ok s' ∧
      s'.widthCount w = s.widthCount w + 1 ∧
      (∀ i, i ≠ w → s'.widthCount i = s.widthCount i) ∧
      s.m_statVarWidths.length ≤ s'.m_statVarWidths.length ∧
      w < s'.m_statVarWidths.length ∧
      s.m_statVarWidthNames.length ≤ s'.m_statVarWidthNames.length ∧
      NamesInv statsVars s' := by
  obtain ⟨hlt, hle, hget, hnle, _, hinv1⟩ :=
    growWidths_spec statsVars w (varTotals dt clk s) hinv
  have hgw := hget w
  simp only [List.getD_eq_getElem?_getD, List.getElem?_eq_getElem hlt,
    Option.getD_some] at hgw
  unfold varStats
  simp only
  rw [List.getElem?_eq_getElem hlt]
  simp only
  have hcount : ∀ l : List Nat, l = (growWidths statsVars w (varTotals dt clk s)).m_statVarWidths
      → ∀ x, (l.set w x).getD w 0 = x ∧ ∀ i, i ≠ w → (l.set w x).getD i 0
        = (varTotals dt clk s).m_statVarWidths.getD i 0 := by
    intro l hl x
    subst hl
    refine ⟨by simp [List.getD_eq_getElem?_getD, hlt], fun i hi => ?_⟩
    rw [List.getD_eq_getElem?_getD, List.getElem?_set_ne (Ne.symm hi),
      ← List.getD_eq_getElem?_getD]
    exact hget i
  obtain ⟨hc1, hc2⟩ := hcount _ rfl
    ((growWidths statsVars w (varTotals dt clk s)).m_statVarWidths[w] + 1)
  cases statsVars with
  | false =>
    simp only [Bool.false_eq_true, if_false]
    refine ⟨_, rfl, ?_, ?_, ?_, ?_, ?_, fun h => by cases h⟩
    · simp only [StatsVisitor.widthCount]
      rw [hc1, hgw, ← List.getD_eq_getElem?_getD]
      rfl
    · intro i hi
      exact hc2 i hi
    · simpa using hle
    · simpa using hlt
    · exact hnle
  | true =>
    have hnl := hinv1 rfl
    have hlt' : w < (growWidths true w (varTotals dt clk s)).m_statVarWidthNames.length := by
      rw [hnl]; exact hlt
    simp only [if_true]
    rw [List.getElem?_eq_getElem hlt']
    simp only
    refine ⟨_, rfl, ?_, ?_, ?_, ?_, ?_, fun _ => ?_⟩
    · simp only [StatsVisitor.widthCount]
      rw [hc1, hgw, ← List.getD_eq_getElem?_getD]
      rfl
    · intro i hi
      exact hc2 i hi
    · simpa using hle
    · simpa using hlt
    · simpa using hnle
    · simpa using hnl

/-- The per-name breakdown keeps the length of the histogram, and neither vector shrinks,
under every elementary step. -/
theorem stepClosed_names (statsVars : Bool) (n0 m0 : Nat) :
    StepClosed statsVars anyNode (fun s => NamesInv statsVars s ∧
      n0 ≤ s.m_statVarWidths.length ∧ m0 ≤ s.m_statVarWidthNames.length) where
  allNodes := by
    intro a t c k s _ hp
    unfold allNodes
    split <;> exact hp
  cfuncEnter := fun _ _ _ _ _ _ hp => hp
  cfuncLeave := fun _ _ _ _ _ _ hp => hp
  dryEnter := fun _ hp _ => hp
  dryLeave := fun _ _ _ _ hp => hp
  pred := fun _ _ _ _ _ hp _ => hp
  var := by
    intro t c dt clk w name s s' _ hp _ h
    obtain ⟨s'', h', _, _, hle, _, hnle, hinv⟩ := varStats_spec statsVars dt clk w name s hp.1
    rw [h] at h'
    cases h'
    exact ⟨hinv, le_trans hp.2.1 hle, le_trans hp.2.2 hnle⟩
  scp := fun _ _ _ _ _ hp _ => hp

/-- A visit keeps `NamesInv` and does not shrink the histogram or the breakdown. -/
theorem visit_names {statsVars : Bool} {funcs : FuncTable} {fuel : Nat} {a : Option AstType}
    {n : AstNode} {s s' : StatsVisitor} (hinv : NamesInv statsVars s)
    (h : visit statsVars funcs fuel a n s = .ok s') :
    NamesInv statsVars s' ∧ s.m_statVarWidths.length ≤ s'.m_statVarWidths.length ∧
      s.m_statVarWidthNames.length ≤ s'.m_statVarWidthNames.length :=
  visit_inv (stepClosed_names statsVars _ _) (fun _ _ _ _ => all_anyNode _) fuel a n s s'
    (all_anyNode n) ⟨hinv, le_refl _, le_refl _⟩ h

/-! ### The only abort of a traversal is the fuel -/

theorem iterateAndNextConst_keeps {v : Visit} {P : StatsVisitor → Prop}
    (hok : ∀ a n s s', P s → v a n s = .ok s' → P s') (p : AstType) :
    ∀ l s s', P s → iterateAndNextConst v p l s = .ok s' → P s' :=
  fun l s s' hp h => iterateAndNextConst_inv (G := fun _ => True)
    (fun a n s s' _ hp h => hok a n s s' hp h) p l s s' (fun _ _ => trivial) hp h

theorem iterateChildrenConst_keeps {v : Visit} {P : StatsVisitor → Prop}
    (hok : ∀ a n s s', P s → v a n s = .ok s' → P s') (p : AstType)
    (o1 o2 o3 o4 : List AstNode) :
    ∀ s s', P s → iterateChildrenConst v p o1 o2 o3 o4 s = .ok s' → P s' :=
  fun s s' hp h => iterateChildrenConst_inv (G := fun _ => True)
    (fun a n s s' _ hp h => hok a n s s' hp h) p (fun _ _ => trivial) (fun _ _ => trivial)
    (fun _ _ => trivial) (fun _ _ => trivial) s s' hp h

theorem all_anyNode_module (m : AstNodeModule) : m.all anyNode = true := by
  simp [AstNodeModule.all, allList_iff, all_anyNode, anyNode]

theorem all_anyNode_netlist (n : AstNetlist) : n.all anyNode = true := by
  simp [AstNetlist.all, allList_iff, all_anyNode, all_anyNode_module, anyNode]

/-- Structural induction over the nodes of a tree. -/
theorem AstNode.induct {P : AstNode → Prop}
    (h : ∀ t c k o1 o2 o3 o4, (∀ n ∈ o1, P n) → (∀ n ∈ o2, P n) → (∀ n ∈ o3, P n) →
      (∀ n ∈ o4, P n) → P (.mk t c k o1 o2 o3 o4)) : ∀ n, P n :=
  @AstNode.rec P (fun l => ∀ n ∈ l, P n) h (fun _ hn => by cases hn)
    (fun n rest hn hr x hx => by
      rcases List.mem_cons.1 hx with rfl | hx
      · exact hn
      · exact hr x hx)

theorem mem_callsList {j : Nat} {l : List AstNode} :
    j ∈ callsList l ↔ ∃ n ∈ l, j ∈ n.calls := by
  induction l with
  | nil => simp [callsList]
  | cons n rest ih => simp [callsList, ih]

theorem iterateNext_returns {statsVars : Bool} {v : Visit}
    (hok : ∀ a n s s', NamesInv statsVars s → v a n s = .ok s' → NamesInv statsVars s') :
    ∀ l, (∀ n ∈ l, Ret statsVars v n) → ∀ s, NamesInv statsVars s →
      ∃ s', iterateNext v l s = .ok s' ∧ NamesInv statsVars s' := by
  intro l
  induction l with
  | nil => intro _ s hs; exact ⟨s, rfl, hs⟩
  | cons n rest ih =>
    intro hl s hs
    obtain ⟨s1, h1⟩ := hl n (List.mem_cons_self _ _) none s hs
    obtain ⟨s2, h2, hs2⟩ := ih (fun x hx => hl x (List.mem_cons_of_mem _ hx)) s1
      (hok _ _ _ _ hs h1)
    exact ⟨s2, by simp only [iterateNext, h1]; exact h2, hs2⟩

theorem iterateAndNextConst_returns {statsVars : Bool} {v : Visit}
    (hok : ∀ a n s s', NamesInv statsVars s → v a n s = .ok s' → NamesInv statsVars s')
    (p : AstType) :
    ∀ l, (∀ n ∈ l, Ret statsVars v n) → ∀ s, NamesInv statsVars s →
      ∃ s', iterateAndNextConst v p l s = .ok s' ∧ NamesInv statsVars s' := by
  intro l hl s hs
  cases l with
  | nil => exact ⟨s, rfl, hs⟩
  | cons n rest =>
    obtain ⟨s1, h1⟩ := hl n (List.mem_cons_self _ _) (some p) s hs
    obtain ⟨s2, h2, hs2⟩ := iterateNext_returns hok rest
      (fun x hx => hl x (List.mem_cons_of_mem _ hx)) s1 (hok _ _ _ _ hs h1)
    exact ⟨s2, by simp only [iterateAndNextConst, h1]; exact h2, hs2⟩

theorem iterateChildrenConst_returns {statsVars : Bool} {v : Visit}
    (hok : ∀ a n s s', NamesInv statsVars s → v a n s = .ok s' → NamesInv statsVars s')
    (p : AstType) {o1 o2 o3 o4 : List AstNode} (h1 : ∀ n ∈ o1, Ret statsVars v n)
    (h2 : ∀ n ∈ o2, Ret statsVars v n) (h3 : ∀ n ∈ o3, Ret statsVars v n)
    (h4 : ∀ n ∈ o4, Ret statsVars v n) :
    ∀ s, NamesInv statsVars s →
      ∃ s', iterateChildrenConst v p o1 o2 o3 o4 s = .ok s' ∧ NamesInv statsVars s' := by
  intro s hs
  have r := iterateAndNextConst_returns hok p
  obtain ⟨s1, e1, i1⟩ := r o1 h1 s hs
  obtain ⟨s2, e2, i2⟩ := r o2 h2 s1 i1
  obtain ⟨s3, e3, i3⟩ := r o3 h3 s2 i2
  obtain ⟨s4, e4, i4⟩ := r o4 h4 s3 i3
  exact ⟨s4, by simp only [iterateChildrenConst, e1, e2, e3, Except.bind]; exact e4, i4⟩

theorem dryRun_returns {statsVars : Bool} {v : Visit}
    (hok : ∀ a n s s', NamesInv statsVars s → v a n s = .ok s' → NamesInv statsVars s')
    (p : AstType) {arm : List AstNode} (harm : ∀ n ∈ arm, Ret statsVars v n) :
    ∀ s, NamesInv statsVars s →
      ∃ r, dryRun v p arm s = .ok r ∧ NamesInv statsVars r.2 ∧
        r.2.m_counting = s.m_counting := by
  intro s hs
  obtain ⟨s1, e1, i1⟩ := iterateAndNextConst_returns hok p arm harm
    { s with m_counting := false, m_instrs := 0 } hs
  exact ⟨(s1.m_instrs, { s1 with m_instrs := s.m_instrs, m_counting := s.m_counting }),
    by simp only [dryRun, e1, Except.bind], i1, rfl⟩

theorem criticalBranch_returns {statsVars : Bool} {v : Visit}
    (hok : ∀ a n s s', NamesInv statsVars s → v a n s = .ok s' → NamesInv statsVars s')
    (p : AstType) (pred : AstBranchPred) {o2 o3 : List AstNode}
    (h2 : ∀ n ∈ o2, Ret statsVars v n) (h3 : ∀ n ∈ o3, Ret statsVars v n) :
    ∀ s, NamesInv statsVars s →
      ∃ s', criticalBranch v p pred o2 o3 s = .ok s' ∧ NamesInv statsVars s' := by
  intro s hs
  have hr1 : ∃ r1, (if pred ≠ .BP_UNLIKELY then dryRun v p o2 s else .ok (0, s)) = .ok r1 ∧
      NamesInv statsVars r1.2 := by
    split
    · obtain ⟨r, e, i, _⟩ := dryRun_returns hok p h2 s hs
      exact ⟨r, e, i⟩
    · exact ⟨_, rfl, hs⟩
  obtain ⟨r1, e1, i1⟩ := hr1
  have hr2 : ∃ r2, (if pred ≠ .BP_LIKELY then dryRun v p o3 r1.2 else .ok (0, r1.2)) = .ok r2 ∧
      NamesInv statsVars r2.2 := by
    split
    · obtain ⟨r, e, i, _⟩ := dryRun_returns hok p h3 r1.2 i1
      exact ⟨r, e, i⟩
    · exact ⟨_, rfl, i1⟩
  obtain ⟨r2, e2, i2⟩ := hr2
  simp only [criticalBranch, e1, e2, Except.bind]
  split
  · split
    · exact iterateAndNextConst_returns hok p o2 h2 r2.2 i2
    · exact iterateAndNextConst_returns hok p o3 h3 r2.2 i2
  · exact ⟨_, rfl, i2⟩

theorem allNodes_names {statsVars : Bool} (a : Option AstType) (t : AstType) (c : Int)
    {s : StatsVisitor} (hs : NamesInv statsVars s) : NamesInv statsVars (allNodes a t c s) := by
  unfold allNodes
  split <;> exact hs

theorem trackPred_names {statsVars : Bool} (p : AstBranchPred)
    {s : StatsVisitor} (hs : NamesInv statsVars s) : NamesInv statsVars (trackPred p s) := by
  unfold trackPred
  split <;> exact hs

theorem varRule_returns {statsVars : Bool} (dt : Option AstNodeDType) (clk : Bool) (w : Nat)
    (name : String) {s : StatsVisitor} (hs : NamesInv statsVars s) :
    ∃ s', varRule statsVars dt clk w name s = .ok s' := by
  unfold varRule
  split
  · obtain ⟨s', h, _⟩ := varStats_spec statsVars _ clk w name s hs
    exact ⟨s', h⟩
  · exact ⟨s, rfl⟩

/-- One more unit of fuel than the children and the callee need is enough for a node. -/
theorem visit_succ_returns {statsVars : Bool} {funcs : FuncTable} {fuel : Nat}
    {t : AstType} {c : Int} {k : NodeClass} {o1 o2 o3 o4 : List AstNode}
    (h1 : ∀ n ∈ o1, Ret statsVars (visit statsVars funcs fuel) n)
    (h2 : ∀ n ∈ o2, Ret statsVars (visit statsVars funcs fuel) n)
    (h3 : ∀ n ∈ o3, Ret statsVars (visit statsVars funcs fuel) n)
    (h4 : ∀ n ∈ o4, Ret statsVars (visit statsVars funcs fuel) n)
    (hcall : ∀ f, k = .CCall f → Ret statsVars (visit statsVars funcs fuel) (funcs f).node) :
    Ret statsVars (visit statsVars funcs (fuel + 1)) (.mk t c k o1 o2 o3 o4) := by
  intro a s hs
  have hok : ∀ a n s s', NamesInv statsVars s → visit statsVars funcs fuel a n s = .ok s' →
      NamesInv statsVars s' := fun a n s s' hs h => (visit_names hs h).1
  have hc := iterateChildrenConst_returns hok t h1 h2 h3 h4
  have ha : NamesInv statsVars (allNodes a t c s) := allNodes_names a t c hs
  simp only [visit]
  cases k with
  | Other => obtain ⟨s', e, _⟩ := hc _ ha; exact ⟨s', e⟩
  | Var dt clk w name =>
    obtain ⟨s2, e, i⟩ := hc _ ha
    obtain ⟨s', e'⟩ := varRule_returns dt clk w name i
    exact ⟨s', by simp only [e, Except.bind]; exact e'⟩
  | VarScope dt =>
    obtain ⟨s2, e, i⟩ := hc _ ha
    exact ⟨varScopeRule dt s2, by simp only [e, Except.bind]⟩
  | NodeIf pred =>
    obtain ⟨s2, e, i⟩ := iterateAndNextConst_returns hok t o1 h1 _ ha
    have i3 : NamesInv statsVars (trackPred pred s2) := trackPred_names pred i
    simp only [e, Except.bind]
    split
    · obtain ⟨s', e', _⟩ := hc _ i3; exact ⟨s', e'⟩
    · obtain ⟨s', e', _⟩ := criticalBranch_returns hok t pred h2 h3 _ i3; exact ⟨s', e'⟩
  | CCall f =>
    obtain ⟨s2, e, i⟩ := hc _ ha
    simp only [e, Except.bind]
    split
    · exact hcall f rfl _ _ i
    · exact ⟨_, rfl⟩
  | CFunc name slow =>
    obtain ⟨s2, e, i⟩ := hc _
      (allNodes_names a t c (s := { s with m_cfuncp := some slow }) hs)
    exact ⟨{ s2 with m_cfuncp := none }, by simp only [e, Except.bind]⟩

theorem returns_mono {statsVars : Bool} {funcs : FuncTable} {n : AstNode} {N M : Nat}
    (h : Returns statsVars funcs n N) (hNM : N ≤ M) : Returns statsVars funcs n M :=
  fun fuel hf => h fuel (le_trans hNM hf)

/-- A common bound of fuel for the nodes of a list. -/
theorem returns_list {statsVars : Bool} {funcs : FuncTable} :
    ∀ l : List AstNode, (∀ n ∈ l, ∃ N, Returns statsVars funcs n N) →
      ∃ N, ∀ n ∈ l, Returns statsVars funcs n N := by
  intro l
  induction l with
  | nil => intro _; exact ⟨0, fun _ hn => by cases hn⟩
  | cons n rest ih =>
    intro h
    obtain ⟨N1, h1⟩ := h n (List.mem_cons_self _ _)
    obtain ⟨N2, h2⟩ := ih (fun x hx => h x (List.mem_cons_of_mem _ hx))
    refine ⟨max N1 N2, fun x hx => ?_⟩
    rcases List.mem_cons.1 hx with rfl | hx
    · exact returns_mono h1 (le_max_left _ _)
    · exact returns_mono (h2 x hx) (le_max_right _ _)

/-- Termination: when the call edges reachable from a node lead to functions ranked below
`r` and ranks decrease along the call edges of those functions, the visit of the node
returns from some amount of fuel on. -/
theorem returns_of_rank (statsVars : Bool) (funcs : FuncTable) (rank : Nat → Nat) :
    ∀ r, (∀ i, rank i < r → ∀ j ∈ (funcs i).node.calls, rank j < rank i) →
      ∀ n : AstNode, (∀ j ∈ n.calls, rank j < r) → ∃ N, Returns statsVars funcs n N := by
  intro r
  induction r using Nat.strong_induction_on with
  | _ r IH =>
    intro hac n
    induction n using AstNode.induct with
    | h t c k o1 o2 o3 o4 ih1 ih2 ih3 ih4 =>
      intro hcalls
      have hsub : ∀ (o : List AstNode), (∀ j ∈ callsList o, j ∈
          (AstNode.mk t c k o1 o2 o3 o4).calls) → (∀ n ∈ o, (∀ j ∈ n.calls, rank j < r) →
            ∃ N, Returns statsVars funcs n N) → ∃ N, ∀ n ∈ o, Returns statsVars funcs n N := by
        intro o ho hih
        exact returns_list o (fun n hn => hih n hn
          (fun j hj => hcalls j (ho j (mem_callsList.2 ⟨n, hn, hj⟩))))
      obtain ⟨N1, r1⟩ := hsub o1 (fun j hj => by simp [AstNode.calls, hj]) ih1
      obtain ⟨N2, r2⟩ := hsub o2 (fun j hj => by simp [AstNode.calls, hj]) ih2
      obtain ⟨N3, r3⟩ := hsub o3 (fun j hj => by simp [AstNode.calls, hj]) ih3
      obtain ⟨N4, r4⟩ := hsub o4 (fun j hj => by simp [AstNode.calls, hj]) ih4
      have hcallee : ∃ N5, ∀ f, k = .CCall f → Returns statsVars funcs (funcs f).node N5 := by
        cases k with
        | CCall f =>
          have hf : rank f < r := hcalls f (by simp [AstNode.calls])
          obtain ⟨N5, r5⟩ := IH (rank f) hf
            (fun i hi => hac i (lt_trans hi hf)) (funcs f).node (hac f hf)
          exact ⟨N5, fun f' hf' => by cases hf'; exact r5⟩
        | _ => exact ⟨0, fun f hf => by cases hf⟩
      obtain ⟨N5, r5⟩ := hcallee
      refine ⟨max (max (max N1 N2) (max N3 N4)) N5 + 1, fun fuel hfuel => ?_⟩
      obtain ⟨fuel', rfl⟩ : ∃ f', fuel = f' + 1 := ⟨fuel - 1, by omega⟩
      have hle : max (max (max N1 N2) (max N3 N4)) N5 ≤ fuel' := by omega
      have b1 : N1 ≤ fuel' := le_trans (le_trans (le_trans (le_max_left _ _) (le_max_left _ _))
        (le_max_left _ _)) hle
      have b2 : N2 ≤ fuel' := le_trans (le_trans (le_trans (le_max_right _ _) (le_max_left _ _))
        (le_max_left _ _)) hle
      have b3 : N3 ≤ fuel' := le_trans (le_trans (le_trans (le_max_left _ _)
        (le_max_right _ _)) (le_max_left _ _)) hle
      have b4 : N4 ≤ fuel' := le_trans (le_trans (le_trans (le_max_right _ _)
        (le_max_right _ _)) (le_max_left _ _)) hle
      have b5 : N5 ≤ fuel' := le_trans (le_max_right _ _) hle
      exact visit_succ_returns (fun n hn => r1 n hn fuel' b1) (fun n hn => r2 n hn fuel' b2)
        (fun n hn => r3 n hn fuel' b3) (fun n hn => r4 n hn fuel' b4)
        (fun f hf => r5 f hf fuel' b5)

theorem ranks_bounded (rank : Nat → Nat) (l : List Nat) : ∃ r, ∀ j ∈ l, rank j < r := by
  induction l with
  | nil => exact ⟨0, fun _ hj => by cases hj⟩
  | cons x rest ih =>
    obtain ⟨r, hr⟩ := ih
    refine ⟨max r (rank x + 1), fun j hj => ?_⟩
    rcases List.mem_cons.1 hj with rfl | hj
    · exact lt_of_lt_of_le (Nat.lt_succ_self _) (le_max_right _ _)
    · exact lt_of_lt_of_le (hr j hj) (le_max_left _ _)

/-- With an acyclic call graph every visit returns, given enough fuel. -/
theorem returns_of_acyclic (statsVars : Bool) {funcs : FuncTable} (hac : Acyclic funcs)
    (n : AstNode) : ∃ N, Returns statsVars funcs n N := by
  obtain ⟨rank, hrank⟩ := hac
  obtain ⟨r, hr⟩ := ranks_bounded rank n.calls
  exact returns_of_rank statsVars funcs rank r (fun i _ => hrank i) n hr

/-- The module loop of critical-path mode, entered with counting off: it returns when the
bodies of the `_eval` functions do, adds their path cost to `m_statInstr` and leaves counting
off. -/
theorem moduleEvalLoop_counted {statsVars : Bool} {funcs : FuncTable} {fuel : Nat} :
    ∀ l : List AstNode, (∀ n ∈ evalBodies l, Ret statsVars (visit statsVars funcs fuel) n) →
      ∀ s, NamesInv statsVars s → s.m_fast = true →
      ∃ s' r, moduleEvalLoop (visit statsVars funcs fuel) l s = .ok s' ∧
        sumOver (pathRef funcs fuel) (evalBodies l) = some r ∧
        s'.m_statInstr = s.m_statInstr + r ∧ NamesInv statsVars s' ∧ s'.m_fast = true ∧
        (l ≠ [] → s.m_counting = false → s'.m_counting = false) ∧
        (s.m_counting = false → s'.m_counting = false) := by
  intro l
  have hok : ∀ a n s s', NamesInv statsVars s → visit statsVars funcs fuel a n s = .ok s' →
      NamesInv statsVars s' := fun a n s s' hs h => (visit_names hs h).1
  induction l with
  | nil =>
    intro _ s hs hf
    exact ⟨s, 0, rfl, rfl, by simp, hs, hf, fun h => absurd rfl h, fun h => h⟩
  | cons n rest ih =>
    intro hret s hs hf
    obtain ⟨t, c, k, o1, o2, o3, o4⟩ := n
    have hskip : evalBodies (AstNode.mk t c k o1 o2 o3 o4 :: rest) = evalBodies rest →
        moduleEvalLoop (visit statsVars funcs fuel) (AstNode.mk t c k o1 o2 o3 o4 :: rest) s
          = moduleEvalLoop (visit statsVars funcs fuel) rest s →
        ∃ s' r, moduleEvalLoop (visit statsVars funcs fuel)
            (AstNode.mk t c k o1 o2 o3 o4 :: rest) s = .ok s' ∧
          sumOver (pathRef funcs fuel) (evalBodies (AstNode.mk t c k o1 o2 o3 o4 :: rest))
            = some r ∧
          s'.m_statInstr = s.m_statInstr + r ∧ NamesInv statsVars s' ∧ s'.m_fast = true ∧
          (AstNode.mk t c k o1 o2 o3 o4 :: rest ≠ [] → s.m_counting = false →
            s'.m_counting = false) ∧
          (s.m_counting = false → s'.m_counting = false) := by
      intro he hm
      rw [he] at hret ⊢
      rw [hm]
      obtain ⟨s', r, e, g, q, i, f, _, cc⟩ := ih hret s hs hf
      exact ⟨s', r, e, g, q, i, f, fun _ => cc, cc⟩
    cases k with
    | CFunc name slow =>
      by_cases hname : name = "_eval"
      · have he : evalBodies (AstNode.mk t c (.CFunc name slow) o1 o2 o3 o4 :: rest)
            = o1 ++ o2 ++ o3 ++ o4 ++ evalBodies rest := by
          simp only [evalBodies, if_pos hname]
        rw [he] at hret ⊢
        have hr : ∀ o : List AstNode, (∀ n ∈ o, n ∈ o1 ++ o2 ++ o3 ++ o4) →
            ∀ n ∈ o, Ret statsVars (visit statsVars funcs fuel) n :=
          fun o ho n hn => hret n (List.mem_append_left _ (ho n hn))
        obtain ⟨s1, e1, i1⟩ := iterateChildrenConst_returns hok t
          (hr o1 (fun n hn => by simp [hn])) (hr o2 (fun n hn => by simp [hn]))
          (hr o3 (fun n hn => by simp [hn])) (hr o4 (fun n hn => by simp [hn]))
          { s with m_instrs := 0, m_counting := true } hs
        obtain ⟨hfl, r1, g1, q1⟩ := iterateChildrenConst_sum (q := fun s => s.m_statInstr)
          (visit_counted statsVars funcs fuel) t o1 o2 o3 o4
          { s with m_instrs := 0, m_counting := true } s1 ⟨hf, rfl⟩ e1
        obtain ⟨s', r2, e2, g2, q2, i2, f2, _, c2⟩ := ih
          (fun n hn => hret n (List.mem_append_right _ hn))
          { s1 with m_counting := false } i1 hfl.1
        refine ⟨s', r1 + r2, ?_, sumOver_append_some g1 g2, ?_, i2, f2, fun _ _ => c2 rfl,
          fun _ => c2 rfl⟩
        · simp only [moduleEvalLoop, if_pos hname, e1, Except.bind]
          exact e2
        · rw [q2]
          simp only at q1
          show s1.m_statInstr + r2 = _
          rw [q1]
          ring
      · exact hskip (by simp only [evalBodies, if_neg hname])
          (by simp only [moduleEvalLoop, if_neg hname])
    | Var dt clk w name => exact hskip (by simp only [evalBodies]) (by simp only [moduleEvalLoop])
    | VarScope dt => exact hskip (by simp only [evalBodies]) (by simp only [moduleEvalLoop])
    | NodeIf p => exact hskip (by simp only [evalBodies]) (by simp only [moduleEvalLoop])
    | CCall f => exact hskip (by simp only [evalBodies]) (by simp only [moduleEvalLoop])
    | Other => exact hskip (by simp only [evalBodies]) (by simp only [moduleEvalLoop])

/-- `visit(AstNodeModule*)` in critical-path mode, entered with counting off. -/
theorem visitNodeModule_counted {statsVars : Bool} {funcs : FuncTable} {fuel : Nat}
    (a : Option AstType) (m : AstNodeModule)
    (hret : ∀ n ∈ evalBodies m.stmtsp, Ret statsVars (visit statsVars funcs fuel) n)
    (s : StatsVisitor) (hs : NamesInv statsVars s) (hf : s.m_fast = true)
    (hc : s.m_counting = false) :
    ∃ s' r, visitNodeModule (visit statsVars funcs fuel) a m s = .ok s' ∧
      sumOver (pathRef funcs fuel) (evalBodies m.stmtsp) = some r ∧
      s'.m_statInstr = s.m_statInstr + r ∧ NamesInv statsVars s' ∧ s'.m_fast = true ∧
      s'.m_counting = false := by
  obtain ⟨s', r, e, g, q, i, f, _, c⟩ := moduleEvalLoop_counted m.stmtsp hret
    { s with m_instrs := s.m_instrs + m.instrCount } hs hf
  refine ⟨s', r, ?_, g, q, i, f, c hc⟩
  unfold visitNodeModule
  simp only [allNodes_dry hc]
  rw [if_neg (by simp [hf])]
  exact e

theorem iterateNextModules_counted {statsVars : Bool} {funcs : FuncTable} {fuel : Nat} :
    ∀ l : List AstNodeModule,
      (∀ n ∈ l.flatMap (fun m => evalBodies m.stmtsp),
        Ret statsVars (visit statsVars funcs fuel) n) →
      ∀ s, NamesInv statsVars s → s.m_fast = true → s.m_counting = false →
      ∃ s' r, iterateNextModules (visit statsVars funcs fuel) l s = .ok s' ∧
        sumOver (pathRef funcs fuel) (l.flatMap fun m => evalBodies m.stmtsp) = some r ∧
        s'.m_statInstr = s.m_statInstr + r ∧ NamesInv statsVars s' ∧ s'.m_fast = true ∧
        s'.m_counting = false := by
  intro l
  induction l with
  | nil => intro _ s hs hf hc; exact ⟨s, 0, rfl, rfl, by simp, hs, hf, hc⟩
  | cons m rest ih =>
    intro hret s hs hf hc
    simp only [List.flatMap_cons] at hret ⊢
    obtain ⟨s1, r1, e1, g1, q1, i1, f1, c1⟩ := visitNodeModule_counted none m
      (fun n hn => hret n (List.mem_append_left _ hn)) s hs hf hc
    obtain ⟨s2, r2, e2, g2, q2, i2, f2, c2⟩ := ih
      (fun n hn => hret n (List.mem_append_right _ hn)) s1 i1 f1 c1
    refine ⟨s2, r1 + r2, ?_, sumOver_append_some g1 g2, ?_, i2, f2, c2⟩
    · simp only [iterateNextModules, e1, Except.bind]; exact e2
    · rw [q2, q1]; ring

theorem iterateModules_counted {statsVars : Bool} {funcs : FuncTable} {fuel : Nat}
    (p : AstType) (l : List AstNodeModule)
    (hret : ∀ n ∈ l.flatMap (fun m => evalBodies m.stmtsp),
      Ret statsVars (visit statsVars funcs fuel) n)
    (s : StatsVisitor) (hs : NamesInv statsVars s) (hf : s.m_fast = true)
    (hc : s.m_counting = false) :
    ∃ s' r, iterateModules (visit statsVars funcs fuel) p l s = .ok s' ∧
      sumOver (pathRef funcs fuel) (l.flatMap fun m => evalBodies m.stmtsp) = some r ∧
      s'.m_statInstr = s.m_statInstr + r ∧ NamesInv statsVars s' ∧ s'.m_fast = true ∧
      s'.m_counting = false := by
  cases l with
  | nil => exact ⟨s, 0, rfl, rfl, by simp, hs, hf, hc⟩
  | cons m rest =>
    simp only [List.flatMap_cons] at hret ⊢
    obtain ⟨s1, r1, e1, g1, q1, i1, f1, c1⟩ := visitNodeModule_counted (some p) m
      (fun n hn => hret n (List.mem_append_left _ hn)) s hs hf hc
    obtain ⟨s2, r2, e2, g2, q2, i2, f2, c2⟩ := iterateNextModules_counted rest
      (fun n hn => hret n (List.mem_append_right _ hn)) s1 i1 f1 c1
    refine ⟨s2, r1 + r2, ?_, sumOver_append_some g1 g2, ?_, i2, f2, c2⟩
    · simp only [iterateModules, e1, Except.bind]; exact e2
    · rw [q2, q1]; ring

/-- An operand list visited in critical-path mode with counting off: it returns when its
nodes do and leaves `m_statInstr` and the flags as they were. -/
theorem iterateAndNextConst_uncounted {statsVars : Bool} {funcs : FuncTable} {fuel : Nat}
    (p : AstType) (l : List AstNode)
    (hret : ∀ n ∈ l, Ret statsVars (visit statsVars funcs fuel) n)
    (s : StatsVisitor) (hs : NamesInv statsVars s) (hf : s.m_fast = true)
    (hc : s.m_counting = false) :
    ∃ s', iterateAndNextConst (visit statsVars funcs fuel) p l s = .ok s' ∧
      s'.accum = s.accum ∧ NamesInv statsVars s' ∧ s'.m_fast = true ∧
      s'.m_counting = false := by
  obtain ⟨s', e, i⟩ := iterateAndNextConst_returns
    (fun a n s s' hs h => (visit_names hs h).1) p l hret s hs
  have hfl := iterateAndNextConst_rel Flags.refl (fun _ _ _ => Flags.trans)
    (visit_flags statsVars funcs fuel) p l s s' e
  have hacc := iterateAndNextConst_inv (G := fun n => n.all anyNode = true)
    (visit_inv (stepClosed_dry statsVars s.accum) (fun _ _ _ _ => all_anyNode _) fuel) p l s s'
    (fun n _ => all_anyNode n) ⟨hc, rfl⟩ e
  exact ⟨s', e, hacc.2, i, hfl.2.trans hf, hacc.1⟩

/-- The critical-path run over a netlist: when the entry nodes return, `statsStageAll`
returns and `m_statInstr` is the reference value `critPathRef`. -/
theorem statsStageAll_critical (statsVars : Bool) (funcs : FuncTable) (fuel : Nat)
    (nodep : AstNetlist)
    (hret : ∀ n ∈ nodep.entryNodes, Ret statsVars (visit statsVars funcs fuel) n) :
    ∃ s r, statsStageAll statsVars funcs fuel nodep true = .ok s ∧
      critPathRef funcs fuel nodep = some r ∧ s.m_statInstr = r := by
  have h0 : NamesInv statsVars (StatsVisitor.init true) := fun _ => rfl
  have hmem : ∀ l : List AstNode, (∀ n ∈ l, n ∈ nodep.entryNodes) →
      ∀ n ∈ l, Ret statsVars (visit statsVars funcs fuel) n :=
    fun l hl n hn => hret n (hl n hn)
  obtain ⟨s1, r, e1, g, q, i1, f1, c1⟩ := iterateModules_counted nodep.type nodep.modulesp
    (hmem _ (fun n hn => by simp only [AstNetlist.entryNodes]; exact List.mem_append_left _ hn))
    { StatsVisitor.init true with
      m_instrs := (StatsVisitor.init true).m_instrs + nodep.instrCount } h0 rfl rfl
  obtain ⟨s2, e2, a2, i2, f2, c2⟩ := iterateAndNextConst_uncounted nodep.type nodep.op2p
    (hmem _ (fun n hn => by simp [AstNetlist.entryNodes, hn])) s1 i1 f1 c1
  obtain ⟨s3, e3, a3, i3, f3, c3⟩ := iterateAndNextConst_uncounted nodep.type nodep.op3p
    (hmem _ (fun n hn => by simp [AstNetlist.entryNodes, hn])) s2 i2 f2 c2
  obtain ⟨s4, e4, a4, i4, f4, c4⟩ := iterateAndNextConst_uncounted nodep.type nodep.op4p
    (hmem _ (fun n hn => by simp [AstNetlist.entryNodes, hn])) s3 i3 f3 c3
  refine ⟨s4, r, ?_, g, ?_⟩
  · unfold statsStageAll visitNetlist
    rw [allNodes_dry (by rfl)]
    simp only [e1, e2, e3, Except.bind]
    exact e4
  · have h4 : s4.m_statInstr = s4.accum.statInstr := rfl
    have h1 : s1.accum.statInstr = s1.m_statInstr := rfl
    rw [h4, a4, a3, a2, h1, q]
    simp [StatsVisitor.init]

/-! ### The reference functions do not depend on the fuel, once defined -/

theorem sumOver_mono {g g' : AstNode → Option Int}
    (h : ∀ n e, g n = some e → g' n = some e) :
    ∀ l r, sumOver g l = some r → sumOver g' l = some r := by
  intro l
  induction l with
  | nil => intro r hr; exact hr
  | cons n rest ih =>
    intro r hr
    simp only [sumOver] at hr
    split at hr
    · rename_i x y hx hy
      cases hr
      exact sumOver_cons_some (h _ _ hx) (ih _ hy)
    · cases hr

theorem estRef_succ (funcs : FuncTable) :
    ∀ fuel n e, estRef funcs fuel n = some e → estRef funcs (fuel + 1) n = some e := by
  intro fuel
  induction fuel with
  | zero => intro n e h; simp [estRef] at h
  | succ fuel ih =>
    intro n e h
    obtain ⟨t, c, k, o1, o2, o3, o4⟩ := n
    have hs := sumOver_mono ih
    cases k with
    | CCall f =>
      simp only [estRef] at h
      split at h
      · rename_i x y hx hy
        cases h
        have e1 := hs _ _ hx
        have e2 := ih _ _ hy
        rw [estRef]
        simp only [e1, e2]
      · cases h
    | NodeIf p =>
      simp only [estRef, Option.map_eq_some'] at h
      obtain ⟨x, hx, rfl⟩ := h
      simp only [estRef, hs _ _ hx, Option.map]
    | Var dt clk w name =>
      simp only [estRef, Option.map_eq_some'] at h
      obtain ⟨x, hx, rfl⟩ := h
      simp only [estRef, hs _ _ hx, Option.map]
    | VarScope dt =>
      simp only [estRef, Option.map_eq_some'] at h
      obtain ⟨x, hx, rfl⟩ := h
      simp only [estRef, hs _ _ hx, Option.map]
    | CFunc name slow =>
      simp only [estRef, Option.map_eq_some'] at h
      obtain ⟨x, hx, rfl⟩ := h
      simp only [estRef, hs _ _ hx, Option.map]
    | Other =>
      simp only [estRef, Option.map_eq_some'] at h
      obtain ⟨x, hx, rfl⟩ := h
      simp only [estRef, hs _ _ hx, Option.map]

theorem pathRef_succ (funcs : FuncTable) :
    ∀ fuel n e, pathRef funcs fuel n = some e → pathRef funcs (fuel + 1) n = some e := by
  intro fuel
  induction fuel with
  | zero => intro n e h; simp [pathRef] at h
  | succ fuel ih =>
    intro n e h
    obtain ⟨t, c, k, o1, o2, o3, o4⟩ := n
    have hs := sumOver_mono ih
    have he := sumOver_mono (estRef_succ funcs fuel)
    cases k with
    | CCall f =>
      simp only [pathRef] at h
      split at h
      · rename_i x y hx hy
        cases h
        have e1 := hs _ _ hx
        have e2 := ih _ _ hy
        rw [pathRef]
        simp only [e1, e2]
      · cases h
    | NodeIf p =>
      simp only [pathRef] at h
      split at h
      · rename_i pc ei ee hpc hei hee
        simp only [Option.map_eq_some'] at h
        obtain ⟨x, hx, rfl⟩ := h
        have hei' : (if p = .BP_UNLIKELY then some 0 else
            sumOver (estRef funcs (fuel + 1)) o2) = some ei := by
          split
          · rename_i hp; rw [if_pos hp] at hei; exact hei
          · rename_i hp; rw [if_neg hp] at hei; exact he _ _ hei
        have hee' : (if p = .BP_LIKELY then some 0 else
            sumOver (estRef funcs (fuel + 1)) o3) = some ee := by
          split
          · rename_i hp; rw [if_pos hp] at hee; exact hee
          · rename_i hp; rw [if_neg hp] at hee; exact he _ _ hee
        have hx' : (if ei ≥ ee then sumOver (pathRef funcs (fuel + 1)) o2
            else sumOver (pathRef funcs (fuel + 1)) o3) = some x := by
          split
          · rename_i hge; rw [if_pos hge] at hx; exact hs _ _ hx
          · rename_i hge; rw [if_neg hge] at hx; exact hs _ _ hx
        simp only [pathRef, hs _ _ hpc, hei', hee', hx', Option.map]
      · cases h
    | Var dt clk w name =>
      simp only [pathRef, Option.map_eq_some'] at h
      obtain ⟨x, hx, rfl⟩ := h
      simp only [pathRef, hs _ _ hx, Option.map]
    | VarScope dt =>
      simp only [pathRef, Option.map_eq_some'] at h
      obtain ⟨x, hx, rfl⟩ := h
      simp only [pathRef, hs _ _ hx, Option.map]
    | CFunc name slow =>
      simp only [pathRef, Option.map_eq_some'] at h
      obtain ⟨x, hx, rfl⟩ := h
      simp only [pathRef, hs _ _ hx, Option.map]
    | Other =>
      simp only [pathRef, Option.map_eq_some'] at h
      obtain ⟨x, hx, rfl⟩ := h
      simp only [pathRef, hs _ _ hx, Option.map]

theorem critPathRef_mono (funcs : FuncTable) (nodep : AstNetlist) {N : Nat} {r : Int}
    (h : critPathRef funcs N nodep = some r) :
    ∀ fuel, N ≤ fuel → critPathRef funcs fuel nodep = some r := by
  intro fuel hfuel
  induction fuel, hfuel using Nat.le_induction with
  | base => exact h
  | succ fuel _ ih => exact sumOver_mono (pathRef_succ funcs fuel) _ _ ih

/-! ### The critical path against the pure reference -/

/-- C3: with an acyclic call graph, the critical-path traversal returns, given enough fuel,
and its `m_statInstr` equals the value `r` of the pure reference `critPathRef`: the sum, over
the functions named `_eval` among the statements of the modules, of `pathRef` over the
children of the function. -/
theorem critical_path_refines_reference (statsVars : Bool) (funcs : FuncTable)
    (nodep : AstNetlist) (hac : Acyclic funcs) :
    ∃ N r, ∀ fuel, N ≤ fuel →
      critPathRef funcs fuel nodep = some r ∧
      ∃ s, statsStageAll statsVars funcs fuel nodep true = .ok s ∧ s.m_statInstr = r := by
  obtain ⟨N, hN⟩ := returns_list nodep.entryNodes
    (fun n _ => returns_of_acyclic statsVars hac n)
  obtain ⟨_, r, _, hr, _⟩ := statsStageAll_critical statsVars funcs N nodep
    (fun n hn => hN n hn N (le_refl _))
  refine ⟨N, r, fun fuel hfuel => ?_⟩
  have hr' := critPathRef_mono funcs nodep hr fuel hfuel
  obtain ⟨s, r', e, g, q⟩ := statsStageAll_critical statsVars funcs fuel nodep
    (fun n hn => hN n hn fuel hfuel)
  rw [hr'] at g
  cases g
  exact ⟨hr', s, e, q⟩

theorem sampleFuncs_acyclic : Acyclic sampleFuncs := by
  refine ⟨fun i => i, fun i j hj => ?_⟩
  match i with
  | 0 => simp [sampleFuncs, FuncEntry.node, AstNode.calls, callsList, leaf] at hj
  | 1 =>
    simp [sampleFuncs, FuncEntry.node, AstNode.calls, callsList, leaf] at hj
    subst hj
    exact Nat.zero_lt_one
  | i + 2 => simp [sampleFuncs, FuncEntry.node, AstNode.calls, callsList] at hj

theorem critical_path_refines_reference_witness :
    Acyclic sampleFuncs ∧
    (∃ N r, ∀ fuel, N ≤ fuel →
      critPathRef sampleFuncs fuel sampleCalls = some r ∧
      ∃ s, statsStageAll false sampleFuncs fuel sampleCalls true = .ok s ∧
        s.m_statInstr = r) ∧
    critPathRef sampleFuncs 10 sampleCalls = some 25 ∧
    (statsStageAll false sampleFuncs 10 sampleCalls true).toOption.map
      (fun s => s.m_statInstr) = some 25 :=
  ⟨sampleFuncs_acyclic,
    critical_path_refines_reference false sampleFuncs sampleCalls sampleFuncs_acyclic,
    by decide, by decide⟩

/-! ### Branch selection -/

/-- The critical-path branch of a conditional with counting on: the two estimates are taken
(0 where the hint skips the dry-run), the dry-runs change no statistic and restore
`m_instrs` and `m_counting`, and the result is the counted traversal of the if-arm when its
estimate is at least that of the else-arm, of the else-arm otherwise. -/
theorem criticalBranch_spec {statsVars : Bool} {funcs : FuncTable} {fuel : Nat} {p : AstType}
    {pred : AstBranchPred} {o2 o3 : List AstNode} {s s' : StatsVisitor}
    (hf : s.m_fast = true) (hc : s.m_counting = true)
    (h : criticalBranch (visit statsVars funcs fuel) p pred o2 o3 s = .ok s') :
    ∃ r1 r2 : Int × StatsVisitor,
      (if pred ≠ .BP_UNLIKELY then dryRun (visit statsVars funcs fuel) p o2 s
        else .ok (0, s)) = .ok r1 ∧
      (if pred ≠ .BP_LIKELY then dryRun (visit statsVars funcs fuel) p o3 r1.2
        else .ok (0, r1.2)) = .ok r2 ∧
      (if pred = .BP_UNLIKELY then some 0 else sumOver (estRef funcs fuel) o2) = some r1.1 ∧
      (if pred = .BP_LIKELY then some 0 else sumOver (estRef funcs fuel) o3) = some r2.1 ∧
      r1.2.accum = s.accum ∧ r2.2.accum = s.accum ∧ r2.2.m_instrs = s.m_instrs ∧
      r2.2.m_counting = true ∧ r2.2.m_fast = true ∧
      (r1.1 ≥ r2.1 → iterateAndNextConst (visit statsVars funcs fuel) p o2 r2.2 = .ok s') ∧
      (r1.1 < r2.1 → iterateAndNextConst (visit statsVars funcs fuel) p o3 r2.2 = .ok s') := by
  simp only [criticalBranch, bind_eq_ok] at h
  obtain ⟨r1, hr1, r2, hr2, e⟩ := h
  obtain ⟨g1, a1, i1, c1, f1⟩ := estimate_spec (k := pred = .BP_UNLIKELY) hf hr1
  obtain ⟨g2, a2, i2, c2, f2⟩ := estimate_spec (k := pred = .BP_LIKELY) f1 hr2
  have hc5 : r2.2.m_counting = true := by rw [c2, c1, hc]
  rw [if_pos hc5] at e
  refine ⟨r1, r2, hr1, hr2, g1, g2, a1, a2.trans a1, i2.trans i1, hc5, f2, ?_, ?_⟩
  · intro hge; rw [if_pos hge] at e; exact e
  · intro hlt; rw [if_neg (not_le.2 hlt)] at e; exact e

theorem sumOver_nonneg {g : AstNode → Option Int} :
    ∀ l r, (∀ n ∈ l, ∀ e, g n = some e → 0 ≤ e) → sumOver g l = some r → 0 ≤ r := by
  intro l
  induction l with
  | nil => intro r _ h; simp [sumOver] at h; omega
  | cons n rest ih =>
    intro r hl h
    simp only [sumOver] at h
    split at h
    · rename_i x y hx hy
      cases h
      have h1 := hl n (List.mem_cons_self _ _) x hx
      have h2 := ih y (fun m hm => hl m (List.mem_cons_of_mem _ hm)) hy
      omega
    · cases h

theorem allList_append {R : AstType → Int → NodeClass → Bool} {l1 l2 : List AstNode} :
    allList R (l1 ++ l2) = true ↔ allList R l1 = true ∧ allList R l2 = true := by
  induction l1 with
  | nil => simp [allList]
  | cons n rest ih => simp [allList, ih, and_assoc]

/-- With cost weights that are not negative, a dry-run estimate is not negative. -/
theorem estRef_nonneg {funcs : FuncTable}
    (hfuncs : ∀ i, (funcs i).node.all costNonneg = true) :
    ∀ fuel n e, n.all costNonneg = true → estRef funcs fuel n = some e → 0 ≤ e := by
  intro fuel
  induction fuel with
  | zero => intro n e _ h; simp [estRef] at h
  | succ fuel ih =>
    intro n e hn h
    obtain ⟨t, c, k, o1, o2, o3, o4⟩ := n
    obtain ⟨hR, h1, h2, h3, h4⟩ := all_mk.1 hn
    have hc : 0 ≤ c := by simpa [costNonneg] using hR
    have hsum : ∀ l r, allList costNonneg l = true → sumOver (estRef funcs fuel) l = some r →
        0 ≤ r := fun l r hl hr =>
      sumOver_nonneg l r (fun n hn e he => ih n e (allList_iff.1 hl n hn) he) hr
    have hall : allList costNonneg (o1 ++ o2 ++ o3 ++ o4) = true :=
      allList_append.2 ⟨allList_append.2 ⟨allList_append.2 ⟨h1, h2⟩, h3⟩, h4⟩
    have hdef : ∀ x, sumOver (estRef funcs fuel) (o1 ++ o2 ++ o3 ++ o4) = some x →
        0 ≤ c + x := fun x hx => by have := hsum _ _ hall hx; omega
    cases k with
    | CCall f =>
      simp only [estRef] at h
      split at h
      · rename_i x y hx hy
        cases h
        have := hsum _ _ hall hx
        have := ih _ _ (hfuncs f) hy
        omega
      · cases h
    | NodeIf p =>
      simp only [estRef, Option.map_eq_some'] at h
      obtain ⟨x, hx, rfl⟩ := h
      have := hsum _ _ h1 hx
      omega
    | Var dt clk w name =>
      simp only [estRef, Option.map_eq_some'] at h
      obtain ⟨x, hx, rfl⟩ := h
      exact hdef x hx
    | VarScope dt =>
      simp only [estRef, Option.map_eq_some'] at h
      obtain ⟨x, hx, rfl⟩ := h
      exact hdef x hx
    | CFunc name slow =>
      simp only [estRef, Option.map_eq_some'] at h
      obtain ⟨x, hx, rfl⟩ := h
      exact hdef x hx
    | Other =>
      simp only [estRef, Option.map_eq_some'] at h
      obtain ⟨x, hx, rfl⟩ := h
      exact hdef x hx

/-- C7: in critical-path mode with counting on and cost weights that are not negative, the
visit of a conditional with hint UNLIKELY takes no estimate of the if-arm (it counts as 0),
estimates the else-arm by a dry-run that changes no statistic, and then is the counted
traversal of the else-arm when that estimate is strictly positive and of the if-arm when it
is zero; the estimate is never negative. -/
theorem conditional_unlikely_selects_else_iff_positive (statsVars : Bool) (funcs : FuncTable)
    (fuel : Nat) (a : Option AstType) (t : AstType) (c : Int) (o1 o2 o3 o4 : List AstNode)
    (s s' : StatsVisitor) (hfuncs : ∀ i, (funcs i).node.all costNonneg = true)
    (harm : allList costNonneg o3 = true) (hf : s.m_fast = true) (hc : s.m_counting = true)
    (h : visit statsVars funcs (fuel + 1) a (.mk t c (.NodeIf .BP_UNLIKELY) o1 o2 o3 o4) s
      = .ok s') :
    ∃ (s2 : StatsVisitor) (elseInstrs : Int) (s5 : StatsVisitor),
      iterateAndNextConst (visit statsVars funcs fuel) t o1 (allNodes a t c s) = .ok s2 ∧
      dryRun (visit statsVars funcs fuel) t o3 (trackPred .BP_UNLIKELY s2)
        = .ok (elseInstrs, s5) ∧
      sumOver (estRef funcs fuel) o3 = some elseInstrs ∧ 0 ≤ elseInstrs ∧
      s5.accum = (trackPred .BP_UNLIKELY s2).accum ∧
      s5.m_instrs = s2.m_instrs ∧ s5.m_counting = true ∧ s5.m_fast = true ∧
      (0 < elseInstrs →
        iterateAndNextConst (visit statsVars funcs fuel) t o3 s5 = .ok s') ∧
      (elseInstrs = 0 →
        iterateAndNextConst (visit statsVars funcs fuel) t o2 s5 = .ok s') := by
  simp only [visit, bind_eq_ok] at h
  obtain ⟨s2, e1, e2⟩ := h
  have hfl := ((allNodes_flags a t c s).trans
    (iterateAndNextConst_rel Flags.refl (fun _ _ _ => Flags.trans)
      (visit_flags statsVars funcs fuel) t o1 _ _ e1)).trans (trackPred_flags .BP_UNLIKELY s2)
  have hf3 : (trackPred .BP_UNLIKELY s2).m_fast = true := hfl.2.trans hf
  have hc3 : (trackPred .BP_UNLIKELY s2).m_counting = true := hfl.1.trans hc
  rw [if_neg (by simp [hf3])] at e2
  obtain ⟨r1, r2, d1, d2, g1, g2, a1, a2, i2, c2, f2, hif, helse⟩ :=
    criticalBranch_spec hf3 hc3 e2
  rw [if_neg (by decide)] at d1
  rw [if_pos (by decide)] at d2 g1
  rw [if_neg (by decide)] at g2
  cases d1
  cases g1
  have hi3 : (trackPred .BP_UNLIKELY s2).m_instrs = s2.m_instrs := by
    unfold trackPred; split <;> rfl
  have hnn : 0 ≤ r2.1 := sumOver_nonneg o3 r2.1
    (fun n hn e he => estRef_nonneg hfuncs fuel n e (allList_iff.1 harm n hn) he) g2
  refine ⟨s2, r2.1, r2.2, e1, d2, g2, hnn, a2, i2.trans hi3, c2, f2, helse, fun h0 => hif ?_⟩
  simp only at h0 ⊢
  omega

theorem conditional_unlikely_selects_else_iff_positive_witness :
    (∀ i, (noFuncs i).node.all costNonneg = true) ∧
    allList costNonneg [leaf 6 3] = true ∧
    countingState.m_fast = true ∧ countingState.m_counting = true ∧
    (∃ s', visit false noFuncs 3 none (armsIf .BP_UNLIKELY 10 3) countingState = .ok s' ∧
      ∃ (s2 : StatsVisitor) (elseInstrs : Int) (s5 : StatsVisitor),
        iterateAndNextConst (visit false noFuncs 2) 3 [leaf 4 2]
          (allNodes none 3 1 countingState) = .ok s2 ∧
        dryRun (visit false noFuncs 2) 3 [leaf 6 3] (trackPred .BP_UNLIKELY s2)
          = .ok (elseInstrs, s5) ∧
        sumOver (estRef noFuncs 2) [leaf 6 3] = some elseInstrs ∧ 0 ≤ elseInstrs ∧
        s5.accum = (trackPred .BP_UNLIKELY s2).accum ∧
        s5.m_instrs = s2.m_instrs ∧ s5.m_counting = true ∧ s5.m_fast = true ∧
        (0 < elseInstrs →
          iterateAndNextConst (visit false noFuncs 2) 3 [leaf 6 3] s5 = .ok s') ∧
        (elseInstrs = 0 →
          iterateAndNextConst (visit false noFuncs 2) 3 [leaf 5 10] s5 = .ok s')) ∧
    (visit false noFuncs 3 none (armsIf .BP_UNLIKELY 10 3) countingState).toOption.map
      (fun s => (s.m_statInstr, s.m_statTypeCount 5, s.m_statTypeCount 6)) = some (6, 0, 1) ∧
    (visit false noFuncs 3 none (armsIf .BP_UNLIKELY 10 0) countingState).toOption.map
      (fun s => (s.m_statInstr, s.m_statTypeCount 5, s.m_statTypeCount 6)) = some (13, 1, 0) :=
  ⟨fun _ => rfl, by decide, rfl, rfl,
    (match h : visit false noFuncs 3 none (armsIf .BP_UNLIKELY 10 3) countingState with
    | .ok s' => ⟨s', rfl,
        conditional_unlikely_selects_else_iff_positive false noFuncs 2 none 3 1 [leaf 4 2]
          [leaf 5 10] [leaf 6 3] [] countingState s' (fun _ => rfl) (by decide) rfl rfl h⟩
    | .error e => by
        have : (visit false noFuncs 3 none (armsIf .BP_UNLIKELY 10 3)
          countingState).toOption.isSome = true := by decide
        rw [h] at this
        cases this),
    by decide, by decide⟩

/-! ### The end-to-end scenario -/

theorem sumInstrList_append (l1 l2 : List AstNode) :
    sumInstrList (l1 ++ l2) = sumInstrList l1 + sumInstrList l2 := by
  induction l1 with
  | nil => simp [sumInstrList]
  | cons n rest ih => simp [sumInstrList, ih, add_assoc]

theorem sumOver_eq_sumInstrList {g : AstNode → Option Int} :
    ∀ l r, (∀ n ∈ l, ∀ e, g n = some e → e = n.sumInstr) → sumOver g l = some r →
      r = sumInstrList l := by
  intro l
  induction l with
  | nil => intro r _ h; simp [sumOver] at h; simp [sumInstrList, h]
  | cons n rest ih =>
    intro r hl h
    simp only [sumOver] at h
    split at h
    · rename_i x y hx hy
      cases h
      rw [sumInstrList, hl n (List.mem_cons_self _ _) x hx,
        ih y (fun m hm => hl m (List.mem_cons_of_mem _ hm)) hy]
    · cases h

theorem sumInstr_mk (t : AstType) (c : Int) (k : NodeClass) (o1 o2 o3 o4 : List AstNode) :
    (AstNode.mk t c k o1 o2 o3 o4).sumInstr = c + sumInstrList (o1 ++ o2 ++ o3 ++ o4) := by
  simp only [AstNode.sumInstr, sumInstrList_append]
  ring

/-- On a subtree without conditionals and call edges the estimate is the sum of the cost
weights. -/
theorem estRef_plain (funcs : FuncTable) :
    ∀ fuel n e, n.all plain = true → estRef funcs fuel n = some e → e = n.sumInstr := by
  intro fuel
  induction fuel with
  | zero => intro n e _ h; simp [estRef] at h
  | succ fuel ih =>
    intro n e hn h
    obtain ⟨t, c, k, o1, o2, o3, o4⟩ := n
    obtain ⟨hR, h1, h2, h3, h4⟩ := all_mk.1 hn
    have hall : allList plain (o1 ++ o2 ++ o3 ++ o4) = true :=
      allList_append.2 ⟨allList_append.2 ⟨allList_append.2 ⟨h1, h2⟩, h3⟩, h4⟩
    have hsum : ∀ x, sumOver (estRef funcs fuel) (o1 ++ o2 ++ o3 ++ o4) = some x →
        c + x = (AstNode.mk t c k o1 o2 o3 o4).sumInstr := by
      intro x hx
      rw [sumInstr_mk, sumOver_eq_sumInstrList _ x
        (fun n hn e he => ih n e (allList_iff.1 hall n hn) he) hx]
    cases k with
    | CCall f => simp [plain] at hR
    | NodeIf p => simp [plain] at hR
    | Var dt clk w name =>
      simp only [estRef, Option.map_eq_some'] at h
      obtain ⟨x, hx, rfl⟩ := h
      exact hsum x hx
    | VarScope dt =>
      simp only [estRef, Option.map_eq_some'] at h
      obtain ⟨x, hx, rfl⟩ := h
      exact hsum x hx
    | CFunc name slow =>
      simp only [estRef, Option.map_eq_some'] at h
      obtain ⟨x, hx, rfl⟩ := h
      exact hsum x hx
    | Other =>
      simp only [estRef, Option.map_eq_some'] at h
      obtain ⟨x, hx, rfl⟩ := h
      exact hsum x hx

/-- On a subtree without conditionals and call edges the path cost is the sum of the cost
weights. -/
theorem pathRef_plain (funcs : FuncTable) :
    ∀ fuel n e, n.all plain = true → pathRef funcs fuel n = some e → e = n.sumInstr := by
  intro fuel
  induction fuel with
  | zero => intro n e _ h; simp [pathRef] at h
  | succ fuel ih =>
    intro n e hn h
    obtain ⟨t, c, k, o1, o2, o3, o4⟩ := n
    obtain ⟨hR, h1, h2, h3, h4⟩ := all_mk.1 hn
    have hall : allList plain (o1 ++ o2 ++ o3 ++ o4) = true :=
      allList_append.2 ⟨allList_append.2 ⟨allList_append.2 ⟨h1, h2⟩, h3⟩, h4⟩
    have hsum : ∀ x, sumOver (pathRef funcs fuel) (o1 ++ o2 ++ o3 ++ o4) = some x →
        c + x = (AstNode.mk t c k o1 o2 o3 o4).sumInstr := by
      intro x hx
      rw [sumInstr_mk, sumOver_eq_sumInstrList _ x
        (fun n hn e he => ih n e (allList_iff.1 hall n hn) he) hx]
    cases k with
    | CCall f => simp [plain] at hR
    | NodeIf p => simp [plain] at hR
    | Var dt clk w name =>
      simp only [pathRef, Option.map_eq_some'] at h
      obtain ⟨x, hx, rfl⟩ := h
      exact hsum x hx
    | VarScope dt =>
      simp only [pathRef, Option.map_eq_some'] at h
      obtain ⟨x, hx, rfl⟩ := h
      exact hsum x hx
    | CFunc name slow =>
      simp only [pathRef, Option.map_eq_some'] at h
      obtain ⟨x, hx, rfl⟩ := h
      exact hsum x hx
    | Other =>
      simp only [pathRef, Option.map_eq_some'] at h
      obtain ⟨x, hx, rfl⟩ := h
      exact hsum x hx

theorem sumOver_estRef_plain (funcs : FuncTable) (fuel : Nat) (l : List AstNode) (r : Int)
    (hl : allList plain l = true) (h : sumOver (estRef funcs fuel) l = some r) :
    r = sumInstrList l :=
  sumOver_eq_sumInstrList l r
    (fun n hn e he => estRef_plain funcs fuel n e (allList_iff.1 hl n hn) he) h

theorem sumOver_pathRef_plain (funcs : FuncTable) (fuel : Nat) (l : List AstNode) (r : Int)
    (hl : allList plain l = true) (h : sumOver (pathRef funcs fuel) l = some r) :
    r = sumInstrList l :=
  sumOver_eq_sumInstrList l r
    (fun n hn e he => pathRef_plain funcs fuel n e (allList_iff.1 hl n hn) he) h

theorem calls_plain : ∀ n : AstNode, n.all plain = true → n.calls = [] := by
  intro n
  induction n using AstNode.induct with
  | h t c k o1 o2 o3 o4 ih1 ih2 ih3 ih4 =>
    intro hn
    obtain ⟨hR, h1, h2, h3, h4⟩ := all_mk.1 hn
    have hl : ∀ o : List AstNode, (∀ n ∈ o, n.all plain = true → n.calls = []) →
        allList plain o = true → callsList o = [] := by
      intro o ho hall
      apply List.eq_nil_iff_forall_not_mem.2
      intro j hj
      obtain ⟨n, hn, hjn⟩ := mem_callsList.1 hj
      rw [ho n hn (allList_iff.1 hall n hn)] at hjn
      cases hjn
    cases k with
    | CCall f => simp [plain] at hR
    | _ => simp [AstNode.calls, hl o1 ih1 h1, hl o2 ih2 h2, hl o3 ih3 h3, hl o4 ih4 h4]

theorem callsList_plain (o : List AstNode) (h : allList plain o = true) : callsList o = [] := by
  apply List.eq_nil_iff_forall_not_mem.2
  intro j hj
  obtain ⟨n, hn, hjn⟩ := mem_callsList.1 hj
  rw [calls_plain n (allList_iff.1 h n hn)] at hjn
  cases hjn

/-- C10 refuted: on `sampleScenario` (module weight 3, function weight 5, conditional weight
1, condition weight 2, if-arm weight 4, else-arm weight 1) the critical-path run returns
`m_statInstr = 7`, the weights of the conditional, its condition and its if-arm; the module
and the function `_eval`, visited with counting off or not visited at all, add nothing, so
the claimed value 3 + 5 + 2 + 4 = 14 is not reached. -/
theorem scenario_total_excludes_module_and_function :
    (statsStageAll false noFuncs 10 sampleScenario true).toOption.map
        (fun s => s.m_statInstr) = some 7
      ∧ (3 : Int) + 5 + sumInstrList sampleCond.condp + sumInstrList sampleCond.ifsp = 14
      ∧ sampleCond.instrCount + sumInstrList sampleCond.condp
          + sumInstrList sampleCond.ifsp = 7 := by
  decide

/-- C10 amended: for a netlist of one module whose only statement is the function `_eval`,
whose only child is a conditional with hint NONE, when the condition and the arms contain no
conditional and no call edge and the weight of the if-arm is at least that of the else-arm
(these weights are the estimates), the critical-path run returns, given enough fuel, with
`m_statInstr` equal to the weight of the conditional node plus the weights of its condition
and of its if-arm. -/
theorem scenario_total_is_conditional_condition_if_arm (statsVars : Bool) (funcs : FuncTable)
    (tn : AstType) (cn : Int) (tm : AstType) (cm : Int) (m1 m3 m4 : List AstNode)
    (tf : AstType) (cf : Int) (slow : Bool) (f1 f2 f3 f4 : List AstNode)
    (ti : AstType) (ci : Int) (cond ifs elses : List AstNode)
    (hbody : f1 ++ f2 ++ f3 ++ f4 = [.mk ti ci (.NodeIf .BP_NONE) cond ifs elses []])
    (hcond : allList plain cond = true) (hifs : allList plain ifs = true)
    (helses : allList plain elses = true) (hge : sumInstrList elses ≤ sumInstrList ifs) :
    ∃ N, ∀ fuel, N ≤ fuel →
      ∃ s, statsStageAll statsVars funcs fuel
          ⟨tn, cn, [⟨tm, cm, m1, [.mk tf cf (.CFunc "_eval" slow) f1 f2 f3 f4], m3, m4⟩],
            [], [], []⟩ true = .ok s ∧
        s.m_statInstr = ci + sumInstrList cond + sumInstrList ifs := by
  have hentry : (AstNetlist.mk tn cn
      [⟨tm, cm, m1, [.mk tf cf (.CFunc "_eval" slow) f1 f2 f3 f4], m3, m4⟩]
      [] [] []).entryNodes = [.mk ti ci (.NodeIf .BP_NONE) cond ifs elses []] := by
    simp only [AstNetlist.entryNodes, evalBodies, List.flatMap_cons, List.flatMap_nil,
      if_true, hbody, List.append_nil]
  have hcalls : (AstNode.mk ti ci (.NodeIf .BP_NONE) cond ifs elses []).calls = [] := by
    simp [AstNode.calls, callsList_plain _ hcond, callsList_plain _ hifs,
      callsList_plain _ helses, callsList]
  obtain ⟨N, hN⟩ := returns_of_rank statsVars funcs (fun _ => 0) 0
    (fun i hi => absurd hi (Nat.not_lt_zero _))
    (.mk ti ci (.NodeIf .BP_NONE) cond ifs elses [])
    (fun j hj => by rw [hcalls] at hj; cases hj)
  refine ⟨N, fun fuel hfuel => ?_⟩
  obtain ⟨s, r, e, g, q⟩ := statsStageAll_critical statsVars funcs fuel
    ⟨tn, cn, [⟨tm, cm, m1, [.mk tf cf (.CFunc "_eval" slow) f1 f2 f3 f4], m3, m4⟩],
      [], [], []⟩
    (fun n hn => by
      rw [hentry] at hn
      rcases List.mem_singleton.1 hn with rfl
      exact hN fuel hfuel)
  refine ⟨s, e, ?_⟩
  rw [q]
  have hg : sumOver (pathRef funcs fuel) [.mk ti ci (.NodeIf .BP_NONE) cond ifs elses []]
      = some r := by
    have : critPathRef funcs fuel ⟨tn, cn,
        [⟨tm, cm, m1, [.mk tf cf (.CFunc "_eval" slow) f1 f2 f3 f4], m3, m4⟩], [], [], []⟩
        = sumOver (pathRef funcs fuel) [.mk ti ci (.NodeIf .BP_NONE) cond ifs elses []] := by
      simp only [critPathRef, evalBodies, List.flatMap_cons, List.flatMap_nil,
        if_true, hbody, List.append_nil]
    rw [← this]; exact g
  cases fuel with
  | zero => simp [sumOver, pathRef] at hg
  | succ fuel =>
    simp only [sumOver] at hg
    split at hg
    · rename_i x y hx hy
      cases hy
      cases hg
      simp only [pathRef] at hx
      split at hx
      · rename_i pc ei ee hpc hei hee
        rw [if_neg (by decide)] at hei hee
        have h1 := sumOver_pathRef_plain funcs fuel cond pc hcond hpc
        have h2 := sumOver_estRef_plain funcs fuel ifs ei hifs hei
        have h3 := sumOver_estRef_plain funcs fuel elses ee helses hee
        rw [if_pos (by rw [h2, h3]; exact hge)] at hx
        simp only [Option.map_eq_some'] at hx
        obtain ⟨pa, hpa, rfl⟩ := hx
        rw [sumOver_pathRef_plain funcs fuel ifs pa hifs hpa, h1]
        ring
      · cases hx
    · cases hg

theorem scenario_total_is_conditional_condition_if_arm_witness :
    ([] ++ [] ++ [sampleCond] ++ [] : List AstNode)
      = [.mk 3 1 (.NodeIf .BP_NONE) [leaf 4 2] [leaf 5 4] [leaf 6 1] []] ∧
    allList plain [leaf 4 2] = true ∧ allList plain [leaf 5 4] = true ∧
    allList plain [leaf 6 1] = true ∧ sumInstrList [leaf 6 1] ≤ sumInstrList [leaf 5 4] ∧
    (∃ N, ∀ fuel, N ≤ fuel →
      ∃ s, statsStageAll false noFuncs fuel sampleScenario true = .ok s ∧
        s.m_statInstr = 1 + sumInstrList [leaf 4 2] + sumInstrList [leaf 5 4]) ∧
    (1 : Int) + sumInstrList [leaf 4 2] + sumInstrList [leaf 5 4] = 7 :=
  ⟨rfl, by decide, by decide, by decide, by decide,
    scenario_total_is_conditional_condition_if_arm false noFuncs 0 0 1 3 [] [] [] 2 5 false
      [] [] [sampleCond] [] 3 1 [leaf 4 2] [leaf 5 4] [leaf 6 1] rfl (by decide) (by decide)
      (by decide) (by decide),
    by decide⟩

/-! ### Full mode does not follow call edges -/

theorem bind_congr_ok {α β : Type} {x x' : Except Abort α} {f f' : α → Except Abort β}
    (hx : x = x') (hf : ∀ a, x' = .ok a → f a = f' a) : x.bind f = x'.bind f' := by
  subst hx
  cases x with
  | error e => rfl
  | ok a => exact hf a rfl

theorem iterateNext_congr {v v' : Visit} {S : StatsVisitor → Prop}
    (hS : ∀ a n s s', S s → v' a n s = .ok s' → S s')
    (heq : ∀ a n s, S s → v a n s = v' a n s) :
    ∀ l s, S s → iterateNext v l s = iterateNext v' l s := by
  intro l
  induction l with
  | nil => intro s _; rfl
  | cons n rest ih =>
    intro s hs
    simp only [iterateNext]
    exact bind_congr_ok (heq _ _ _ hs) (fun s1 h1 => ih s1 (hS _ _ _ _ hs h1))

theorem iterateAndNextConst_congr {v v' : Visit} {S : StatsVisitor → Prop}
    (hS : ∀ a n s s', S s → v' a n s = .ok s' → S s')
    (heq : ∀ a n s, S s → v a n s = v' a n s) (p : AstType) :
    ∀ l s, S s → iterateAndNextConst v p l s = iterateAndNextConst v' p l s := by
  intro l s hs
  cases l with
  | nil => rfl
  | cons n rest =>
    simp only [iterateAndNextConst]
    exact bind_congr_ok (heq _ _ _ hs)
      (fun s1 h1 => iterateNext_congr hS heq rest s1 (hS _ _ _ _ hs h1))

theorem iterateChildrenConst_congr {v v' : Visit} {S : StatsVisitor → Prop}
    (hS : ∀ a n s s', S s → v' a n s = .ok s' → S s')
    (heq : ∀ a n s, S s → v a n s = v' a n s) (p : AstType) (o1 o2 o3 o4 : List AstNode) :
    ∀ s, S s → iterateChildrenConst v p o1 o2 o3 o4 s
      = iterateChildrenConst v' p o1 o2 o3 o4 s := by
  intro s hs
  have r := iterateAndNextConst_congr hS heq p
  have k := iterateAndNextConst_keeps hS p
  simp only [iterateChildrenConst]
  refine bind_congr_ok (bind_congr_ok (bind_congr_ok (r o1 s hs) ?_) ?_) ?_
  · intro s1 h1
    exact r o2 s1 (k _ _ _ hs h1)
  · intro s2 h2
    simp only [bind_eq_ok] at h2
    obtain ⟨s1, h1, h2⟩ := h2
    exact r o3 s2 (k _ _ _ (k _ _ _ hs h1) h2)
  · intro s3 h3
    simp only [bind_eq_ok] at h3
    obtain ⟨s2, ⟨s1, h1, h2⟩, h3⟩ := h3
    exact r o4 s3 (k _ _ _ (k _ _ _ (k _ _ _ hs h1) h2) h3)

/-- In full mode the function table is not consulted: call edges are not entered. -/
theorem visit_full_eq (statsVars : Bool) (funcs funcs' : FuncTable) :
    ∀ fuel a n s, s.m_fast = false →
      visit statsVars funcs fuel a n s = visit statsVars funcs' fuel a n s := by
  intro fuel
  induction fuel with
  | zero => intro a n s _; rfl
  | succ fuel ih =>
    intro a n s hs
    obtain ⟨t, c, k, o1, o2, o3, o4⟩ := n
    have hS : ∀ a n (s s' : StatsVisitor), s.m_fast = false →
        visit statsVars funcs' fuel a n s = .ok s' → s'.m_fast = false :=
      fun a n s s' hs h => (visit_flags statsVars funcs' fuel a n s s' h).2.trans hs
    have hc := iterateChildrenConst_congr hS ih t o1 o2 o3 o4
    have hk := iterateChildrenConst_keeps hS t o1 o2 o3 o4
    have ha : (allNodes a t c s).m_fast = false := (allNodes_fast a t c s).trans hs
    simp only [visit]
    cases k with
    | Other => exact hc _ ha
    | Var dt clk w name => exact bind_congr_ok (hc _ ha) (fun _ _ => rfl)
    | VarScope dt => exact bind_congr_ok (hc _ ha) (fun _ _ => rfl)
    | NodeIf pred =>
      refine bind_congr_ok (iterateAndNextConst_congr hS ih t o1 _ ha) (fun s2 h2 => ?_)
      have hf2 : s2.m_fast = false := iterateAndNextConst_keeps hS t _ _ _ ha h2
      have hf3 : (trackPred pred s2).m_fast = false := (trackPred_fast pred s2).trans hf2
      rw [if_pos (by simp [hf3]), if_pos (by simp [hf3])]
      exact hc _ hf3
    | CCall f =>
      refine bind_congr_ok (hc _ ha) (fun s2 h2 => ?_)
      have hf2 : s2.m_fast = false := hk _ _ ha h2
      rw [if_neg (by simp [hf2]), if_neg (by simp [hf2])]
    | CFunc name slow =>
      exact bind_congr_ok (hc _ ((allNodes_fast a t c _).trans hs)) (fun _ _ => rfl)

/-- In full mode the traversal of the netlist does not depend on the function table. -/
theorem visitNetlist_full_eq (statsVars : Bool) (funcs funcs' : FuncTable) (fuel : Nat)
    (n : AstNetlist) (s : StatsVisitor) (hs : s.m_fast = false) :
    visitNetlist (visit statsVars funcs fuel) n s
      = visitNetlist (visit statsVars funcs' fuel) n s := by
  have hS : ∀ a n (s s' : StatsVisitor), s.m_fast = false →
      visit statsVars funcs' fuel a n s = .ok s' → s'.m_fast = false :=
    fun a n s s' hs h => (visit_flags statsVars funcs' fuel a n s s' h).2.trans hs
  have heq := visit_full_eq statsVars funcs funcs' fuel
  have hmod : ∀ a m (s : StatsVisitor), s.m_fast = false →
      visitNodeModule (visit statsVars funcs fuel) a m s
        = visitNodeModule (visit statsVars funcs' fuel) a m s := by
    intro a m s hs
    have ha : (allNodes a m.type m.instrCount s).m_fast = false :=
      (allNodes_fast _ _ _ s).trans hs
    unfold visitNodeModule
    simp only
    rw [if_pos (by simp [ha]), if_pos (by simp [ha])]
    exact iterateChildrenConst_congr hS heq _ _ _ _ _ _ ha
  have hmodS : ∀ a m (s s' : StatsVisitor), s.m_fast = false →
      visitNodeModule (visit statsVars funcs' fuel) a m s = .ok s' → s'.m_fast = false := by
    intro a m s s' hs h
    have ha : (allNodes a m.type m.instrCount s).m_fast = false :=
      (allNodes_fast _ _ _ s).trans hs
    unfold visitNodeModule at h
    simp only at h
    rw [if_pos (by simp [ha])] at h
    exact iterateChildrenConst_keeps hS _ _ _ _ _ _ _ ha h
  have hnext : ∀ l (s : StatsVisitor), s.m_fast = false →
      iterateNextModules (visit statsVars funcs fuel) l s
        = iterateNextModules (visit statsVars funcs' fuel) l s ∧
      ∀ s', iterateNextModules (visit statsVars funcs' fuel) l s = .ok s' →
        s'.m_fast = false := by
    intro l
    induction l with
    | nil => intro s hs; exact ⟨rfl, fun s' h => by cases h; exact hs⟩
    | cons m rest ih =>
      intro s hs
      simp only [iterateNextModules]
      refine ⟨bind_congr_ok (hmod _ _ _ hs) (fun s1 h1 => (ih s1 (hmodS _ _ _ _ hs h1)).1),
        fun s' h => ?_⟩
      simp only [bind_eq_ok] at h
      obtain ⟨s1, h1, h2⟩ := h
      exact (ih s1 (hmodS _ _ _ _ hs h1)).2 s' h2
  have ha : (allNodes none n.type n.instrCount s).m_fast = false :=
    (allNodes_fast _ _ _ s).trans hs
  have hmods : iterateModules (visit statsVars funcs fuel) n.type n.modulesp
        (allNodes none n.type n.instrCount s)
      = iterateModules (visit statsVars funcs' fuel) n.type n.modulesp
        (allNodes none n.type n.instrCount s) ∧
      ∀ s', iterateModules (visit statsVars funcs' fuel) n.type n.modulesp
        (allNodes none n.type n.instrCount s) = .ok s' → s'.m_fast = false := by
    cases n.modulesp with
    | nil => exact ⟨rfl, fun s' h => by cases h; exact ha⟩
    | cons m rest =>
      simp only [iterateModules]
      refine ⟨bind_congr_ok (hmod _ _ _ ha)
        (fun s1 h1 => (hnext rest s1 (hmodS _ _ _ _ ha h1)).1), fun s' h => ?_⟩
      simp only [bind_eq_ok] at h
      obtain ⟨s1, h1, h2⟩ := h
      exact (hnext rest s1 (hmodS _ _ _ _ ha h1)).2 s' h2
  have r := iterateAndNextConst_congr hS heq n.type
  have k := iterateAndNextConst_keeps hS n.type
  simp only [visitNetlist]
  refine bind_congr_ok (bind_congr_ok (bind_congr_ok hmods.1 ?_) ?_) ?_
  · intro s1 h1
    exact r _ s1 (hmods.2 s1 h1)
  · intro s2 h2
    simp only [bind_eq_ok] at h2
    obtain ⟨s1, h1, h2⟩ := h2
    exact r _ s2 (k _ _ _ (hmods.2 s1 h1) h2)
  · intro s3 h3
    simp only [bind_eq_ok] at h3
    obtain ⟨s2, ⟨s1, h1, h2⟩, h3⟩ := h3
    exact r _ s3 (k _ _ _ (k _ _ _ (hmods.2 s1 h1) h2) h3)

theorem noFuncs_acyclic : Acyclic noFuncs :=
  ⟨fun _ => 0, fun i j hj => by
    simp [noFuncs, FuncEntry.node, AstNode.calls, callsList] at hj⟩

/-- The traversal of the netlist in full mode returns when the visits of the top nodes
do. -/
theorem visitNetlist_full_returns (statsVars : Bool) {v : Visit}
    (hok : ∀ a n s s', NamesInv statsVars s → v a n s = .ok s' → NamesInv statsVars s')
    (hvf : ∀ a n s s', v a n s = .ok s' → Flags s s')
    (n : AstNetlist) (hret : ∀ x ∈ n.topNodes, Ret statsVars v x)
    (s : StatsVisitor) (hs : NamesInv statsVars s) (hf : s.m_fast = false) :
    ∃ s', visitNetlist v n s = .ok s' := by
  have hmod : ∀ a (m : AstNodeModule),
      (∀ x ∈ m.op1p ++ (m.stmtsp ++ (m.op3p ++ m.op4p)), Ret statsVars v x) →
      ∀ s : StatsVisitor, NamesInv statsVars s → s.m_fast = false →
      ∃ s', visitNodeModule v a m s = .ok s' ∧ NamesInv statsVars s' ∧ s'.m_fast = false := by
    intro a m hm s hs hf
    have ha : (allNodes a m.type m.instrCount s).m_fast = false :=
      (allNodes_fast _ _ _ s).trans hf
    have h1 : ∀ x ∈ m.op1p, Ret statsVars v x := fun x hx => hm x (by simp [hx])
    have h2 : ∀ x ∈ m.stmtsp, Ret statsVars v x := fun x hx => hm x (by simp [hx])
    have h3 : ∀ x ∈ m.op3p, Ret statsVars v x := fun x hx => hm x (by simp [hx])
    have h4 : ∀ x ∈ m.op4p, Ret statsVars v x := fun x hx => hm x (by simp [hx])
    obtain ⟨s', e, i⟩ := iterateChildrenConst_returns hok m.type h1 h2 h3 h4
      (allNodes a m.type m.instrCount s) (allNodes_names _ _ _ hs)
    refine ⟨s', ?_, i, ?_⟩
    · unfold visitNodeModule
      simp only
      rw [if_pos (by simp [ha])]
      exact e
    · exact (iterateChildrenConst_rel Flags.refl (fun _ _ _ => Flags.trans) hvf _ _ _ _ _ _ _
        e).2.trans ha
  have hnext : ∀ l : List AstNodeModule,
      (∀ x ∈ l.flatMap (fun m => m.op1p ++ (m.stmtsp ++ (m.op3p ++ m.op4p))),
        Ret statsVars v x) →
      ∀ s : StatsVisitor, NamesInv statsVars s → s.m_fast = false →
      ∃ s', iterateNextModules v l s = .ok s' ∧ NamesInv statsVars s' := by
    intro l
    induction l with
    | nil => intro _ s hs _; exact ⟨s, rfl, hs⟩
    | cons m rest ih =>
      intro hl s hs hf
      simp only [List.flatMap_cons] at hl
      obtain ⟨s1, e1, i1, f1⟩ := hmod none m (fun x hx => hl x (List.mem_append_left _ hx))
        s hs hf
      obtain ⟨s2, e2, i2⟩ := ih (fun x hx => hl x (List.mem_append_right _ hx)) s1 i1 f1
      exact ⟨s2, by simp only [iterateNextModules, e1, Except.bind]; exact e2, i2⟩
  have hmods : ∃ s1, iterateModules v n.type n.modulesp (allNodes none n.type n.instrCount s)
      = .ok s1 ∧ NamesInv statsVars s1 := by
    have hl : ∀ x ∈ n.modulesp.flatMap (fun m => m.op1p ++ (m.stmtsp ++ (m.op3p ++ m.op4p))),
        Ret statsVars v x := fun x hx => hret x (List.mem_append_left _ hx)
    have ha : (allNodes none n.type n.instrCount s).m_fast = false :=
      (allNodes_fast _ _ _ s).trans hf
    cases hm : n.modulesp with
    | nil => exact ⟨_, rfl, allNodes_names _ _ _ hs⟩
    | cons m rest =>
      rw [hm] at hl
      simp only [List.flatMap_cons] at hl
      obtain ⟨s1, e1, i1, f1⟩ := hmod (some n.type) m
        (fun x hx => hl x (List.mem_append_left _ hx)) _ (allNodes_names _ _ _ hs) ha
      obtain ⟨s2, e2, i2⟩ := hnext rest (fun x hx => hl x (List.mem_append_right _ hx))
        s1 i1 f1
      exact ⟨s2, by simp only [iterateModules, e1, Except.bind]; exact e2, i2⟩
  obtain ⟨s1, e1, i1⟩ := hmods
  have r := iterateAndNextConst_returns hok n.type
  obtain ⟨s2, e2, i2⟩ := r n.op2p (fun x hx => hret x (by simp [AstNetlist.topNodes, hx]))
    s1 i1
  obtain ⟨s3, e3, i3⟩ := r n.op3p (fun x hx => hret x (by simp [AstNetlist.topNodes, hx]))
    s2 i2
  obtain ⟨s4, e4, _⟩ := r n.op4p (fun x hx => hret x (by simp [AstNetlist.topNodes, hx]))
    s3 i3
  exact ⟨s4, by simp only [visitNetlist, e1, e2, e3, Except.bind]; exact e4⟩

/-- In full mode `statsStageAll` returns, given enough fuel, whatever the call graph. -/
theorem statsStageAll_full_returns (statsVars : Bool) (funcs : FuncTable)
    (nodep : AstNetlist) :
    ∃ N, ∀ fuel, N ≤ fuel → ∃ s, statsStageAll statsVars funcs fuel nodep false = .ok s := by
  obtain ⟨N, hN⟩ := returns_list nodep.topNodes
    (fun n _ => returns_of_acyclic statsVars noFuncs_acyclic n)
  refine ⟨N, fun fuel hfuel => ?_⟩
  obtain ⟨s, e⟩ := visitNetlist_full_returns statsVars
    (fun a n s s' hs h => (visit_names hs h).1) (visit_flags statsVars noFuncs fuel) nodep
    (fun x hx => hN x hx fuel hfuel) (StatsVisitor.init false) (fun _ => rfl) rfl
  exact ⟨s, by
    unfold statsStageAll
    rw [visitNetlist_full_eq statsVars funcs noFuncs fuel nodep _ rfl]
    exact e⟩

/-! ### Full mode: when the fast-critical count equals the total -/

theorem costInFuncsList_iff {l : List AstNode} :
    costInFuncsList l = true ↔ ∀ n ∈ l, n.costInFuncs = true := by
  induction l with
  | nil => simp [costInFuncsList]
  | cons n rest ih => simp [costInFuncsList, ih]

/-- Full mode inside a function that is not slow: every step adds the same amount to
`m_statInstrFast` and to `m_statInstr`. -/
theorem stepClosed_inFunc (statsVars : Bool) (d : Int) :
    StepClosed statsVars notFunc (fun s => s.m_fast = false ∧ s.m_counting = true ∧
      s.m_cfuncp = some false ∧ s.m_statInstrFast = s.m_statInstr + d) where
  allNodes := by
    intro a t c k s _ hp
    obtain ⟨h1, h2, h3, h4⟩ := hp
    unfold allNodes
    rw [if_pos h2]
    refine ⟨h1, h2, h3, ?_⟩
    simp only [h3, if_true]
    rw [h4]
    ring
  cfuncEnter := fun _ _ _ _ _ hR _ => by simp [notFunc] at hR
  cfuncLeave := fun _ _ _ _ _ hR _ => by simp [notFunc] at hR
  dryEnter := fun _ hp hf => by rw [hp.1] at hf; cases hf
  dryLeave := fun _ _ hp hf _ => by rw [hp.1] at hf; cases hf
  pred := fun _ _ _ _ _ hp _ => hp
  var := by
    intro t c dt clk w name s s' _ hp _ h
    rw [varStats_frame h]
    exact hp
  scp := fun _ _ _ _ _ hp _ => hp

/-- Full mode outside every function: below a node that satisfies `costInFuncs`, a visit adds
the same amount to `m_statInstrFast` and to `m_statInstr` and ends outside every function. -/
theorem visit_costInFuncs (statsVars : Bool) (funcs : FuncTable) (d : Int) :
    ∀ fuel a n s s', n.costInFuncs = true →
      (s.m_fast = false ∧ s.m_counting = true ∧ s.m_cfuncp = none ∧
        s.m_statInstrFast = s.m_statInstr + d) →
      visit statsVars funcs fuel a n s = .ok s' →
      (s'.m_fast = false ∧ s'.m_counting = true ∧ s'.m_cfuncp = none ∧
        s'.m_statInstrFast = s'.m_statInstr + d) := by
  intro fuel
  induction fuel with
  | zero => intro a n s s' _ _ h; simp [visit] at h
  | succ fuel ih =>
    intro a n s s' hn hp h
    obtain ⟨t, c, k, o1, o2, o3, o4⟩ := n
    obtain ⟨h1, h2, h3, h4⟩ := hp
    have hinside : ∀ a n (s s' : StatsVisitor), n.all notFunc = true →
        (s.m_fast = false ∧ s.m_counting = true ∧ s.m_cfuncp = some false ∧
          s.m_statInstrFast = s.m_statInstr + d) →
        visit statsVars funcs fuel a n s = .ok s' →
        (s'.m_fast = false ∧ s'.m_counting = true ∧ s'.m_cfuncp = some false ∧
          s'.m_statInstrFast = s'.m_statInstr + d) :=
      visit_inv (stepClosed_inFunc statsVars d)
        (fun i s hp hf => by rw [hp.1] at hf; cases hf) fuel
    have hout : ∀ (hk : ∀ name slow, k ≠ .CFunc name slow),
        c = 0 ∧ (∀ n ∈ o1, n.costInFuncs = true) ∧ (∀ n ∈ o2, n.costInFuncs = true) ∧
          (∀ n ∈ o3, n.costInFuncs = true) ∧ (∀ n ∈ o4, n.costInFuncs = true) := by
      intro hk
      have : (decide (c = 0) && costInFuncsList o1 && costInFuncsList o2 && costInFuncsList o3
          && costInFuncsList o4) = true := by
        cases k with
        | CFunc name slow => exact absurd rfl (hk name slow)
        | _ => simpa [AstNode.costInFuncs] using hn
      simp only [Bool.and_eq_true, decide_eq_true_eq, costInFuncsList_iff] at this
      exact ⟨this.1.1.1.1, this.1.1.1.2, this.1.1.2, this.1.2, this.2⟩
    have ha0 : c = 0 → ((allNodes a t c s).m_fast = false ∧
        (allNodes a t c s).m_counting = true ∧ (allNodes a t c s).m_cfuncp = none ∧
        (allNodes a t c s).m_statInstrFast = (allNodes a t c s).m_statInstr + d) := by
      intro hc0
      unfold allNodes
      rw [if_pos h2]
      refine ⟨h1, h2, h3, ?_⟩
      simp only [h3]
      rw [if_neg (by simp), h4, hc0]
      ring
    simp only [visit] at h
    cases k with
    | CFunc name slow =>
      simp only [AstNode.costInFuncs, Bool.and_eq_true, Bool.not_eq_true'] at hn
      obtain ⟨⟨⟨⟨hslow, n1⟩, n2⟩, n3⟩, n4⟩ := hn
      subst hslow
      simp only [bind_eq_ok] at h
      obtain ⟨s2, e1, e2⟩ := h
      cases e2
      have hin := iterateChildrenConst_inv hinside t (allList_iff.1 n1) (allList_iff.1 n2)
        (allList_iff.1 n3) (allList_iff.1 n4) _ _
        ((stepClosed_inFunc statsVars d).allNodes a t c .Other
          { s with m_cfuncp := some false } rfl ⟨h1, h2, rfl, h4⟩) e1
      exact ⟨hin.1, hin.2.1, rfl, hin.2.2.2⟩
    | Other =>
      obtain ⟨hc0, c1, c2, c3, c4⟩ := hout (fun _ _ hk => by cases hk)
      exact iterateChildrenConst_inv ih t c1 c2 c3 c4 _ _ (ha0 hc0) h
    | Var dt clk w name =>
      obtain ⟨hc0, c1, c2, c3, c4⟩ := hout (fun _ _ hk => by cases hk)
      simp only [bind_eq_ok] at h
      obtain ⟨s2, e1, e2⟩ := h
      have p2 := iterateChildrenConst_inv ih t c1 c2 c3 c4 _ _ (ha0 hc0) e1
      unfold varRule at e2
      split at e2
      · rw [varStats_frame e2]; exact p2
      · cases e2; exact p2
    | VarScope dt =>
      obtain ⟨hc0, c1, c2, c3, c4⟩ := hout (fun _ _ hk => by cases hk)
      simp only [bind_eq_ok] at h
      obtain ⟨s2, e1, e2⟩ := h
      cases e2
      have p2 := iterateChildrenConst_inv ih t c1 c2 c3 c4 _ _ (ha0 hc0) e1
      unfold varScopeRule
      split
      · exact p2
      · exact p2
    | NodeIf pred =>
      obtain ⟨hc0, c1, c2, c3, c4⟩ := hout (fun _ _ hk => by cases hk)
      simp only [bind_eq_ok] at h
      obtain ⟨s2, e1, e2⟩ := h
      have p2 := iterateAndNextConst_inv ih t _ _ _ c1 (ha0 hc0) e1
      have p3 : (trackPred pred s2).m_fast = false ∧ (trackPred pred s2).m_counting = true ∧
          (trackPred pred s2).m_cfuncp = none ∧
          (trackPred pred s2).m_statInstrFast = (trackPred pred s2).m_statInstr + d := by
        unfold trackPred
        split
        · exact p2
        · exact p2
      rw [if_pos (by simp [p3.1])] at e2
      exact iterateChildrenConst_inv ih t c1 c2 c3 c4 _ _ p3 e2
    | CCall f =>
      obtain ⟨hc0, c1, c2, c3, c4⟩ := hout (fun _ _ hk => by cases hk)
      simp only [bind_eq_ok] at h
      obtain ⟨s2, e1, e2⟩ := h
      have p2 := iterateChildrenConst_inv ih t c1 c2 c3 c4 _ _ (ha0 hc0) e1
      rw [if_neg (by simp [p2.1])] at e2
      cases e2
      exact p2

/-- C4 amended: in full mode, for every tree in which all cost lies inside functions that are
not slow and do not nest (`costInFuncs`: the netlist, the modules and every other node
outside the functions have cost weight zero), the traversal returns, given enough fuel, with
`m_statInstrFast = m_statInstr`. -/
theorem fastCritical_eq_total_full_mode (statsVars : Bool) (funcs : FuncTable)
    (nodep : AstNetlist) (hcost : nodep.costInFuncs = true) :
    ∃ N, ∀ fuel, N ≤ fuel →
      ∃ s, statsStageAll statsVars funcs fuel nodep false = .ok s ∧
        s.m_statInstrFast = s.m_statInstr := by
  obtain ⟨N, hN⟩ := statsStageAll_full_returns statsVars funcs nodep
  refine ⟨N, fun fuel hfuel => ?_⟩
  obtain ⟨s, e⟩ := hN fuel hfuel
  refine ⟨s, e, ?_⟩
  have hv := visit_costInFuncs statsVars funcs 0 fuel
  have hall0 : ∀ a t (s : StatsVisitor),
      (s.m_fast = false ∧ s.m_counting = true ∧ s.m_cfuncp = none ∧
        s.m_statInstrFast = s.m_statInstr + 0) →
      ((allNodes a t 0 s).m_fast = false ∧ (allNodes a t 0 s).m_counting = true ∧
        (allNodes a t 0 s).m_cfuncp = none ∧
        (allNodes a t 0 s).m_statInstrFast = (allNodes a t 0 s).m_statInstr + 0) := by
    intro a t s hp
    obtain ⟨h1, h2, h3, h4⟩ := hp
    unfold allNodes
    rw [if_pos h2]
    refine ⟨h1, h2, h3, ?_⟩
    simp only [h3]
    rw [if_neg (by simp), h4]
    ring
  simp only [AstNetlist.costInFuncs, Bool.and_eq_true, decide_eq_true_eq, List.all_eq_true,
    costInFuncsList_iff] at hcost
  obtain ⟨⟨⟨⟨hc0, hmods⟩, h2⟩, h3⟩, h4⟩ := hcost
  have hmod : ∀ a (m : AstNodeModule),
      ((((m.instrCount = 0 ∧ ∀ n ∈ m.op1p, n.costInFuncs = true) ∧
        ∀ n ∈ m.stmtsp, n.costInFuncs = true) ∧ ∀ n ∈ m.op3p, n.costInFuncs = true) ∧
        ∀ n ∈ m.op4p, n.costInFuncs = true) →
      ∀ s s' : StatsVisitor,
      (s.m_fast = false ∧ s.m_counting = true ∧ s.m_cfuncp = none ∧
        s.m_statInstrFast = s.m_statInstr + 0) →
      visitNodeModule (visit statsVars funcs fuel) a m s = .ok s' →
      (s'.m_fast = false ∧ s'.m_counting = true ∧ s'.m_cfuncp = none ∧
        s'.m_statInstrFast = s'.m_statInstr + 0) := by
    intro a m hm s s' hp h
    obtain ⟨⟨⟨⟨m0, m1⟩, m2⟩, m3⟩, m4⟩ := hm
    unfold visitNodeModule at h
    simp only at h
    rw [m0] at h
    have ha := hall0 a m.type s hp
    rw [if_pos (by simp [ha.1])] at h
    exact iterateChildrenConst_inv hv m.type m1 m2 m3 m4 _ _ ha h
  have hnext : ∀ l : List AstNodeModule,
      (∀ m ∈ l, (((m.instrCount = 0 ∧ ∀ n ∈ m.op1p, n.costInFuncs = true) ∧
        ∀ n ∈ m.stmtsp, n.costInFuncs = true) ∧ ∀ n ∈ m.op3p, n.costInFuncs = true) ∧
        ∀ n ∈ m.op4p, n.costInFuncs = true) →
      ∀ s s' : StatsVisitor,
      (s.m_fast = false ∧ s.m_counting = true ∧ s.m_cfuncp = none ∧
        s.m_statInstrFast = s.m_statInstr + 0) →
      iterateNextModules (visit statsVars funcs fuel) l s = .ok s' →
      (s'.m_fast = false ∧ s'.m_counting = true ∧ s'.m_cfuncp = none ∧
        s'.m_statInstrFast = s'.m_statInstr + 0) := by
    intro l
    induction l with
    | nil => intro _ s s' hp h; simp [iterateNextModules] at h; subst h; exact hp
    | cons m rest ih =>
      intro hl s s' hp h
      simp only [iterateNextModules, bind_eq_ok] at h
      obtain ⟨s1, e1, e2⟩ := h
      exact ih (fun x hx => hl x (List.mem_cons_of_mem _ hx)) s1 s'
        (hmod none m (hl m (List.mem_cons_self _ _)) s s1 hp e1) e2
  unfold statsStageAll at e
  simp only [visitNetlist, bind_eq_ok] at e
  obtain ⟨s3, ⟨s2, ⟨s1, e1, e2⟩, e3⟩, e4⟩ := e
  rw [hc0] at e1
  have ha := hall0 none nodep.type (StatsVisitor.init false) ⟨rfl, rfl, rfl, by
    simp [StatsVisitor.init]⟩
  have p1 : s1.m_fast = false ∧ s1.m_counting = true ∧ s1.m_cfuncp = none ∧
      s1.m_statInstrFast = s1.m_statInstr + 0 := by
    cases hm : nodep.modulesp with
    | nil => rw [hm] at e1; simp [iterateModules] at e1; subst e1; exact ha
    | cons m rest =>
      rw [hm] at e1 hmods
      simp only [iterateModules, bind_eq_ok] at e1
      obtain ⟨s0, e0, e1⟩ := e1
      exact hnext rest (fun x hx => hmods x (List.mem_cons_of_mem _ hx)) s0 s1
        (hmod (some nodep.type) m (hmods m (List.mem_cons_self _ _)) _ s0 ha e0) e1
  have r := iterateAndNextConst_inv hv nodep.type
  have p4 := r _ _ _ h4 (r _ _ _ h3 (r _ _ _ h2 p1 e2) e3) e4
  rw [p4.2.2.2]
  ring

theorem fastCritical_eq_total_full_mode_witness :
    sampleFuncsOnly.costInFuncs = true ∧
    (∃ N, ∀ fuel, N ≤ fuel →
      ∃ s, statsStageAll false noFuncs fuel sampleFuncsOnly false = .ok s ∧
        s.m_statInstrFast = s.m_statInstr) ∧
    (statsStageAll false noFuncs 10 sampleFuncsOnly false).toOption.map
      (fun s => (s.m_statInstr, s.m_statInstrFast)) = some (15, 15) :=
  ⟨by decide, fastCritical_eq_total_full_mode false noFuncs sampleFuncsOnly (by decide),
    by decide⟩

/-! ### The per-name breakdown -/

theorem nameMapFind_iff (m : NameMap) (pn : String) :
    nameMapFind m pn = true ↔ ∃ c, (pn, c) ∈ m := by
  simp only [nameMapFind, List.any_eq_true, decide_eq_true_eq]
  constructor
  · rintro ⟨⟨k, c⟩, hm, rfl⟩
    exact ⟨c, hm⟩
  · rintro ⟨c, hm⟩
    exact ⟨(pn, c), hm, rfl⟩

theorem mem_nameMapInsert (m : NameMap) (pn : String) (x : String × Nat) :
    x ∈ nameMapInsert m pn ↔ x = (pn, 1) ∨ x ∈ m := by
  induction m with
  | nil => simp [nameMapInsert]
  | cons e rest ih =>
    obtain ⟨k, c⟩ := e
    simp only [nameMapInsert]
    split
    · simp
    · simp only [List.mem_cons, ih]
      tauto

theorem nameMapInsert_keys_nodup (m : NameMap) (pn : String)
    (hnd : (m.map fun it => it.1).Nodup) (hnew : ∀ c, (pn, c) ∉ m) :
    ((nameMapInsert m pn).map fun it => it.1).Nodup := by
  induction m with
  | nil => simp [nameMapInsert]
  | cons e rest ih =>
    obtain ⟨k, c⟩ := e
    have hk : k ≠ pn := fun h => hnew c (by simp [h])
    simp only [List.map_cons, List.nodup_cons] at hnd
    simp only [nameMapInsert]
    split
    · simp only [List.map_cons, List.nodup_cons, List.mem_cons, not_or]
      refine ⟨⟨fun h => hk h.symm, ?_⟩, hnd.1, hnd.2⟩
      intro hin
      obtain ⟨⟨k', c'⟩, hm, hkk⟩ := List.mem_map.1 hin
      simp only at hkk
      subst hkk
      exact hnew c' (List.mem_cons_of_mem _ hm)
    · simp only [List.map_cons, List.nodup_cons]
      refine ⟨?_, ih hnd.2 (fun c' hm => hnew c' (List.mem_cons_of_mem _ hm))⟩
      intro hin
      obtain ⟨⟨k', c'⟩, hm, hkk⟩ := List.mem_map.1 hin
      simp only at hkk
      subst hkk
      rcases (mem_nameMapInsert rest pn _).1 hm with h | h
      · simp only [Prod.mk.injEq] at h
        exact hk h.1
      · exact hnd.1 (List.mem_map.2 ⟨(k', c'), h, rfl⟩)

theorem nameMapInsert_sum (m : NameMap) (pn : String) :
    ((nameMapInsert m pn).map fun it => it.2).sum = (m.map fun it => it.2).sum + 1 := by
  induction m with
  | nil => simp [nameMapInsert]
  | cons e rest ih =>
    obtain ⟨k, c⟩ := e
    simp only [nameMapInsert]
    split
    · simp only [List.map_cons, List.sum_cons]; omega
    · simp only [List.map_cons, List.sum_cons, ih]; omega

theorem nameMapBump_keys (m : NameMap) (pn : String) :
    ((m.map fun it => if it.1 = pn then (it.1, it.2 + 1) else it).map fun it => it.1)
      = m.map fun it => it.1 := by
  induction m with
  | nil => rfl
  | cons e rest ih =>
    simp only [List.map_cons, ih]
    split <;> rfl

theorem nameMapBump_of_absent (m : NameMap) (pn : String) (h : ∀ c, (pn, c) ∉ m) :
    (m.map fun it => if it.1 = pn then (it.1, it.2 + 1) else it) = m := by
  induction m with
  | nil => rfl
  | cons e rest ih =>
    obtain ⟨k, c⟩ := e
    have hk : k ≠ pn := fun hk => h c (by simp [hk])
    simp only [List.map_cons, if_neg hk]
    rw [ih (fun c' hm => h c' (List.mem_cons_of_mem _ hm))]

theorem nameMapBump_sum (m : NameMap) (pn : String)
    (hnd : (m.map fun it => it.1).Nodup) (hfound : ∃ c, (pn, c) ∈ m) :
    ((m.map fun it => if it.1 = pn then (it.1, it.2 + 1) else it).map fun it => it.2).sum
      = (m.map fun it => it.2).sum + 1 := by
  induction m with
  | nil => obtain ⟨c, hc⟩ := hfound; cases hc
  | cons e rest ih =>
    obtain ⟨k, c⟩ := e
    simp only [List.map_cons, List.nodup_cons] at hnd
    by_cases hk : k = pn
    · subst hk
      have habs : ∀ c', (k, c') ∉ rest :=
        fun c' hm => hnd.1 (List.mem_map.2 ⟨(k, c'), hm, rfl⟩)
      simp only [List.map_cons, if_true, List.sum_cons]
      rw [nameMapBump_of_absent rest k habs]
      omega
    · have hrest : ∃ c', (pn, c') ∈ rest := by
        obtain ⟨c', hm⟩ := hfound
        rcases List.mem_cons.1 hm with h | h
        · simp only [Prod.mk.injEq] at h
          exact absurd h.1.symm hk
        · exact ⟨c', h⟩
      simp only [List.map_cons, if_neg hk, List.sum_cons, ih hnd.2 hrest]
      omega

theorem mem_nameMapBump (m : NameMap) (pn name : String) (c : Nat) :
    (name, c) ∈ (m.map fun it => if it.1 = pn then (it.1, it.2 + 1) else it) ↔
      (name ≠ pn ∧ (name, c) ∈ m) ∨ (name = pn ∧ ∃ c0, (pn, c0) ∈ m ∧ c = c0 + 1) := by
  simp only [List.mem_map]
  constructor
  · rintro ⟨⟨k, c0⟩, hm, he⟩
    by_cases hk : k = pn
    · simp only [if_pos hk, Prod.mk.injEq] at he
      subst hk
      exact Or.inr ⟨he.1.symm, c0, hm, he.2.symm⟩
    · simp only [if_neg hk, Prod.mk.injEq] at he
      obtain ⟨rfl, rfl⟩ := he
      exact Or.inl ⟨hk, hm⟩
  · rintro (⟨hne, hm⟩ | ⟨rfl, c0, hm, rfl⟩)
    · exact ⟨(name, c), hm, by simp only [if_neg hne]⟩
    · exact ⟨(name, c0), hm, by simp only [if_true]⟩

/-- The update of the name map of width `w` by a visit of `pn` at that width keeps it a
record of the visits. -/
theorem nameMapIncr_ok {m : NameMap} {w : Nat} {vs : List (Nat × String)} (pn : String)
    (h : NameMapOK m w vs) : NameMapOK (nameMapIncr m pn) w ((w, pn) :: vs) := by
  obtain ⟨hnd, hmem, hsum⟩ := h
  have hcount : ∀ name, ((w, pn) :: vs).count (w, name)
      = vs.count (w, name) + (if name = pn then 1 else 0) := by
    intro name
    rw [List.count_cons]
    by_cases hn : name = pn
    · subst hn; simp
    · have : ¬ ((w, pn) = (w, name)) := fun h => hn (by simp only [Prod.mk.injEq] at h; exact h.2.symm)
      simp [hn, this]
  have hcountP : ((w, pn) :: vs).countP (fun v => decide (v.1 = w))
      = vs.countP (fun v => decide (v.1 = w)) + 1 := by
    simp [List.countP_cons]
  unfold nameMapIncr
  by_cases hf : nameMapFind m pn = true
  · rw [if_pos hf]
    have hfound := (nameMapFind_iff m pn).1 hf
    refine ⟨by rw [nameMapBump_keys]; exact hnd, fun name c => ?_, by
      rw [nameMapBump_sum m pn hnd hfound, hsum, hcountP]⟩
    rw [mem_nameMapBump, hcount]
    constructor
    · rintro (⟨hne, hm⟩ | ⟨rfl, c0, hm, rfl⟩)
      · have := (hmem name c).1 hm
        simp only [if_neg hne, Nat.add_zero]
        exact this
      · have := (hmem name c0).1 hm
        simp only [if_true]
        exact ⟨by rw [this.1], Nat.succ_pos _⟩
    · rintro ⟨hc, hpos⟩
      by_cases hne : name = pn
      · subst hne
        obtain ⟨c0, hm0⟩ := hfound
        have h0 := (hmem name c0).1 hm0
        simp only [if_true] at hc
        exact Or.inr ⟨rfl, c0, hm0, by rw [hc, h0.1]⟩
      · simp only [if_neg hne, Nat.add_zero] at hc
        exact Or.inl ⟨hne, (hmem name c).2 ⟨hc, hpos⟩⟩
  · rw [if_neg hf]
    have habs : ∀ c, (pn, c) ∉ m := fun c hm => hf ((nameMapFind_iff m pn).2 ⟨c, hm⟩)
    have hzero : vs.count (w, pn) = 0 := by
      by_contra hne
      exact habs _ ((hmem pn _).2 ⟨rfl, Nat.pos_of_ne_zero hne⟩)
    refine ⟨nameMapInsert_keys_nodup m pn hnd habs, fun name c => ?_, by
      rw [nameMapInsert_sum, hsum, hcountP]⟩
    rw [mem_nameMapInsert, hcount]
    constructor
    · rintro (h | hm)
      · simp only [Prod.mk.injEq] at h
        obtain ⟨rfl, rfl⟩ := h
        simp [hzero]
      · have hne : name ≠ pn := fun h => habs c (h ▸ hm)
        simp only [if_neg hne, Nat.add_zero]
        exact (hmem name c).1 hm
    · rintro ⟨hc, hpos⟩
      by_cases hne : name = pn
      · subst hne
        simp only [if_true, hzero] at hc
        exact Or.inl (by rw [hc])
      · simp only [if_neg hne, Nat.add_zero] at hc
        exact Or.inr ((hmem name c).2 ⟨hc, hpos⟩)

/-- A visit at another width leaves the record of a name map as it is. -/
theorem nameMapOK_other {m : NameMap} {w w0 : Nat} {vs : List (Nat × String)} (pn : String)
    (hw : w ≠ w0) (h : NameMapOK m w vs) : NameMapOK m w ((w0, pn) :: vs) := by
  obtain ⟨hnd, hmem, hsum⟩ := h
  refine ⟨hnd, fun name c => ?_, ?_⟩
  · have : ((w0, pn) :: vs).count (w, name) = vs.count (w, name) := by
      rw [List.count_cons]
      have : ¬ ((w0, pn) = (w, name)) := fun h => hw (by simp only [Prod.mk.injEq] at h; exact h.1.symm)
      simp [this]
    rw [this]
    exact hmem name c
  · rw [hsum, List.countP_cons]
    simp [Ne.symm hw]

theorem growWidths_visits (statsVars : Bool) (w : Nat) (s : StatsVisitor) :
    (growWidths statsVars w s).varVisits = s.varVisits := by
  unfold growWidths
  split <;> rfl

/-- A counted variable visit is logged, and under `statsVars` the name map of its width is
updated by `nameMapIncr` while the other name maps are kept. -/
theorem varStats_log {statsVars : Bool} {dt : AstNodeDType} {clk : Bool} {w : Nat}
    {name : String} {s s' : StatsVisitor} (hinv : NamesInv statsVars s)
    (h : varStats statsVars dt clk w name s = .ok s') :
    s'.varVisits = (w, name) :: s.varVisits ∧
      (statsVars = true →
        s'.m_statVarWidthNames.getD w [] = nameMapIncr (s.m_statVarWidthNames.getD w []) name ∧
        ∀ i, i ≠ w → s'.m_statVarWidthNames.getD i [] = s.m_statVarWidthNames.getD i []) := by
  obtain ⟨_, _, _, _, hnget, _⟩ := growWidths_spec statsVars w (varTotals dt clk s) hinv
  have hv := growWidths_visits statsVars w (varTotals dt clk s)
  unfold varStats at h
  simp only at h
  split at h
  · cases h
  · split at h
    · split at h
      · cases h
      · rename_i c hc hsv nameMapr hn
        cases h
        refine ⟨by simp only [hv]; rfl, fun _ => ⟨?_, fun i hi => ?_⟩⟩
        · have hlt : w < (growWidths statsVars w (varTotals dt clk s)).m_statVarWidthNames.length := by
            by_contra hge
            rw [List.getElem?_eq_none (by omega)] at hn
            cases hn
          have hg := hnget w
          rw [List.getD_eq_getElem?_getD, hn] at hg
          simp only [Option.getD_some] at hg
          simp only [List.getD_eq_getElem?_getD, List.getElem?_set_self hlt,
            Option.getD_some]
          rw [hg, List.getD_eq_getElem?_getD]
          rfl
        · simp only
          rw [List.getD_eq_getElem?_getD, List.getElem?_set_ne (Ne.symm hi),
            ← List.getD_eq_getElem?_getD]
          exact hnget i
    · rename_i c hc hsv
      cases h
      exact ⟨by simp only [hv]; rfl, fun h => absurd h hsv⟩

/-- The record of the visits in the histogram and in the breakdown is kept by every
elementary step. -/
theorem stepClosed_hist (statsVars : Bool) :
    StepClosed statsVars anyNode (HistInv statsVars) where
  allNodes := by
    intro a t c k s _ hp
    unfold allNodes
    split <;> exact hp
  cfuncEnter := fun _ _ _ _ _ _ hp => hp
  cfuncLeave := fun _ _ _ _ _ _ hp => hp
  dryEnter := fun _ hp _ => hp
  dryLeave := fun _ _ _ _ hp => hp
  pred := fun _ _ _ _ _ hp _ => hp
  var := by
    intro t c dt clk w name s s' _ hp _ h
    obtain ⟨hcnt, hinv, hnames⟩ := hp
    obtain ⟨s'', h', hw, hother, _, _, _, hinv'⟩ := varStats_spec statsVars dt clk w name s hinv
    rw [h] at h'
    cases h'
    obtain ⟨hvis, hmaps⟩ := varStats_log hinv h
    refine ⟨fun i => ?_, hinv', fun hsv i => ?_⟩
    · rw [hvis, List.countP_cons]
      by_cases hi : i = w
      · subst hi
        rw [hw, hcnt]
        simp
      · rw [hother i hi, hcnt]
        simp [Ne.symm hi]
    · rw [hvis]
      by_cases hi : i = w
      · subst hi
        rw [(hmaps hsv).1]
        exact nameMapIncr_ok name (hnames hsv i)
      · rw [(hmaps hsv).2 i hi]
        exact nameMapOK_other name hi (hnames hsv i)
  scp := fun _ _ _ _ _ hp _ => hp

theorem histInv_init (statsVars fast : Bool) : HistInv statsVars (StatsVisitor.init fast) := by
  refine ⟨fun w => ?_, fun _ => rfl, fun _ w => ?_⟩
  · simp [StatsVisitor.widthCount, StatsVisitor.init]
  · have hm : (StatsVisitor.init fast).m_statVarWidthNames.getD w [] = [] := by
      simp [StatsVisitor.init]
    have hv : (StatsVisitor.init fast).varVisits = [] := rfl
    rw [hm, hv]
    refine ⟨List.nodup_nil, fun name c => ?_, rfl⟩
    constructor
    · intro hc
      cases hc
    · rintro ⟨hc, hpos⟩
      simp only [List.count_nil] at hc
      omega

/-- The state after the traversal records the counted variable visits. -/
theorem statsStageAll_hist {statsVars : Bool} {funcs : FuncTable} {fuel : Nat}
    {nodep : AstNetlist} {fast : Bool} {s : StatsVisitor}
    (h : statsStageAll statsVars funcs fuel nodep fast = .ok s) : HistInv statsVars s :=
  visitNetlist_inv (stepClosed_hist statsVars) (fun _ _ _ _ => all_anyNode _) (fun _ hp => hp)
    (fun _ hp => hp) (all_anyNode_netlist nodep) (histInv_init statsVars fast) h

/-! ### The report of the width histogram -/

theorem widthEntries_eq {statsVars : Bool} {s : StatsVisitor} {i : Nat}
    (hinv : NamesInv statsVars s) (hi : i < s.m_statVarWidths.length) :
    widthEntries statsVars s i = .ok (widthReport statsVars s i) := by
  unfold widthEntries widthReport StatsVisitor.widthCount
  rw [List.getD_eq_getElem?_getD, List.getElem?_eq_getElem hi]
  simp only [Option.getD_some]
  by_cases hc : s.m_statVarWidths[i] ≠ 0
  · rw [if_pos hc, if_pos hc]
    cases statsVars with
    | false => rfl
    | true =>
      have hn : i < s.m_statVarWidthNames.length := by rw [hinv rfl]; exact hi
      simp only [if_true]
      rw [List.getD_eq_getElem?_getD, List.getElem?_eq_getElem hn]
      rfl
  · rw [if_neg hc, if_neg hc]

theorem publishWidths_eq {statsVars : Bool} {s : StatsVisitor} (hinv : NamesInv statsVars s)
    (l : List Nat) (hl : ∀ i ∈ l, i < s.m_statVarWidths.length) :
    publishWidths statsVars s l = .ok (l.flatMap (widthReport statsVars s)) := by
  induction l with
  | nil => rfl
  | cons i rest ih =>
    simp only [publishWidths, widthEntries_eq hinv (hl i (List.mem_cons_self _ _)),
      ih (fun j hj => hl j (List.mem_cons_of_mem _ hj)), List.flatMap_cons]

theorem widthReport_filter (statsVars : Bool) (s : StatsVisitor) (i w : Nat) :
    (widthReport statsVars s i).filter (fun e => isWidthEntry w e.1)
      = if i = w then widthReport statsVars s i else [] := by
  by_cases hi : i = w
  · rw [if_pos hi, List.filter_eq_self]
    intro e he
    unfold widthReport at he
    split at he
    · split at he
      · obtain ⟨it, _, rfl⟩ := List.mem_map.1 he
        simp [isWidthEntry, hi]
      · rw [List.mem_singleton] at he
        subst he
        simp [isWidthEntry, hi]
    · cases he
  · rw [if_neg hi, List.filter_eq_nil_iff]
    intro e he
    unfold widthReport at he
    split at he
    · split at he
      · obtain ⟨it, _, rfl⟩ := List.mem_map.1 he
        simp [isWidthEntry, hi]
      · rw [List.mem_singleton] at he
        subst he
        simp [isWidthEntry, hi]
    · cases he

theorem widthReport_flatMap_filter (statsVars : Bool) (s : StatsVisitor) (w : Nat)
    (l : List Nat) (hnd : l.Nodup) :
    (l.flatMap (widthReport statsVars s)).filter (fun e => isWidthEntry w e.1)
      = if w ∈ l then widthReport statsVars s w else [] := by
  induction l with
  | nil => rfl
  | cons i rest ih =>
    rw [List.nodup_cons] at hnd
    rw [List.flatMap_cons, List.filter_append, widthReport_filter, ih hnd.2]
    by_cases hi : i = w
    · subst hi
      simp [hnd.1]
    · have : ¬ w = i := fun h => hi h.symm
      simp [hi, this]

theorem widthReport_of_ge {statsVars : Bool} {s : StatsVisitor} {w : Nat}
    (h : s.m_statVarWidths.length ≤ w) : widthReport statsVars s w = [] := by
  unfold widthReport StatsVisitor.widthCount
  rw [List.getD_eq_getElem?_getD, List.getElem?_eq_none h]
  simp

theorem publishTypes_filter (enumEnd : Nat) (s : StatsVisitor) (w : Nat) :
    (publishTypes enumEnd s).filter (fun e => isWidthEntry w e.1) = [] := by
  rw [List.filter_eq_nil_iff]
  intro e he
  unfold publishTypes at he
  obtain ⟨t, _, ht⟩ := List.mem_filterMap.1 he
  split at ht
  · cases ht
    simp [isWidthEntry]
  · cases ht

theorem publishAbove_filter (enumEnd : Nat) (s : StatsVisitor) (w : Nat) :
    (publishAbove enumEnd s).filter (fun e => isWidthEntry w e.1) = [] := by
  rw [List.filter_eq_nil_iff]
  intro e he
  unfold publishAbove at he
  obtain ⟨t, _, he2⟩ := List.mem_flatMap.1 he
  obtain ⟨t2, _, ht⟩ := List.mem_filterMap.1 he2
  split at ht
  · cases ht
    simp [isWidthEntry]
  · cases ht

theorem publishPred_filter (s : StatsVisitor) (w : Nat) :
    (publishPred s).filter (fun e => isWidthEntry w e.1) = [] := by
  rw [List.filter_eq_nil_iff]
  intro e he
  unfold publishPred at he
  obtain ⟨t, _, ht⟩ := List.mem_filterMap.1 he
  split at ht
  · cases ht
    simp [isWidthEntry]
  · cases ht

/-- The destructor does not fail in its accesses, and the entries that it publishes with a
label of width `w` are those of bucket `w`, in their order. -/
theorem publish_width_entries (enumEnd : Nat) {statsVars : Bool} {s : StatsVisitor}
    (hinv : NamesInv statsVars s) :
    ∃ es, publish enumEnd statsVars s = .ok es ∧
      ∀ w, es.filter (fun e => isWidthEntry w e.1) = widthReport statsVars s w := by
  unfold publish
  rw [publishWidths_eq hinv _ (fun i hi => List.mem_range.1 hi)]
  refine ⟨_, rfl, fun w => ?_⟩
  simp only [List.filter_append, publishTypes_filter, publishAbove_filter, publishPred_filter,
    widthReport_flatMap_filter _ _ _ _ (List.nodup_range _), List.mem_range, List.append_nil]
  have h5 : ∀ (l : List StatEntry), (∀ e ∈ l, isWidthEntry w e.1 = false) →
      l.filter (fun e => isWidthEntry w e.1) = [] := by
    intro l hl
    rw [List.filter_eq_nil_iff]
    intro e he
    simp [hl e he]
  rw [h5 _ (by
    intro e he
    simp only [List.mem_cons, List.mem_singleton, List.not_mem_nil, or_false] at he
    rcases he with rfl | rfl | rfl | rfl | rfl <;> rfl)]
  rw [h5 _ (by
    intro e he
    split at he
    · rw [List.mem_singleton] at he
      subst he
      rfl
    · cases he)]
  simp only [List.nil_append]
  split
  · rfl
  · rename_i hge
    exact (widthReport_of_ge (Nat.le_of_not_lt hge)).symm

/-- C9: at the end of a traversal, in either mode, bucket `w` of `m_statVarWidths` is the
number of counted visits of variables of width `w` with a data type (the visits logged in
`varVisits`); when `statsVars` is on, the name map of width `w` has distinct names, holds
exactly the names visited at that width, each with its number of visits, and its counts sum
to bucket `w`; the destructor does not fail, and the entries that it publishes for width `w`
are, with `statsVars`, one entry per name of the name map with its count and, without it,
one aggregate entry with the value of the bucket if the bucket is not zero, and no entry
otherwise. -/
theorem width_histogram_counts_visits (enumEnd : Nat) (statsVars : Bool) (funcs : FuncTable)
    (fuel : Nat) (nodep : AstNetlist) (fast : Bool) (s : StatsVisitor)
    (h : statsStageAll statsVars funcs fuel nodep fast = .ok s) :
    (∀ w, s.widthCount w = s.varVisits.countP fun v => decide (v.1 = w)) ∧
    (statsVars = true → ∀ w,
      ((s.m_statVarWidthNames.getD w []).map fun it => it.1).Nodup ∧
      (∀ name c, (name, c) ∈ s.m_statVarWidthNames.getD w [] ↔
        (c = s.varVisits.count (w, name) ∧ 0 < c)) ∧
      ((s.m_statVarWidthNames.getD w []).map fun it => it.2).sum = s.widthCount w) ∧
    ∃ es, publish enumEnd statsVars s = .ok es ∧ ∀ w,
      es.filter (fun e => isWidthEntry w e.1) =
        if statsVars then
          (s.m_statVarWidthNames.getD w []).map fun it =>
            (StatLabel.varsWidthName w it.1, (it.2 : Int))
        else if s.widthCount w ≠ 0 then [(StatLabel.varsWidth w, (s.widthCount w : Int))]
        else [] := by
  obtain ⟨hcnt, hinv, hnames⟩ := statsStageAll_hist h
  refine ⟨hcnt, fun hsv w => ?_, ?_⟩
  · obtain ⟨hnd, hmem, hsum⟩ := hnames hsv w
    exact ⟨hnd, hmem, by rw [hsum, hcnt]⟩
  · obtain ⟨es, hes, hfil⟩ := publish_width_entries enumEnd hinv
    refine ⟨es, hes, fun w => ?_⟩
    rw [hfil w]
    unfold widthReport
    cases statsVars with
    | false => rfl
    | true =>
      simp only [if_true]
      split
      · rfl
      · rename_i hz
        obtain ⟨_, hmem, hsum⟩ := hnames rfl w
        have hz0 : s.widthCount w = 0 := by
          by_contra hne
          exact hz hne
        rw [← hcnt, hz0] at hsum
        cases hm : s.m_statVarWidthNames.getD w [] with
        | nil => rfl
        | cons e rest =>
          exfalso
          rw [hm] at hsum hmem
          have hpos := ((hmem e.1 e.2).1 (List.mem_cons_self _ _)).2
          simp only [List.map_cons, List.sum_cons] at hsum
          omega

theorem width_histogram_counts_visits_witness :
    (statsStageAll true noFuncs 2 sampleTwoVars false).toOption.map
        (fun s => (s.widthCount 8, s.m_statVarWidthNames.getD 8 [])) = some (2, [("clk", 2)]) ∧
    (statsStageAll true noFuncs 2 sampleTwoVars false).toOption.bind
        (fun s => (publish 8 true s).toOption.map
          fun es => es.filter fun e => isWidthEntry 8 e.1)
      = some [(StatLabel.varsWidthName 8 "clk", 2)] ∧
    (statsStageAll false noFuncs 2 sampleTwoVars false).toOption.bind
        (fun s => (publish 8 false s).toOption.map
          fun es => es.filter fun e => isWidthEntry 8 e.1)
      = some [(StatLabel.varsWidth 8, 2)] ∧
    ∃ s, statsStageAll true noFuncs 2 sampleTwoVars false = .ok s ∧
      (∀ w, s.widthCount w = s.varVisits.countP fun v => decide (v.1 = w)) ∧
      (true = true → ∀ w,
        ((s.m_statVarWidthNames.getD w []).map fun it => it.1).Nodup ∧
        (∀ name c, (name, c) ∈ s.m_statVarWidthNames.getD w [] ↔
          (c = s.varVisits.count (w, name) ∧ 0 < c)) ∧
        ((s.m_statVarWidthNames.getD w []).map fun it => it.2).sum = s.widthCount w) ∧
      ∃ es, publish 8 true s = .ok es ∧ ∀ w,
        es.filter (fun e => isWidthEntry w e.1) =
          if true = true then
            (s.m_statVarWidthNames.getD w []).map fun it =>
              (StatLabel.varsWidthName w it.1, (it.2 : Int))
          else if s.widthCount w ≠ 0 then [(StatLabel.varsWidth w, (s.widthCount w : Int))]
          else [] :=
  ⟨by decide, by decide, by decide,
    match h : statsStageAll true noFuncs 2 sampleTwoVars false with
    | .ok s => ⟨s, rfl, width_histogram_counts_visits 8 true noFuncs 2 sampleTwoVars false s h⟩
    | .error e => by
        have : (statsStageAll true noFuncs 2 sampleTwoVars false).toOption.isSome = true := by
          decide
        rw [h] at this
        cases this⟩

/-! ### Termination of the traversal -/

/-- In critical-path mode the visit of a call edge to function 0 of `loopFuncs`, and the visit
of that function, run out of every amount of fuel. -/
theorem loopFuncs_diverges (statsVars : Bool) :
    ∀ fuel, (∀ a s, s.m_fast = true →
        visit statsVars loopFuncs fuel a (.mk 7 1 (.CCall 0) [] [] [] []) s = .error .fuel) ∧
      (∀ a s, s.m_fast = true →
        visit statsVars loopFuncs fuel a (loopFuncs 0).node s = .error .fuel) := by
  intro fuel
  induction fuel with
  | zero => exact ⟨fun _ _ _ => rfl, fun _ _ _ => rfl⟩
  | succ fuel ih =>
    refine ⟨fun a s hf => ?_, fun a s hf => ?_⟩
    · have hf2 : (allNodes a 7 1 s).m_fast = true := (allNodes_fast a 7 1 s).trans hf
      simp only [visit, iterateChildrenConst, iterateAndNextConst, Except.bind, hf2, if_true]
      exact ih.2 _ _ hf2
    · have hf2 : (allNodes a 2 1 { s with m_cfuncp := some false }).m_fast = true :=
        (allNodes_fast a 2 1 _).trans hf
      simp only [loopFuncs, FuncEntry.node, visit, iterateChildrenConst, iterateAndNextConst,
        Except.bind, iterateNext]
      rw [ih.1 _ _ hf2]

/-- The critical-path run on `sampleLoop` runs out of every amount of fuel. -/
theorem sampleLoop_runs_out :
    ∀ fuel, statsStageAll false loopFuncs fuel sampleLoop true = .error .fuel := by
  intro fuel
  have h := (loopFuncs_diverges false fuel).1
  simp only [statsStageAll, visitNetlist, sampleLoop, iterateModules, visitNodeModule,
    StatsVisitor.init, allNodes, moduleEvalLoop, iterateChildrenConst, iterateAndNextConst,
    Except.bind]
  simp only [Bool.false_eq_true, if_false, Bool.not_true, if_true]
  rw [h _ _ rfl]

/-- C11 refuted: `sampleLoop` is a finite tree in which `_eval` calls a function that holds a
call edge back to itself; in critical-path mode `visit(AstCCall*)` enters the callee, whose
body reaches the same call edge again, and the traversal does not return: no amount of fuel
lets `statsStageAll` return a state, and with 100 units it has run out of fuel. -/
theorem critical_path_diverges_on_recursive_call :
    (¬ ∃ fuel s, statsStageAll false loopFuncs fuel sampleLoop true = .ok s) ∧
    statsStageAll false loopFuncs 100 sampleLoop true = .error .fuel := by
  refine ⟨?_, sampleLoop_runs_out 100⟩
  rintro ⟨fuel, s, h⟩
  rw [sampleLoop_runs_out fuel] at h
  cases h

/-- C11 amended: in full mode the traversal returns for every tree and every function table,
given enough fuel; in critical-path mode it returns, given enough fuel, whenever the call
graph is acyclic. -/
theorem traversal_terminates_on_acyclic_calls (statsVars : Bool) (funcs : FuncTable)
    (nodep : AstNetlist) :
    (∃ N, ∀ fuel, N ≤ fuel →
      ∃ s, statsStageAll statsVars funcs fuel nodep false = .ok s) ∧
    (Acyclic funcs → ∃ N, ∀ fuel, N ≤ fuel →
      ∃ s, statsStageAll statsVars funcs fuel nodep true = .ok s) := by
  refine ⟨statsStageAll_full_returns statsVars funcs nodep, fun hac => ?_⟩
  obtain ⟨N, hN⟩ := returns_list nodep.entryNodes
    (fun n _ => returns_of_acyclic statsVars hac n)
  refine ⟨N, fun fuel hfuel => ?_⟩
  obtain ⟨s, _, e, _⟩ := statsStageAll_critical statsVars funcs fuel nodep
    (fun n hn => hN n hn fuel hfuel)
  exact ⟨s, e⟩

theorem traversal_terminates_on_acyclic_calls_witness :
    Acyclic sampleFuncs ∧
    (∃ N, ∀ fuel, N ≤ fuel →
      ∃ s, statsStageAll false sampleFuncs fuel sampleCalls false = .ok s) ∧
    (∃ N, ∀ fuel, N ≤ fuel →
      ∃ s, statsStageAll false sampleFuncs fuel sampleCalls true = .ok s) :=
  ⟨sampleFuncs_acyclic,
    (traversal_terminates_on_acyclic_calls false sampleFuncs sampleCalls).1,
    (traversal_terminates_on_acyclic_calls false sampleFuncs sampleCalls).2
      sampleFuncs_acyclic⟩

/-! ### The entries of the report -/

theorem filter_hasLabel_nil {L : StatLabel} {l : List StatEntry}
    (h : ∀ e ∈ l, e.1 ≠ L) : l.filter (hasLabel L) = [] := by
  rw [List.filter_eq_nil_iff]
  intro e he
  simp [hasLabel, h e he]

theorem filter_filterMap_range {f : Nat → Option StatEntry} {L : StatLabel} {K : Nat}
    (hf : ∀ i e, f i = some e → (e.1 = L ↔ i = K)) :
    ∀ n, ((List.range n).filterMap f).filter (hasLabel L)
      = if K < n then (f K).toList else [] := by
  intro n
  induction n with
  | zero => simp
  | succ n ih =>
    rw [List.range_succ, List.filterMap_append, List.filter_append, ih]
    have hlast : ([n].filterMap f).filter (hasLabel L) = if n = K then (f K).toList else [] := by
      cases hfn : f n with
      | none =>
        by_cases hn : n = K
        · subst hn; simp [hfn]
        · simp [hfn, hn]
      | some e =>
        by_cases hn : n = K
        · subst hn
          simp [hfn, hasLabel, (hf n e hfn).2 rfl]
        · have : e.1 ≠ L := fun h => hn ((hf n e hfn).1 h)
          simp [hfn, hasLabel, this, hn]
    rw [hlast]
    by_cases h1 : K < n
    · have h2 : ¬ n = K := by omega
      have h3 : K < n + 1 := by omega
      simp [h1, h2, h3]
    · by_cases h2 : n = K
      · subst h2
        simp
      · have h3 : ¬ K < n + 1 := by omega
        simp [h1, h2, h3]

theorem filter_flatMap_range {g : Nat → List StatEntry} {L : StatLabel} {K : Nat}
    (hg : ∀ i, i ≠ K → (g i).filter (hasLabel L) = []) :
    ∀ n, ((List.range n).flatMap g).filter (hasLabel L)
      = if K < n then (g K).filter (hasLabel L) else [] := by
  intro n
  induction n with
  | zero => simp
  | succ n ih =>
    rw [List.range_succ, List.flatMap_append, List.filter_append, ih]
    simp only [List.flatMap_cons, List.flatMap_nil, List.append_nil]
    by_cases h1 : K < n
    · have h2 : n ≠ K := by omega
      have h3 : K < n + 1 := by omega
      simp [h1, h3, hg n h2]
    · by_cases h2 : n = K
      · subst h2
        simp
      · have h3 : ¬ K < n + 1 := by omega
        simp [h1, h3, hg n h2]

theorem publishTypes_label (enumEnd : Nat) (s : StatsVisitor) (K : AstType) :
    (publishTypes enumEnd s).filter (hasLabel (.nodeCount K))
      = if K < enumEnd ∧ s.m_statTypeCount K ≠ 0 then
          [(StatLabel.nodeCount K, (s.m_statTypeCount K : Int))]
        else [] := by
  unfold publishTypes
  rw [filter_filterMap_range (K := K)]
  · by_cases h1 : K < enumEnd
    · by_cases h2 : s.m_statTypeCount K ≠ 0
      · simp [h1, h2]
      · simp [h1, h2]
    · simp [h1]
  · intro i e he
    split at he
    · cases he
      simp
    · cases he

theorem publishTypes_other (enumEnd : Nat) (s : StatsVisitor) {L : StatLabel}
    (hL : ∀ K, L ≠ .nodeCount K) : (publishTypes enumEnd s).filter (hasLabel L) = [] := by
  apply filter_hasLabel_nil
  intro e he
  unfold publishTypes at he
  obtain ⟨t, _, ht⟩ := List.mem_filterMap.1 he
  split at ht
  · cases ht
    exact fun h => hL t h.symm
  · cases ht

theorem publishAbove_label (enumEnd : Nat) (s : StatsVisitor) (K1 K2 : AstType) :
    (publishAbove enumEnd s).filter (hasLabel (.nodePairs K1 K2))
      = if K1 < enumEnd ∧ K2 < enumEnd ∧ s.m_statAbove K1 K2 ≠ 0 then
          [(StatLabel.nodePairs K1 K2, (s.m_statAbove K1 K2 : Int))]
        else [] := by
  unfold publishAbove
  rw [filter_flatMap_range (K := K1)]
  · rw [filter_filterMap_range (K := K2)]
    · by_cases h1 : K1 < enumEnd
      · by_cases h2 : K2 < enumEnd
        · by_cases h3 : s.m_statAbove K1 K2 ≠ 0
          · simp [h1, h2, h3]
          · simp [h1, h2, h3]
        · simp [h1, h2]
      · simp [h1]
    · intro i e he
      split at he
      · cases he
        simp
      · cases he
  · intro i hi
    apply filter_hasLabel_nil
    intro e he
    obtain ⟨t2, _, ht⟩ := List.mem_filterMap.1 he
    split at ht
    · cases ht
      intro h
      simp only [StatLabel.nodePairs.injEq] at h
      exact hi h.1
    · cases ht

theorem publishAbove_other (enumEnd : Nat) (s : StatsVisitor) {L : StatLabel}
    (hL : ∀ K1 K2, L ≠ .nodePairs K1 K2) :
    (publishAbove enumEnd s).filter (hasLabel L) = [] := by
  apply filter_hasLabel_nil
  intro e he
  unfold publishAbove at he
  obtain ⟨t, _, he2⟩ := List.mem_flatMap.1 he
  obtain ⟨t2, _, ht⟩ := List.mem_filterMap.1 he2
  split at ht
  · cases ht
    exact fun h => hL t t2 h.symm
  · cases ht

theorem publishPred_label (s : StatsVisitor) (P : AstBranchPred) :
    (publishPred s).filter (hasLabel (.branchPred P))
      = if s.m_statPred P ≠ 0 then [(StatLabel.branchPred P, (s.m_statPred P : Int))]
        else [] := by
  unfold publishPred
  cases P <;>
    by_cases h1 : s.m_statPred .BP_NONE = 0 <;>
    by_cases h2 : s.m_statPred .BP_LIKELY = 0 <;>
    by_cases h3 : s.m_statPred .BP_UNLIKELY = 0 <;>
    simp [List.filterMap_cons, hasLabel, h1, h2, h3]

theorem publishPred_other (s : StatsVisitor) {L : StatLabel}
    (hL : ∀ P, L ≠ .branchPred P) : (publishPred s).filter (hasLabel L) = [] := by
  apply filter_hasLabel_nil
  intro e he
  unfold publishPred at he
  obtain ⟨t, _, ht⟩ := List.mem_filterMap.1 he
  split at ht
  · cases ht
    exact fun h => hL t h.symm
  · cases ht

theorem widthReport_other (statsVars : Bool) (s : StatsVisitor) (l : List Nat) {L : StatLabel}
    (hL : ∀ w, isWidthEntry w L = false) :
    (l.flatMap (widthReport statsVars s)).filter (hasLabel L) = [] := by
  apply filter_hasLabel_nil
  intro e he
  obtain ⟨i, _, hi⟩ := List.mem_flatMap.1 he
  intro hcontra
  have := hL i
  rw [← hcontra] at this
  unfold widthReport at hi
  split at hi
  · split at hi
    · obtain ⟨it, _, rfl⟩ := List.mem_map.1 hi
      simp [isWidthEntry] at this
    · rw [List.mem_singleton] at hi
      subst hi
      simp [isWidthEntry] at this
  · cases hi

/-- C12: at the end of a traversal the destructor returns a report in which the total and the
fast-critical instruction count, the unpacked-array count, the clock count and the non-array
byte total each have exactly one entry, whatever their value; the scoped-variable byte total
has an entry exactly when it is not zero; and every kind below `enumEnd`, every pair of such
kinds and every prediction hint has exactly one entry, holding the counter, when the counter
is not zero, and none when it is zero. -/
theorem report_entries_iff_nonzero (enumEnd : Nat) (statsVars : Bool) (funcs : FuncTable)
    (fuel : Nat) (nodep : AstNetlist) (fast : Bool) (s : StatsVisitor)
    (h : statsStageAll statsVars funcs fuel nodep fast = .ok s) :
    ∃ es, publish enumEnd statsVars s = .ok es ∧
      es.filter (hasLabel .instrTotal) = [(StatLabel.instrTotal, s.m_statInstr)] ∧
      es.filter (hasLabel .instrFast) = [(StatLabel.instrFast, s.m_statInstrFast)] ∧
      es.filter (hasLabel .varsArrayed)
        = [(StatLabel.varsArrayed, (s.m_statVarArray : Int))] ∧
      es.filter (hasLabel .varsClock) = [(StatLabel.varsClock, (s.m_statVarClock : Int))] ∧
      es.filter (hasLabel .varBytes) = [(StatLabel.varBytes, s.m_statVarBytes)] ∧
      es.filter (hasLabel .varScpBytes)
        = (if s.m_statVarScpBytes ≠ 0 then [(StatLabel.varScpBytes, s.m_statVarScpBytes)]
          else []) ∧
      (∀ K, es.filter (hasLabel (.nodeCount K))
        = if K < enumEnd ∧ s.m_statTypeCount K ≠ 0 then
            [(StatLabel.nodeCount K, (s.m_statTypeCount K : Int))]
          else []) ∧
      (∀ K1 K2, es.filter (hasLabel (.nodePairs K1 K2))
        = if K1 < enumEnd ∧ K2 < enumEnd ∧ s.m_statAbove K1 K2 ≠ 0 then
            [(StatLabel.nodePairs K1 K2, (s.m_statAbove K1 K2 : Int))]
          else []) ∧
      (∀ P, es.filter (hasLabel (.branchPred P))
        = if s.m_statPred P ≠ 0 then [(StatLabel.branchPred P, (s.m_statPred P : Int))]
          else []) := by
  have hinv := (statsStageAll_hist h).2.1
  unfold publish
  rw [publishWidths_eq hinv _ (fun i hi => List.mem_range.1 hi)]
  refine ⟨_, rfl, ?_, ?_, ?_, ?_, ?_, ?_, fun K => ?_, fun K1 K2 => ?_, fun P => ?_⟩
  all_goals
    simp only [List.filter_append]
    by_cases hz : s.m_statVarScpBytes = 0
  all_goals
    first
    | rw [publishTypes_label]
      rw [publishAbove_other _ _ (by intro _ _ hc; cases hc),
        publishPred_other _ (by intro _ hc; cases hc),
        widthReport_other _ _ _ (by intro _; rfl)]
      simp [hasLabel, hz]
    | rw [publishAbove_label]
      rw [publishTypes_other _ _ (by intro _ hc; cases hc),
        publishPred_other _ (by intro _ hc; cases hc),
        widthReport_other _ _ _ (by intro _; rfl)]
      simp [hasLabel, hz]
    | rw [publishPred_label]
      rw [publishTypes_other _ _ (by intro _ hc; cases hc),
        publishAbove_other _ _ (by intro _ _ hc; cases hc),
        widthReport_other _ _ _ (by intro _; rfl)]
      simp [hasLabel, hz]
    | rw [publishTypes_other _ _ (by intro _ hc; cases hc),
        publishAbove_other _ _ (by intro _ _ hc; cases hc),
        publishPred_other _ (by intro _ hc; cases hc),
        widthReport_other _ _ _ (by intro _; rfl)]
      simp [hasLabel, hz]

theorem report_entries_iff_nonzero_witness :
    (statsStageAll false noFuncs 10 sampleFuncsOnly true).toOption.bind
        (fun s => (publish 9 false s).toOption.map fun es =>
          [es.filter (hasLabel .instrFast), es.filter (hasLabel .varsArrayed),
            es.filter (hasLabel .varBytes), es.filter (hasLabel .varScpBytes),
            es.filter (hasLabel (.nodeCount 3)), es.filter (hasLabel (.nodeCount 6))])
      = some [[(StatLabel.instrFast, 0)], [(StatLabel.varsArrayed, 0)],
          [(StatLabel.varBytes, 0)], [], [(StatLabel.nodeCount 3, 1)], []] ∧
    ∃ s, statsStageAll false noFuncs 10 sampleFuncsOnly true = .ok s ∧
      ∃ es, publish 9 false s = .ok es ∧
        es.filter (hasLabel .instrTotal) = [(StatLabel.instrTotal, s.m_statInstr)] ∧
        es.filter (hasLabel .instrFast) = [(StatLabel.instrFast, s.m_statInstrFast)] ∧
        es.filter (hasLabel .varsArrayed)
          = [(StatLabel.varsArrayed, (s.m_statVarArray : Int))] ∧
        es.filter (hasLabel .varsClock) = [(StatLabel.varsClock, (s.m_statVarClock : Int))] ∧
        es.filter (hasLabel .varBytes) = [(StatLabel.varBytes, s.m_statVarBytes)] ∧
        es.filter (hasLabel .varScpBytes)
          = (if s.m_statVarScpBytes ≠ 0 then [(StatLabel.varScpBytes, s.m_statVarScpBytes)]
            else []) ∧
        (∀ K, es.filter (hasLabel (.nodeCount K))
          = if K < 9 ∧ s.m_statTypeCount K ≠ 0 then
              [(StatLabel.nodeCount K, (s.m_statTypeCount K : Int))]
            else []) ∧
        (∀ K1 K2, es.filter (hasLabel (.nodePairs K1 K2))
          = if K1 < 9 ∧ K2 < 9 ∧ s.m_statAbove K1 K2 ≠ 0 then
              [(StatLabel.nodePairs K1 K2, (s.m_statAbove K1 K2 : Int))]
            else []) ∧
        (∀ P, es.filter (hasLabel (.branchPred P))
          = if s.m_statPred P ≠ 0 then [(StatLabel.branchPred P, (s.m_statPred P : Int))]
            else []) :=
  ⟨by decide,
    match h : statsStageAll false noFuncs 10 sampleFuncsOnly true with
    | .ok s => ⟨s, rfl,
        report_entries_iff_nonzero 9 false noFuncs 10 sampleFuncsOnly true s h⟩
    | .error e => by
        have : (statsStageAll false noFuncs 10 sampleFuncsOnly true).toOption.isSome
            = true := by decide
        rw [h] at this
        cases this⟩

/-! ### The counting flag -/

theorem ModuleFlags.sameFlags (s : StatsVisitor) : ModuleFlags s s :=
  ⟨rfl, fun _ => rfl, fun h => h⟩

theorem ModuleFlags.thenFlags {a b c : StatsVisitor} (h1 : ModuleFlags a b)
    (h2 : ModuleFlags b c) : ModuleFlags a c :=
  ⟨h2.1.trans h1.1, fun h => (h2.2.1 (h1.1.trans h)).trans (h1.2.1 h),
    fun h => h2.2.2 (h1.2.2 h)⟩

theorem Flags.moduleFlags {s s' : StatsVisitor} (h : Flags s s') : ModuleFlags s s' :=
  ⟨h.2, fun _ => h.1, fun hc => h.1.trans hc⟩

/-- The module loop of critical-path mode keeps the mode and ends with counting off when it
is entered with counting off. -/
theorem moduleEvalLoop_flags {v : Visit} (hvf : ∀ a n s s', v a n s = .ok s' → Flags s s') :
    ∀ l s s', moduleEvalLoop v l s = .ok s' →
      s'.m_fast = s.m_fast ∧ (s.m_counting = false → s'.m_counting = false) := by
  intro l
  induction l with
  | nil => intro s s' h; simp [moduleEvalLoop] at h; subst h; exact ⟨rfl, fun h => h⟩
  | cons n rest ih =>
    intro s s' h
    obtain ⟨t, c, k, o1, o2, o3, o4⟩ := n
    cases k with
    | CFunc name slow =>
      simp only [moduleEvalLoop] at h
      split at h
      · simp only [bind_eq_ok] at h
        obtain ⟨s1, e1, e2⟩ := h
        have f1 := iterateChildrenConst_rel Flags.refl (fun _ _ _ => Flags.trans) hvf t
          o1 o2 o3 o4 _ _ e1
        obtain ⟨g1, g2⟩ := ih _ _ e2
        exact ⟨g1.trans f1.2, fun _ => g2 rfl⟩
      · exact ih _ _ h
    | _ => simp only [moduleEvalLoop] at h; exact ih _ _ h

theorem visitNodeModule_flags {v : Visit}
    (hvf : ∀ a n s s', v a n s = .ok s' → Flags s s') {a : Option AstType}
    {m : AstNodeModule} {s s' : StatsVisitor} (h : visitNodeModule v a m s = .ok s') :
    ModuleFlags s s' := by
  have ha := allNodes_flags a m.type m.instrCount s
  unfold visitNodeModule at h
  simp only at h
  split at h
  · exact (ha.trans (iterateChildrenConst_rel Flags.refl (fun _ _ _ => Flags.trans) hvf
      m.type m.op1p m.stmtsp m.op3p m.op4p _ _ h)).moduleFlags
  · rename_i hf
    simp only [Bool.not_eq_true, Bool.not_eq_false'] at hf
    have hf' : s.m_fast = true := by rw [← ha.2]; simpa using hf
    obtain ⟨g1, g2⟩ := moduleEvalLoop_flags hvf _ _ _ h
    exact ⟨g1.trans ha.2, fun h0 => absurd (hf'.symm.trans h0) (by decide),
      fun hc => g2 (ha.1.trans hc)⟩

theorem iterateNextModules_flags {v : Visit}
    (hvf : ∀ a n s s', v a n s = .ok s' → Flags s s') :
    ∀ l s s', iterateNextModules v l s = .ok s' → ModuleFlags s s' := by
  intro l
  induction l with
  | nil => intro s s' h; simp [iterateNextModules] at h; subst h; exact ModuleFlags.sameFlags _
  | cons m rest ih =>
    intro s s' h
    simp only [iterateNextModules, bind_eq_ok] at h
    obtain ⟨s1, e1, e2⟩ := h
    exact (visitNodeModule_flags hvf e1).thenFlags (ih _ _ e2)

/-- The traversal of the netlist keeps the mode; in full mode it keeps the counting flag, and
entered with counting off it ends with counting off. -/
theorem visitNetlist_flags {v : Visit} (hvf : ∀ a n s s', v a n s = .ok s' → Flags s s')
    {n : AstNetlist} {s s' : StatsVisitor} (h : visitNetlist v n s = .ok s') :
    ModuleFlags s s' := by
  simp only [visitNetlist, bind_eq_ok] at h
  obtain ⟨s3, ⟨s2, ⟨s1, e1, e2⟩, e3⟩, e4⟩ := h
  have hl := fun l s s' => iterateAndNextConst_rel Flags.refl (fun _ _ _ => Flags.trans)
    hvf n.type l s s'
  have h1 : ModuleFlags (allNodes none n.type n.instrCount s) s1 := by
    cases hm : n.modulesp with
    | nil => rw [hm] at e1; simp [iterateModules] at e1; subst e1; exact ModuleFlags.sameFlags _
    | cons m rest =>
      rw [hm] at e1
      simp only [iterateModules, bind_eq_ok] at e1
      obtain ⟨s0, g1, g2⟩ := e1
      exact (visitNodeModule_flags hvf g1).thenFlags (iterateNextModules_flags hvf _ _ _ g2)
  exact (((allNodes_flags none n.type n.instrCount s).moduleFlags.thenFlags h1).thenFlags
    (hl _ _ _ e2).moduleFlags).thenFlags ((hl _ _ _ e3).trans (hl _ _ _ e4)).moduleFlags

/-- C13: the counting flag.  After the constructor `m_counting` is true in full mode and false
in critical-path mode.  The accounting steps (`allNodes`, the tally of the hint, the variable
rules) keep it, every visit of a node returns with the `m_counting` and `m_fast` it was
entered with, a module visit in full mode keeps it, and the traversal ends with it true in
full mode and false in critical-path mode.  In critical-path mode every dry-run of an arm
returns a state with the `m_counting` and `m_instrs` of the state before it and with every
statistic of the accumulator unchanged. -/
theorem counting_flag_invariant (statsVars : Bool) (funcs : FuncTable) :
    (StatsVisitor.init false).m_counting = true ∧
    (StatsVisitor.init true).m_counting = false ∧
    (∀ a t c s, (allNodes a t c s).m_counting = s.m_counting) ∧
    (∀ p s, (trackPred p s).m_counting = s.m_counting) ∧
    (∀ dt s, (varScopeRule dt s).m_counting = s.m_counting) ∧
    (∀ dtypep clk w name s s', varRule statsVars dtypep clk w name s = .ok s' →
      s'.m_counting = s.m_counting) ∧
    (∀ fuel a n s s', visit statsVars funcs fuel a n s = .ok s' →
      s'.m_counting = s.m_counting ∧ s'.m_fast = s.m_fast) ∧
    (∀ fuel a m s s', s.m_fast = false →
      visitNodeModule (visit statsVars funcs fuel) a m s = .ok s' →
      s'.m_counting = s.m_counting ∧ s'.m_fast = false) ∧
    (∀ fuel nodep s, statsStageAll statsVars funcs fuel nodep false = .ok s →
      s.m_counting = true) ∧
    (∀ fuel nodep s, statsStageAll statsVars funcs fuel nodep true = .ok s →
      s.m_counting = false) ∧
    (∀ fuel p arm s r, s.m_fast = true →
      dryRun (visit statsVars funcs fuel) p arm s = .ok r →
      r.2.m_counting = s.m_counting ∧ r.2.m_instrs = s.m_instrs ∧ r.2.accum = s.accum) := by
  refine ⟨rfl, rfl, fun a t c s => (allNodes_flags a t c s).1,
    fun p s => (trackPred_flags p s).1, fun dt s => (varScopeRule_flags dt s).1,
    fun dtypep clk w name s s' h => (varRule_flags h).1,
    fun fuel a n s s' h => visit_flags statsVars funcs fuel a n s s' h,
    fun fuel a m s s' hf h => ?_, fun fuel nodep s h => ?_, fun fuel nodep s h => ?_,
    fun fuel p arm s r hf h => ?_⟩
  · have := visitNodeModule_flags (visit_flags statsVars funcs fuel) h
    exact ⟨this.2.1 hf, this.1.trans hf⟩
  · exact (visitNetlist_flags (visit_flags statsVars funcs fuel) h).2.1 rfl
  · exact (visitNetlist_flags (visit_flags statsVars funcs fuel) h).2.2 rfl
  · obtain ⟨_, hacc, hi, hc, _⟩ := dryRun_spec hf h
    exact ⟨hc, hi, hacc⟩

theorem counting_flag_invariant_witness :
    (dryRun (visit false noFuncs 3) 3 [leaf 5 4, leaf 5 1] countingState).toOption.map
        (fun r => (r.1, r.2.m_counting, r.2.m_instrs, r.2.m_statInstr))
      = some (5, true, 0, 0) ∧
    countingState.m_fast = true ∧
    ∃ r, dryRun (visit false noFuncs 3) 3 [leaf 5 4, leaf 5 1] countingState = .ok r ∧
      r.2.m_counting = countingState.m_counting ∧ r.2.m_instrs = countingState.m_instrs ∧
      r.2.accum = countingState.accum :=
  ⟨by decide, rfl,
    match h : dryRun (visit false noFuncs 3) 3 [leaf 5 4, leaf 5 1] countingState with
    | .ok r => ⟨r, rfl,
        (counting_flag_invariant false noFuncs).2.2.2.2.2.2.2.2.2.2 3 3 [leaf 5 4, leaf 5 1]
          countingState r rfl h⟩
    | .error e => by
        have : (dryRun (visit false noFuncs 3) 3 [leaf 5 4, leaf 5 1]
            countingState).toOption.isSome = true := by decide
        rw [h] at this
        cases this⟩

/-! ### The accumulator only grows -/

theorem AppendOnly.sameState (s : StatsVisitor) : AppendOnly s s :=
  ⟨le_refl _, le_refl _, fun _ => le_refl _, fun _ _ => le_refl _, fun _ => le_refl _,
    fun _ => le_refl _, le_refl _, le_refl _, fun _ _ c h => ⟨c, le_refl _, h⟩, le_refl _,
    le_refl _, le_refl _, le_refl _⟩

theorem AppendOnly.thenGrows {a b c : StatsVisitor} (h1 : AppendOnly a b) (h2 : AppendOnly b c) :
    AppendOnly a c := by
  obtain ⟨a1, a2, a3, a4, a5, a6, a7, a8, a9, a10, a11, a12, a13⟩ := h1
  obtain ⟨b1, b2, b3, b4, b5, b6, b7, b8, b9, b10, b11, b12, b13⟩ := h2
  refine ⟨le_trans a1 b1, le_trans a2 b2, fun k => le_trans (a3 k) (b3 k),
    fun k1 k2 => le_trans (a4 k1 k2) (b4 k1 k2), fun p => le_trans (a5 p) (b5 p),
    fun w => le_trans (a6 w) (b6 w), le_trans a7 b7, le_trans a8 b8, fun w name c0 h => ?_,
    le_trans a10 b10, le_trans a11 b11, le_trans a12 b12, le_trans a13 b13⟩
  obtain ⟨c1, l1, m1⟩ := a9 w name c0 h
  obtain ⟨c2, l2, m2⟩ := b9 w name c1 m1
  exact ⟨c2, le_trans l1 l2, m2⟩

theorem allNodes_appendOnly (a : Option AstType) (t : AstType) {c : Int} (hc : 0 ≤ c)
    (s : StatsVisitor) : AppendOnly s (allNodes a t c s) := by
  unfold allNodes
  split
  · refine ⟨by simp only; omega, by simp only; split <;> omega, fun k => ?_, fun k1 k2 => ?_,
      fun _ => le_refl _, fun _ => le_refl _, le_refl _, le_refl _,
      fun _ _ c h => ⟨c, le_refl _, h⟩, le_refl _, le_refl _, le_refl _, le_refl _⟩
    · simp only; split <;> omega
    · simp only; split <;> omega
  · exact AppendOnly.sameState s

theorem nameMapIncr_mono {m : NameMap} (pn : String) {name : String} {c : Nat}
    (h : (name, c) ∈ m) : ∃ c', c ≤ c' ∧ (name, c') ∈ nameMapIncr m pn := by
  unfold nameMapIncr
  split
  · by_cases hn : name = pn
    · subst hn
      exact ⟨c + 1, Nat.le_succ c, (mem_nameMapBump m name name (c + 1)).2
        (Or.inr ⟨rfl, c, h, rfl⟩)⟩
    · exact ⟨c, le_refl _, (mem_nameMapBump m pn name c).2 (Or.inl ⟨hn, h⟩)⟩
  · exact ⟨c, le_refl _, (mem_nameMapInsert m pn _).2 (Or.inr h)⟩

/-- The running totals after the variable statistics. -/
theorem varStats_totals {statsVars : Bool} {dt : AstNodeDType} {clk : Bool} {w : Nat}
    {name : String} {s s' : StatsVisitor}
    (h : varStats statsVars dt clk w name s = .ok s') :
    s'.m_statVarClock = (if clk then s.m_statVarClock + 1 else s.m_statVarClock) ∧
    s'.m_statVarArray
      = (if dt.isUnpackArray then s.m_statVarArray + 1 else s.m_statVarArray) ∧
    s'.m_statVarBytes
      = (if dt.isUnpackArray then s.m_statVarBytes
        else s.m_statVarBytes + dt.widthTotalBytes) := by
  have hg := growWidths_frame statsVars w (varTotals dt clk s)
  unfold varStats at h
  simp only at h
  split at h
  · cases h
  · split at h
    · split at h
      · cases h
      · cases h
        rw [hg]
        exact ⟨rfl, rfl, rfl⟩
    · cases h
      rw [hg]
      exact ⟨rfl, rfl, rfl⟩

/-- Without `statsVars` the per-name breakdown is not touched. -/
theorem varStats_names_off {dt : AstNodeDType} {clk : Bool} {w : Nat}
    {name : String} {s s' : StatsVisitor}
    (h : varStats false dt clk w name s = .ok s') :
    s'.m_statVarWidthNames = s.m_statVarWidthNames := by
  have hg : (growWidths false w (varTotals dt clk s)).m_statVarWidthNames
      = s.m_statVarWidthNames := by
    unfold growWidths
    split <;> rfl
  unfold varStats at h
  simp only at h
  split at h
  · cases h
  · simp only [Bool.false_eq_true, if_false] at h
    cases h
    exact hg

theorem varStats_appendOnly {statsVars : Bool} {dt : AstNodeDType} {clk : Bool} {w : Nat}
    {name : String} {s s' : StatsVisitor} (hb : 0 ≤ dt.widthTotalBytes)
    (hinv : NamesInv statsVars s) (h : varStats statsVars dt clk w name s = .ok s') :
    AppendOnly s s' := by
  obtain ⟨s'', h', hw, hother, hle, _, hnle, _⟩ := varStats_spec statsVars dt clk w name s hinv
  rw [h] at h'
  cases h'
  obtain ⟨t1, t2, t3⟩ := varStats_totals h
  have hfr := varStats_frame h
  have e1 : s'.m_statInstr = s.m_statInstr := by rw [hfr]
  have e2 : s'.m_statInstrFast = s.m_statInstrFast := by rw [hfr]
  have e3 : s'.m_statTypeCount = s.m_statTypeCount := by rw [hfr]
  have e4 : s'.m_statAbove = s.m_statAbove := by rw [hfr]
  have e5 : s'.m_statPred = s.m_statPred := by rw [hfr]
  have e6 : s'.m_statVarScpBytes = s.m_statVarScpBytes := by rw [hfr]
  refine ⟨by rw [e1], by rw [e2], fun k => by rw [e3], fun k1 k2 => by rw [e4],
    fun p => by rw [e5], fun i => ?_, hle, hnle, fun i nm c hm => ?_, ?_, ?_, ?_, by rw [e6]⟩
  · by_cases hi : i = w
    · subst hi; rw [hw]; exact Nat.le_succ _
    · rw [hother i hi]
  · cases statsVars with
    | false => rw [varStats_names_off h]; exact ⟨c, le_refl _, hm⟩
    | true =>
      obtain ⟨_, hmaps⟩ := varStats_log hinv h
      by_cases hi : i = w
      · subst hi
        rw [(hmaps rfl).1]
        exact nameMapIncr_mono name hm
      · rw [(hmaps rfl).2 i hi]
        exact ⟨c, le_refl _, hm⟩
  · rw [t2]; split <;> omega
  · rw [t1]; split <;> omega
  · rw [t3]; split <;> omega

/-- With weights that are not negative, every elementary step keeps the accumulator at or above
a given state. -/
theorem stepClosed_appendOnly (statsVars : Bool) (s0 : StatsVisitor) :
    StepClosed statsVars weightsNonneg
      (fun s => AppendOnly s0 s ∧ NamesInv statsVars s) where
  allNodes := by
    intro a t c k s hR hp
    simp only [weightsNonneg, Bool.and_eq_true, decide_eq_true_eq] at hR
    refine ⟨hp.1.thenGrows (allNodes_appendOnly a t hR.1 s), ?_⟩
    unfold allNodes
    split <;> exact hp.2
  cfuncEnter := fun _ _ _ _ _ _ hp => hp
  cfuncLeave := fun _ _ _ _ _ _ hp => hp
  dryEnter := fun _ hp _ => hp
  dryLeave := fun _ _ _ _ hp => hp
  pred := by
    intro t c p s _ hp _
    refine ⟨hp.1.thenGrows ⟨le_refl _, le_refl _, fun _ => le_refl _, fun _ _ => le_refl _,
      fun q => ?_, fun _ => le_refl _, le_refl _, le_refl _, fun _ _ c h => ⟨c, le_refl _, h⟩,
      le_refl _, le_refl _, le_refl _, le_refl _⟩, hp.2⟩
    simp only
    split <;> omega
  var := by
    intro t c dt clk w name s s' hR hp _ h
    simp only [weightsNonneg, Bool.and_eq_true, decide_eq_true_eq] at hR
    obtain ⟨s'', h', _, _, _, _, _, hinv'⟩ := varStats_spec statsVars dt clk w name s hp.2
    rw [h] at h'
    cases h'
    exact ⟨hp.1.thenGrows (varStats_appendOnly hR.2 hp.2 h), hinv'⟩
  scp := by
    intro t c dt s hR hp _
    simp only [weightsNonneg, Bool.and_eq_true, decide_eq_true_eq] at hR
    refine ⟨hp.1.thenGrows ⟨le_refl _, le_refl _, fun _ => le_refl _, fun _ _ => le_refl _,
      fun _ => le_refl _, fun _ => le_refl _, le_refl _, le_refl _,
      fun _ _ c h => ⟨c, le_refl _, h⟩, le_refl _, le_refl _, le_refl _, ?_⟩, hp.2⟩
    simp only
    omega

/-- C14: with cost weights and byte widths that are not negative, in the tree and in the
callable functions, every visit of a node and of a module, in either mode, from a state of
the traversal (the breakdown as long as the histogram when it is kept) returns a state in
which every statistic is at least what it was, no bucket and no name map is missing, and
every name entry is kept with a count at least as large (`AppendOnly`); so does the whole
traversal with respect to the state after the constructor. -/
theorem accumulator_append_only (statsVars : Bool) (funcs : FuncTable)
    (hfuncs : ∀ i, (funcs i).node.all weightsNonneg = true) :
    (∀ fuel a n s s', n.all weightsNonneg = true → NamesInv statsVars s →
      visit statsVars funcs fuel a n s = .ok s' → AppendOnly s s') ∧
    (∀ fuel a m s s', AstNodeModule.all weightsNonneg m = true → NamesInv statsVars s →
      visitNodeModule (visit statsVars funcs fuel) a m s = .ok s' → AppendOnly s s') ∧
    (∀ fuel nodep fast s', AstNetlist.all weightsNonneg nodep = true →
      statsStageAll statsVars funcs fuel nodep fast = .ok s' →
      AppendOnly (StatsVisitor.init fast) s') := by
  have hf : ∀ (s0 : StatsVisitor) i (s : StatsVisitor),
      (AppendOnly s0 s ∧ NamesInv statsVars s) → s.m_fast = true →
      (funcs i).node.all weightsNonneg = true := fun _ i _ _ _ => hfuncs i
  refine ⟨fun fuel a n s s' hn hinv h =>
      (visit_inv (stepClosed_appendOnly statsVars s) (hf s) fuel a n s s' hn
        ⟨AppendOnly.sameState s, hinv⟩ h).1,
    fun fuel a m s s' hm hinv h =>
      (visitNodeModule_inv (stepClosed_appendOnly statsVars s) (hf s) (fun _ hp => hp)
        (fun _ hp => hp) hm ⟨AppendOnly.sameState s, hinv⟩ h).1,
    fun fuel nodep fast s' hn h =>
      (visitNetlist_inv (stepClosed_appendOnly statsVars (StatsVisitor.init fast))
        (hf _) (fun _ hp => hp) (fun _ hp => hp) hn
        ⟨AppendOnly.sameState _, fun _ => rfl⟩ h).1⟩

theorem accumulator_append_only_witness :
    (∀ i, (noFuncs i).node.all weightsNonneg = true) ∧
    AstNode.all weightsNonneg
      (.mk 7 2 (.Var (some ⟨false, true, 4⟩) true 0 "a") [] [] [] []) = true ∧
    NamesInv true sampleHistogram ∧
    (visit true noFuncs 2 none (.mk 7 2 (.Var (some ⟨false, true, 4⟩) true 0 "a") [] [] [] [])
        sampleHistogram).toOption.map
      (fun s => ([s.m_statInstr, s.m_statVarBytes, (s.m_statVarClock : Int),
        (s.widthCount 0 : Int)], s.m_statVarWidthNames.getD 0 []))
      = some ([2, 4, 1, 4], [("a", 3), ("b", 1)]) ∧
    ∃ s', visit true noFuncs 2 none
        (.mk 7 2 (.Var (some ⟨false, true, 4⟩) true 0 "a") [] [] [] []) sampleHistogram
        = .ok s' ∧ AppendOnly sampleHistogram s' :=
  ⟨fun _ => rfl, by decide, fun _ => rfl, by decide,
    match h : visit true noFuncs 2 none
        (.mk 7 2 (.Var (some ⟨false, true, 4⟩) true 0 "a") [] [] [] []) sampleHistogram with
    | .ok s' => ⟨s', rfl,
        (accumulator_append_only true noFuncs (fun _ => rfl)).1 2 none _ sampleHistogram s'
          (by decide) (fun _ => rfl) h⟩
    | .error e => by
        have : (visit true noFuncs 2 none
            (.mk 7 2 (.Var (some ⟨false, true, 4⟩) true 0 "a") [] [] [] [])
            sampleHistogram).toOption.isSome = true := by decide
        rw [h] at this
        cases this⟩

/-! ### The rule for variable declarations -/

/-- C15: a counted visit of a variable declaration applies the default accounting to the
node (its kind count, its adjacency cell when it has a node above, `m_statInstr`), then visits
its children, and then applies the variable rule to the state `s2` after the children.
Without a data type the visit ends in `s2`: no variable statistic is touched (and for a
variable without children the visit is exactly the default accounting).  With a data type
`m_statVarClock` grows by one exactly when the variable is used as a clock, `m_statVarArray`
grows by one when the type is an unpacked array and `m_statVarBytes` by the byte width of
the type otherwise, never both, and the counters that are not variable statistics are those
of `s2`. -/
theorem variable_rule_effect (statsVars : Bool) (funcs : FuncTable) (fuel : Nat)
    (a : Option AstType) (t : AstType) (c : Int) (dtypep : Option AstNodeDType) (clk : Bool)
    (w : Nat) (name : String) (o1 o2 o3 o4 : List AstNode) (s s' : StatsVisitor)
    (hc : s.m_counting = true)
    (h : visit statsVars funcs (fuel + 1) a (.mk t c (.Var dtypep clk w name) o1 o2 o3 o4) s
      = .ok s') :
    (allNodes a t c s).m_statTypeCount t = s.m_statTypeCount t + 1 ∧
    (∀ k1, a = some k1 → (allNodes a t c s).m_statAbove k1 t = s.m_statAbove k1 t + 1) ∧
    (allNodes a t c s).m_statInstr = s.m_statInstr + c ∧
    ∃ s2, iterateChildrenConst (visit statsVars funcs fuel) t o1 o2 o3 o4 (allNodes a t c s)
        = .ok s2 ∧
      (o1 = [] → o2 = [] → o3 = [] → o4 = [] → s2 = allNodes a t c s) ∧
      (dtypep = none → s' = s2) ∧
      (∀ dt, dtypep = some dt →
        s'.m_statVarClock = s2.m_statVarClock + (if clk then 1 else 0) ∧
        s'.m_statVarArray = s2.m_statVarArray + (if dt.isUnpackArray then 1 else 0) ∧
        s'.m_statVarBytes
          = s2.m_statVarBytes + (if dt.isUnpackArray then 0 else dt.widthTotalBytes) ∧
        s'.m_statInstr = s2.m_statInstr ∧ s'.m_statInstrFast = s2.m_statInstrFast ∧
        s'.m_statTypeCount = s2.m_statTypeCount ∧ s'.m_statAbove = s2.m_statAbove ∧
        s'.m_statPred = s2.m_statPred ∧ s'.m_statVarScpBytes = s2.m_statVarScpBytes) := by
  simp only [visit, bind_eq_ok] at h
  obtain ⟨s2, e1, e2⟩ := h
  have hc2 : s2.m_counting = true :=
    (((allNodes_flags a t c s).trans (iterateChildrenConst_rel Flags.refl
      (fun _ _ _ => Flags.trans) (visit_flags statsVars funcs fuel) t o1 o2 o3 o4 _ _ e1)).1).trans
      hc
  refine ⟨?_, fun k1 hk => ?_, allNodes_counted hc, s2, e1, fun h1 h2 h3 h4 => ?_,
    fun hd => ?_, fun dt hd => ?_⟩
  · unfold allNodes
    rw [if_pos hc]
    simp
  · unfold allNodes
    rw [if_pos hc]
    simp [hk]
  · subst h1 h2 h3 h4
    simp only [iterateChildrenConst, iterateAndNextConst, Except.bind] at e1
    cases e1
    rfl
  · subst hd
    unfold varRule at e2
    rw [hc2] at e2
    simp only at e2
    cases e2
    rfl
  · subst hd
    unfold varRule at e2
    rw [hc2] at e2
    simp only at e2
    obtain ⟨t1, t2, t3⟩ := varStats_totals e2
    have hfr := varStats_frame e2
    refine ⟨?_, ?_, ?_, by rw [hfr], by rw [hfr], by rw [hfr], by rw [hfr], by rw [hfr],
      by rw [hfr]⟩
    · rw [t1]; split <;> simp
    · rw [t2]; split <;> simp
    · rw [t3]; split <;> simp

theorem variable_rule_effect_witness :
    (visit false noFuncs 1 (some 1)
        (.mk 7 2 (.Var none true 8 "x") [] [] [] []) sampleHistogram).toOption.map
      (fun s => [s.m_statInstr, (s.m_statTypeCount 7 : Int), (s.m_statAbove 1 7 : Int),
        (s.m_statVarClock : Int), (s.m_statVarArray : Int), s.m_statVarBytes,
        (s.widthCount 8 : Int)])
      = some [2, 1, 1, 0, 0, 0, 1] ∧
    (visit false noFuncs 1 (some 1)
        (.mk 7 2 (.Var (some ⟨true, false, 16⟩) true 8 "x") [] [] [] [])
        sampleHistogram).toOption.map
      (fun s => [s.m_statInstr, (s.m_statTypeCount 7 : Int), (s.m_statAbove 1 7 : Int),
        (s.m_statVarClock : Int), (s.m_statVarArray : Int), s.m_statVarBytes,
        (s.widthCount 8 : Int)])
      = some [2, 1, 1, 1, 1, 0, 2] ∧
    sampleHistogram.m_counting = true ∧
    ∃ s', visit false noFuncs 1 (some 1)
        (.mk 7 2 (.Var (some ⟨false, true, 4⟩) false 8 "x") [] [] [] []) sampleHistogram
        = .ok s' ∧
      (allNodes (some 1) 7 2 sampleHistogram).m_statTypeCount 7
        = sampleHistogram.m_statTypeCount 7 + 1 ∧
      (∀ k1, some 1 = some k1 → (allNodes (some 1) 7 2 sampleHistogram).m_statAbove k1 7
        = sampleHistogram.m_statAbove k1 7 + 1) ∧
      (allNodes (some 1) 7 2 sampleHistogram).m_statInstr = sampleHistogram.m_statInstr + 2 ∧
      ∃ s2, iterateChildrenConst (visit false noFuncs 0) 7 [] [] [] []
          (allNodes (some 1) 7 2 sampleHistogram) = .ok s2 ∧
        (([] : List AstNode) = [] → ([] : List AstNode) = [] → ([] : List AstNode) = [] →
          ([] : List AstNode) = [] → s2 = allNodes (some 1) 7 2 sampleHistogram) ∧
        (some (⟨false, true, 4⟩ : AstNodeDType) = none → s' = s2) ∧
        (∀ dt, some (⟨false, true, 4⟩ : AstNodeDType) = some dt →
          s'.m_statVarClock = s2.m_statVarClock + (if false = true then 1 else 0) ∧
          s'.m_statVarArray = s2.m_statVarArray + (if dt.isUnpackArray then 1 else 0) ∧
          s'.m_statVarBytes
            = s2.m_statVarBytes + (if dt.isUnpackArray then 0 else dt.widthTotalBytes) ∧
          s'.m_statInstr = s2.m_statInstr ∧ s'.m_statInstrFast = s2.m_statInstrFast ∧
          s'.m_statTypeCount = s2.m_statTypeCount ∧ s'.m_statAbove = s2.m_statAbove ∧
          s'.m_statPred = s2.m_statPred ∧ s'.m_statVarScpBytes = s2.m_statVarScpBytes) :=
  ⟨by decide, by decide, rfl,
    match h : visit false noFuncs 1 (some 1)
        (.mk 7 2 (.Var (some ⟨false, true, 4⟩) false 8 "x") [] [] [] []) sampleHistogram with
    | .ok s' => ⟨s', rfl,
        variable_rule_effect false noFuncs 0 (some 1) 7 2 (some ⟨false, true, 4⟩) false 8 "x"
          [] [] [] [] sampleHistogram s' rfl h⟩
    | .error e => by
        have : (visit false noFuncs 1 (some 1)
            (.mk 7 2 (.Var (some ⟨false, true, 4⟩) false 8 "x") [] [] [] [])
            sampleHistogram).toOption.isSome = true := by decide
        rw [h] at this
        cases this⟩

/-- C16: in critical-path mode with counting on and cost weights that are not negative, the
visit of a conditional with hint LIKELY estimates the if-arm by a dry-run that changes no
statistic (the estimate is not negative), takes no estimate of the else-arm (it counts as 0)
and then is the counted traversal of the if-arm; the else-arm is not consulted: the visit
returns the same state whatever stands in its place. -/
theorem conditional_likely_selects_if_arm (statsVars : Bool) (funcs : FuncTable)
    (fuel : Nat) (a : Option AstType) (t : AstType) (c : Int) (o1 o2 o3 o4 : List AstNode)
    (s s' : StatsVisitor) (hfuncs : ∀ i, (funcs i).node.all costNonneg = true)
    (harm : allList costNonneg o2 = true) (hf : s.m_fast = true) (hc : s.m_counting = true)
    (h : visit statsVars funcs (fuel + 1) a (.mk t c (.NodeIf .BP_LIKELY) o1 o2 o3 o4) s
      = .ok s') :
    (∃ (s2 : StatsVisitor) (ifInstrs : Int) (s4 : StatsVisitor),
      iterateAndNextConst (visit statsVars funcs fuel) t o1 (allNodes a t c s) = .ok s2 ∧
      dryRun (visit statsVars funcs fuel) t o2 (trackPred .BP_LIKELY s2)
        = .ok (ifInstrs, s4) ∧
      sumOver (estRef funcs fuel) o2 = some ifInstrs ∧ 0 ≤ ifInstrs ∧
      s4.accum = (trackPred .BP_LIKELY s2).accum ∧
      s4.m_instrs = s2.m_instrs ∧ s4.m_counting = true ∧ s4.m_fast = true ∧
      iterateAndNextConst (visit statsVars funcs fuel) t o2 s4 = .ok s') ∧
    ∀ o3' o4', visit statsVars funcs (fuel + 1) a
      (.mk t c (.NodeIf .BP_LIKELY) o1 o2 o3' o4') s = .ok s' := by
  simp only [visit, bind_eq_ok] at h
  obtain ⟨s2, e1, e2⟩ := h
  have hfl := ((allNodes_flags a t c s).trans
    (iterateAndNextConst_rel Flags.refl (fun _ _ _ => Flags.trans)
      (visit_flags statsVars funcs fuel) t o1 _ _ e1)).trans (trackPred_flags .BP_LIKELY s2)
  have hf3 : (trackPred .BP_LIKELY s2).m_fast = true := hfl.2.trans hf
  have hc3 : (trackPred .BP_LIKELY s2).m_counting = true := hfl.1.trans hc
  rw [if_neg (by simp [hf3])] at e2
  obtain ⟨r1, r2, d1, d2, g1, g2, a1, a2, i2, c2, f2, hif, helse⟩ :=
    criticalBranch_spec hf3 hc3 e2
  rw [if_pos (by decide)] at d1
  rw [if_neg (by decide)] at d2 g1
  rw [if_pos (by decide)] at g2
  cases d2
  cases g2
  have hi3 : (trackPred .BP_LIKELY s2).m_instrs = s2.m_instrs := by
    unfold trackPred; split <;> rfl
  have hnn : 0 ≤ r1.1 := sumOver_nonneg o2 r1.1
    (fun n hn e he => estRef_nonneg hfuncs fuel n e (allList_iff.1 harm n hn) he) g1
  have hrun := hif (by simpa using hnn)
  simp only at hrun a2 i2 c2 f2
  refine ⟨⟨s2, r1.1, r1.2, e1, d1, g1, hnn, a2, i2.trans hi3, c2, f2, hrun⟩,
    fun o3' o4' => ?_⟩
  simp only [visit, e1, Except.bind]
  rw [if_neg (by simp [hf3])]
  unfold criticalBranch
  rw [if_pos (by decide), d1]
  simp only [Except.bind]
  rw [if_neg (by decide)]
  simp only [c2, if_true]
  rw [if_pos (by simpa using hnn)]
  exact hrun

theorem conditional_likely_selects_if_arm_witness :
    (∀ i, (noFuncs i).node.all costNonneg = true) ∧
    allList costNonneg [leaf 5 3] = true ∧
    countingState.m_fast = true ∧ countingState.m_counting = true ∧
    (visit false noFuncs 3 none (armsIf .BP_LIKELY 3 10) countingState).toOption.map
      (fun s => (s.m_statInstr, s.m_statTypeCount 5, s.m_statTypeCount 6)) = some (6, 1, 0) ∧
    (visit false noFuncs 3 none (armsIf .BP_LIKELY 0 10) countingState).toOption.map
      (fun s => (s.m_statInstr, s.m_statTypeCount 5, s.m_statTypeCount 6)) = some (3, 1, 0) ∧
    ∃ s', visit false noFuncs 3 none (armsIf .BP_LIKELY 3 10) countingState = .ok s' ∧
      (∃ (s2 : StatsVisitor) (ifInstrs : Int) (s4 : StatsVisitor),
        iterateAndNextConst (visit false noFuncs 2) 3 [leaf 4 2]
          (allNodes none 3 1 countingState) = .ok s2 ∧
        dryRun (visit false noFuncs 2) 3 [leaf 5 3] (trackPred .BP_LIKELY s2)
          = .ok (ifInstrs, s4) ∧
        sumOver (estRef noFuncs 2) [leaf 5 3] = some ifInstrs ∧ 0 ≤ ifInstrs ∧
        s4.accum = (trackPred .BP_LIKELY s2).accum ∧
        s4.m_instrs = s2.m_instrs ∧ s4.m_counting = true ∧ s4.m_fast = true ∧
        iterateAndNextConst (visit false noFuncs 2) 3 [leaf 5 3] s4 = .ok s') ∧
      ∀ o3' o4', visit false noFuncs 3 none
        (.mk 3 1 (.NodeIf .BP_LIKELY) [leaf 4 2] [leaf 5 3] o3' o4') countingState = .ok s' :=
  ⟨fun _ => rfl, by decide, rfl, rfl, by decide, by decide,
    match h : visit false noFuncs 3 none (armsIf .BP_LIKELY 3 10) countingState with
    | .ok s' => ⟨s', rfl,
        conditional_likely_selects_if_arm false noFuncs 2 none 3 1 [leaf 4 2]
          [leaf 5 3] [leaf 6 10] [] countingState s' (fun _ => rfl) (by decide) rfl rfl h⟩
    | .error e => by
        have : (visit false noFuncs 3 none (armsIf .BP_LIKELY 3 10)
          countingState).toOption.isSome = true := by decide
        rw [h] at this
        cases this⟩

/-! ### The dry-run estimate and the counted traversal -/

/-- The form of `visit_inv` in which the nodes of a callee have to pass `R` only for the call
edges that pass `R`. -/
theorem visit_inv_calls {statsVars : Bool} {funcs : FuncTable}
    {R : AstType → Int → NodeClass → Bool} {P : StatsVisitor → Prop}
    (hP : StepClosed statsVars R P)
    (hfuncs : ∀ t c f s, R t c (.CCall f) = true → P s → s.m_fast = true →
      (funcs f).node.all R = true) :
    ∀ fuel a n s s', n.all R = true → P s → visit statsVars funcs fuel a n s = .ok s' →
      P s' := by
  intro fuel
  induction fuel with
  | zero => intro a n s s' _ _ h; simp [visit] at h
  | succ fuel ih =>
    intro a n s s' hn hp h
    obtain ⟨t, c, k, o1, o2, o3, o4⟩ := n
    obtain ⟨hR, h1, h2, h3, h4⟩ := all_mk.1 hn
    rw [allList_iff] at h1 h2 h3 h4
    simp only [visit] at h
    have hc := fun s s' => iterateChildrenConst_inv (P := P) ih t h1 h2 h3 h4 s s'
    have ha := hP.allNodes a t c k s hR hp
    cases k with
    | Other => exact hc _ _ ha h
    | Var dt clk w name =>
      simp only [bind_eq_ok] at h
      obtain ⟨s2, e1, e2⟩ := h
      have p2 := hc _ _ ha e1
      unfold varRule at e2
      split at e2
      · exact hP.var t c _ clk w name _ _ hR p2 ‹_› e2
      · cases e2; exact p2
    | VarScope dt =>
      simp only [bind_eq_ok] at h
      obtain ⟨s2, e1, e2⟩ := h
      cases e2
      have p2 := hc _ _ ha e1
      unfold varScopeRule
      split
      · rename_i hcnd
        simp only [Bool.and_eq_true] at hcnd
        exact hP.scp t c dt s2 hR p2 hcnd.1
      · exact p2
    | NodeIf pred =>
      simp only [bind_eq_ok] at h
      obtain ⟨s2, e1, e2⟩ := h
      have p2 := iterateAndNextConst_inv ih t _ _ _ h1 ha e1
      have p3 := trackPred_inv hP hR p2
      split at e2
      · exact hc _ _ p3 e2
      · rename_i hf
        simp only [Bool.not_eq_true, Bool.not_eq_false'] at hf
        exact criticalBranch_inv hP ih (visit_flags statsVars funcs fuel) h2 h3 p3
          (by simpa using hf) e2
    | CCall f =>
      simp only [bind_eq_ok] at h
      obtain ⟨s2, e1, e2⟩ := h
      have p2 := hc _ _ ha e1
      split at e2
      · exact ih _ _ _ _ (hfuncs t c f s2 hR p2 ‹_›) p2 e2
      · cases e2; exact p2
    | CFunc name slow =>
      simp only [bind_eq_ok] at h
      obtain ⟨s2, e1, e2⟩ := h
      cases e2
      exact hP.cfuncLeave t c name slow _ hR
        (hc _ _ (hP.allNodes a t c _ _ hR (hP.cfuncEnter t c name slow s hR hp)) e1)

/-- The module loop of critical-path mode keeps a predicate that the visits of the children of
the `_eval` functions keep and that does not depend on `m_instrs` and `m_counting`. -/
theorem moduleEvalLoop_bodies_inv {v : Visit} {G : AstNode → Prop}
    {P : StatsVisitor → Prop}
    (hv : ∀ a n s s', G n → P s → v a n s = .ok s' → P s')
    (hflag : ∀ s i c, P s → P { s with m_instrs := i, m_counting := c }) :
    ∀ l s s', (∀ x ∈ evalBodies l, G x) → P s → moduleEvalLoop v l s = .ok s' → P s' := by
  intro l
  induction l with
  | nil => intro s s' _ hp h; simp [moduleEvalLoop] at h; subst h; exact hp
  | cons n rest ih =>
    intro s s' hG hp h
    obtain ⟨t, c, k, o1, o2, o3, o4⟩ := n
    cases k with
    | CFunc name slow =>
      simp only [moduleEvalLoop] at h
      simp only [evalBodies] at hG
      split at h
      · rename_i hname
        rw [if_pos hname] at hG
        simp only [bind_eq_ok] at h
        obtain ⟨s1, e1, e2⟩ := h
        have p1 := iterateChildrenConst_inv hv t
          (fun x hx => hG x (by simp [hx])) (fun x hx => hG x (by simp [hx]))
          (fun x hx => hG x (by simp [hx])) (fun x hx => hG x (by simp [hx]))
          _ _ (hflag s 0 true hp) e1
        exact ih _ _ (fun x hx => hG x (by simp [hx])) (hflag s1 s1.m_instrs false p1) e2
      · rename_i hname
        rw [if_neg hname] at hG
        exact ih _ _ hG hp h
    | Var dt clk w name =>
      simp only [moduleEvalLoop] at h; simp only [evalBodies] at hG; exact ih _ _ hG hp h
    | VarScope dt =>
      simp only [moduleEvalLoop] at h; simp only [evalBodies] at hG; exact ih _ _ hG hp h
    | NodeIf p =>
      simp only [moduleEvalLoop] at h; simp only [evalBodies] at hG; exact ih _ _ hG hp h
    | CCall f =>
      simp only [moduleEvalLoop] at h; simp only [evalBodies] at hG; exact ih _ _ hG hp h
    | Other =>
      simp only [moduleEvalLoop] at h; simp only [evalBodies] at hG; exact ih _ _ hG hp h

/-- The critical-path run over the netlist, entered with counting off: a predicate kept by the
visits of the children of the `_eval` functions holds in a state whose statistics are those
of the final state. -/
theorem visitNetlist_critical_inv {statsVars : Bool} {funcs : FuncTable} {fuel : Nat}
    {G : AstNode → Prop} {P : StatsVisitor → Prop}
    (hv : ∀ a n s s', G n → P s → visit statsVars funcs fuel a n s = .ok s' → P s')
    (hflag : ∀ s i c, P s → P { s with m_instrs := i, m_counting := c })
    {n : AstNetlist} {s s' : StatsVisitor}
    (hG : ∀ x ∈ n.modulesp.flatMap (fun m => evalBodies m.stmtsp), G x)
    (hp : P s) (hf : s.m_fast = true) (hc : s.m_counting = false)
    (h : visitNetlist (visit statsVars funcs fuel) n s = .ok s') :
    ∃ s1, P s1 ∧ s'.accum = s1.accum := by
  have hvf := visit_flags statsVars funcs fuel
  have hmod : ∀ a m (s s' : StatsVisitor), (∀ x ∈ evalBodies m.stmtsp, G x) →
      P s ∧ s.m_fast = true ∧ s.m_counting = false →
      visitNodeModule (visit statsVars funcs fuel) a m s = .ok s' →
      P s' ∧ s'.m_fast = true ∧ s'.m_counting = false := by
    intro a m s s' hG hp h
    have hfl := visitNodeModule_flags hvf h
    refine ⟨?_, hfl.1.trans hp.2.1, hfl.2.2 hp.2.2⟩
    unfold visitNodeModule at h
    simp only [allNodes_dry hp.2.2] at h
    rw [if_neg (by simp [hp.2.1])] at h
    exact moduleEvalLoop_bodies_inv hv hflag _ _ _ hG
      (hflag s (s.m_instrs + m.instrCount) s.m_counting hp.1) h
  have hnext : ∀ l (s s' : StatsVisitor),
      (∀ x ∈ l.flatMap (fun m => evalBodies m.stmtsp), G x) →
      P s ∧ s.m_fast = true ∧ s.m_counting = false →
      iterateNextModules (visit statsVars funcs fuel) l s = .ok s' →
      P s' ∧ s'.m_fast = true ∧ s'.m_counting = false := by
    intro l
    induction l with
    | nil => intro s s' _ hp h; simp [iterateNextModules] at h; subst h; exact hp
    | cons m rest ih =>
      intro s s' hG hp h
      simp only [List.flatMap_cons] at hG
      simp only [iterateNextModules, bind_eq_ok] at h
      obtain ⟨s1, e1, e2⟩ := h
      exact ih _ _ (fun x hx => hG x (List.mem_append_right _ hx))
        (hmod _ _ _ _ (fun x hx => hG x (List.mem_append_left _ hx)) hp e1) e2
  simp only [visitNetlist, bind_eq_ok] at h
  obtain ⟨s3, ⟨s2, ⟨s1, e1, e2⟩, e3⟩, e4⟩ := h
  rw [allNodes_dry hc] at e1
  have h0 : P { s with m_instrs := s.m_instrs + n.instrCount } ∧
      ({ s with m_instrs := s.m_instrs + n.instrCount } : StatsVisitor).m_fast = true ∧
      ({ s with m_instrs := s.m_instrs + n.instrCount } : StatsVisitor).m_counting = false :=
    ⟨hflag s (s.m_instrs + n.instrCount) s.m_counting hp, hf, hc⟩
  have h1 : P s1 ∧ s1.m_fast = true ∧ s1.m_counting = false := by
    cases hm : n.modulesp with
    | nil => rw [hm] at e1; simp [iterateModules] at e1; subst e1; exact h0
    | cons m rest =>
      rw [hm] at e1 hG
      simp only [List.flatMap_cons] at hG
      simp only [iterateModules, bind_eq_ok] at e1
      obtain ⟨s0, g1, g2⟩ := e1
      exact hnext _ _ _ (fun x hx => hG x (List.mem_append_right _ hx))
        (hmod _ _ _ _ (fun x hx => hG x (List.mem_append_left _ hx)) h0 g1) g2
  have hdry : ∀ l (s s' : StatsVisitor), s.m_counting = false →
      iterateAndNextConst (visit statsVars funcs fuel) n.type l s = .ok s' →
      s'.m_counting = false ∧ s'.accum = s.accum := fun l s s' hc h =>
    iterateAndNextConst_inv (G := fun n => n.all anyNode = true)
      (visit_inv (stepClosed_dry statsVars s.accum) (fun _ _ _ _ => all_anyNode _) fuel)
      n.type l s s' (fun n _ => all_anyNode n) ⟨hc, rfl⟩ h
  obtain ⟨c2, a2⟩ := hdry _ _ _ h1.2.2 e2
  obtain ⟨c3, a3⟩ := hdry _ _ _ c2 e3
  obtain ⟨_, a4⟩ := hdry _ _ _ c3 e4
  exact ⟨s1, h1.1, a4.trans (a3.trans a2)⟩

/-- Outside every function and away from call edges and function nodes, no step adds to
`m_statInstrFast` or sets the function context. -/
theorem stepClosed_noContext (statsVars : Bool) :
    StepClosed statsVars noCallFunc
      (fun s => s.m_statInstrFast = 0 ∧ s.m_cfuncp = none) where
  allNodes := by
    intro a t c k s _ hp
    unfold allNodes
    split
    · simp [hp.1, hp.2]
    · exact hp
  cfuncEnter := by intro t c name slow s hR _; simp [noCallFunc] at hR
  cfuncLeave := by intro t c name slow s hR _; simp [noCallFunc] at hR
  dryEnter := fun _ hp _ => hp
  dryLeave := fun _ _ _ _ hp => hp
  pred := fun _ _ _ _ _ hp _ => hp
  var := by
    intro t c dt clk w name s s' _ hp _ h
    rw [varStats_frame h]
    exact hp
  scp := fun _ _ _ _ _ hp _ => hp

/-- C18: in critical-path mode, when the children of the `_eval` functions of the modules hold
neither a call edge nor a function node, `m_statInstrFast` is 0 at the end of the traversal:
the module rule iterates the children of `_eval` without visiting the function node, so
`m_cfuncp` stays NULL.  In general the visit of a call edge in critical-path mode returns with
`m_cfuncp` NULL, and with `m_cfuncp` NULL the accounting of a node adds nothing to
`m_statInstrFast`. -/
theorem fast_critical_zero_without_calls (statsVars : Bool) (funcs : FuncTable) :
    (∀ fuel nodep s,
      allList noCallFunc (nodep.modulesp.flatMap fun m => evalBodies m.stmtsp) = true →
      statsStageAll statsVars funcs fuel nodep true = .ok s → s.m_statInstrFast = 0) ∧
    (∀ fuel a t c f o1 o2 o3 o4 s s', s.m_fast = true →
      visit statsVars funcs (fuel + 1) a (.mk t c (.CCall f) o1 o2 o3 o4) s = .ok s' →
      s'.m_cfuncp = none) ∧
    (∀ a t c s, s.m_cfuncp = none →
      (allNodes a t c s).m_statInstrFast = s.m_statInstrFast ∧
        (allNodes a t c s).m_cfuncp = none) := by
  refine ⟨fun fuel nodep s hG h => ?_, fun fuel a t c f o1 o2 o3 o4 s s' hf h => ?_,
    fun a t c s hn => ?_⟩
  · obtain ⟨s1, hp, hacc⟩ := visitNetlist_critical_inv
      (G := fun n => n.all noCallFunc = true)
      (P := fun s => s.m_statInstrFast = 0 ∧ s.m_cfuncp = none)
      (visit_inv_calls (stepClosed_noContext statsVars)
        (fun t c f s hR _ _ => by simp [noCallFunc] at hR) fuel)
      (fun _ _ _ hp => hp) (allList_iff.1 hG) ⟨rfl, rfl⟩ rfl rfl h
    have : s.m_statInstrFast = s1.m_statInstrFast := congrArg Accumulator.statInstrFast hacc
    rw [this]
    exact hp.1
  · simp only [visit, bind_eq_ok] at h
    obtain ⟨s2, e1, e2⟩ := h
    have hfl := (allNodes_flags a t c s).trans
      (iterateChildrenConst_rel Flags.refl (fun _ _ _ => Flags.trans)
        (visit_flags statsVars funcs fuel) t o1 o2 o3 o4 _ _ e1)
    rw [if_pos (hfl.2.trans hf)] at e2
    cases fuel with
    | zero => simp [visit] at e2
    | succ fuel =>
      simp only [FuncEntry.node, visit, bind_eq_ok] at e2
      obtain ⟨s3, _, e3⟩ := e2
      cases e3
      rfl
  · unfold allNodes
    split
    · simp [hn]
    · exact ⟨rfl, hn⟩

theorem fast_critical_zero_without_calls_witness :
    allList noCallFunc (sampleIf.modulesp.flatMap fun m => evalBodies m.stmtsp) = true ∧
    (statsStageAll false noFuncs 10 sampleIf true).toOption.map
      (fun s => (s.m_statInstrFast, s.m_statInstr)) = some (0, 7) ∧
    (statsStageAll false sampleFuncs 10 sampleCalls true).toOption.map
      (fun s => (s.m_statInstrFast, s.m_statInstr)) = some (18, 25) ∧
    ∃ s, statsStageAll false noFuncs 10 sampleIf true = .ok s ∧ s.m_statInstrFast = 0 :=
  ⟨by decide, by decide, by decide,
    match h : statsStageAll false noFuncs 10 sampleIf true with
    | .ok s => ⟨s, rfl,
        (fast_critical_zero_without_calls false noFuncs).1 10 sampleIf s (by decide) h⟩
    | .error e => by
        have : (statsStageAll false noFuncs 10 sampleIf true).toOption.isSome = true := by
          decide
        rw [h] at this
        cases this⟩

theorem evalBodies_of_not_hasEval : ∀ l, hasEval l = false → evalBodies l = [] := by
  intro l
  induction l with
  | nil => intro _; rfl
  | cons n rest ih =>
    intro h
    obtain ⟨t, c, k, o1, o2, o3, o4⟩ := n
    cases k with
    | CFunc name slow =>
      simp only [hasEval, Bool.or_eq_false_iff, decide_eq_false_iff_not] at h
      simp only [evalBodies, if_neg h.1]
      exact ih h.2
    | Var dt clk w name => simp only [hasEval] at h; simp only [evalBodies]; exact ih h
    | VarScope dt => simp only [hasEval] at h; simp only [evalBodies]; exact ih h
    | NodeIf p => simp only [hasEval] at h; simp only [evalBodies]; exact ih h
    | CCall f => simp only [hasEval] at h; simp only [evalBodies]; exact ih h
    | Other => simp only [hasEval] at h; simp only [evalBodies]; exact ih h

/-- C19: in critical-path mode, when no module has a function named `_eval` among its
statements, the traversal ends with every statistic of the accumulator as the constructor
left it: the instruction counts, every kind count, every adjacency cell, every prediction
count and the variable totals are 0, and the histogram and the breakdown are empty. -/
theorem critical_path_without_eval_counts_nothing (statsVars : Bool) (funcs : FuncTable)
    (fuel : Nat) (nodep : AstNetlist) (s : StatsVisitor)
    (hne : ∀ m ∈ nodep.modulesp, hasEval m.stmtsp = false)
    (h : statsStageAll statsVars funcs fuel nodep true = .ok s) :
    s.m_statInstr = 0 ∧ s.m_statInstrFast = 0 ∧ (∀ k, s.m_statTypeCount k = 0) ∧
    (∀ k1 k2, s.m_statAbove k1 k2 = 0) ∧ (∀ p, s.m_statPred p = 0) ∧
    s.m_statVarWidths = [] ∧ s.m_statVarWidthNames = [] ∧ s.m_statVarArray = 0 ∧
    s.m_statVarBytes = 0 ∧ s.m_statVarClock = 0 ∧ s.m_statVarScpBytes = 0 ∧
    s.varVisits = [] := by
  have hnil : (nodep.modulesp.flatMap fun m => evalBodies m.stmtsp) = [] := by
    rw [List.flatMap_eq_nil_iff]
    exact fun m hm => evalBodies_of_not_hasEval _ (hne m hm)
  obtain ⟨s1, hp, hacc⟩ := visitNetlist_critical_inv (G := fun _ => False)
    (P := fun s => s.accum = (StatsVisitor.init true).accum)
    (fun _ _ _ _ hG _ _ => hG.elim) (fun _ _ _ hp => hp)
    (fun x hx => by rw [hnil] at hx; cases hx) rfl rfl rfl h
  have hz : s.accum = (StatsVisitor.init true).accum := hacc.trans hp
  exact ⟨congrArg Accumulator.statInstr hz, congrArg Accumulator.statInstrFast hz,
    fun k => congrFun (congrArg Accumulator.statTypeCount hz) k,
    fun k1 k2 => congrFun (congrFun (congrArg Accumulator.statAbove hz) k1) k2,
    fun p => congrFun (congrArg Accumulator.statPred hz) p,
    congrArg Accumulator.statVarWidths hz, congrArg Accumulator.statVarWidthNames hz,
    congrArg Accumulator.statVarArray hz, congrArg Accumulator.statVarBytes hz,
    congrArg Accumulator.statVarClock hz, congrArg Accumulator.statVarScpBytes hz,
    congrArg Accumulator.varVisits hz⟩

theorem critical_path_without_eval_counts_nothing_witness :
    (∀ m ∈ sampleTwoVars.modulesp, hasEval m.stmtsp = false) ∧
    (statsStageAll false noFuncs 10 sampleTwoVars false).toOption.map
      (fun s => (s.m_statTypeCount 7, s.m_statVarBytes)) = some (2, 2) ∧
    ∃ s, statsStageAll false noFuncs 10 sampleTwoVars true = .ok s ∧
      s.m_statInstr = 0 ∧ s.m_statInstrFast = 0 ∧ (∀ k, s.m_statTypeCount k = 0) ∧
      (∀ k1 k2, s.m_statAbove k1 k2 = 0) ∧ (∀ p, s.m_statPred p = 0) ∧
      s.m_statVarWidths = [] ∧ s.m_statVarWidthNames = [] ∧ s.m_statVarArray = 0 ∧
      s.m_statVarBytes = 0 ∧ s.m_statVarClock = 0 ∧ s.m_statVarScpBytes = 0 ∧
      s.varVisits = [] :=
  ⟨by decide, by decide,
    match h : statsStageAll false noFuncs 10 sampleTwoVars true with
    | .ok s => ⟨s, rfl,
        critical_path_without_eval_counts_nothing false noFuncs 10 sampleTwoVars s
          (by decide) h⟩
    | .error e => by
        have : (statsStageAll false noFuncs 10 sampleTwoVars true).toOption.isSome = true := by
          decide
        rw [h] at this
        cases this⟩

/-! ### Conditionals and prediction hints are tallied together -/

theorem sum_map_bump (f : Nat → Nat) (t : Nat) :
    ∀ ks : List Nat, ks.Nodup →
      (ks.map fun k => if k = t then f k + 1 else f k).sum
        = (ks.map f).sum + (if t ∈ ks then 1 else 0) := by
  intro ks
  induction ks with
  | nil => intro _; rfl
  | cons k rest ih =>
    intro hnd
    rw [List.nodup_cons] at hnd
    simp only [List.map_cons, List.sum_cons, ih hnd.2, List.mem_cons]
    by_cases hk : k = t
    · subst hk
      simp [hnd.1]
      omega
    · have : ¬ t = k := fun h => hk h.symm
      simp [hk, this]
      omega

theorem condBalance_congr (ks : List AstType) {s s' : StatsVisitor}
    (h1 : s'.m_statTypeCount = s.m_statTypeCount) (h2 : s'.m_statPred = s.m_statPred) :
    condBalance ks s' = condBalance ks s := by
  simp only [condBalance, ifKindSum, predSum, h1, h2]

theorem condBalance_allNodes {ks : List AstType} (hnd : ks.Nodup) (a : Option AstType)
    (t : AstType) (c : Int) (s : StatsVisitor) :
    condBalance ks (allNodes a t c s)
      = condBalance ks s + (if s.m_counting = true ∧ t ∈ ks then 1 else 0) := by
  unfold allNodes
  by_cases hc : s.m_counting = true
  · rw [if_pos hc]
    simp only [condBalance, ifKindSum, predSum, sum_map_bump s.m_statTypeCount t ks hnd, hc,
      true_and]
    split
    · simp; omega
    · simp
  · rw [if_neg hc, if_neg (fun h => hc h.1), add_zero]
    rfl

theorem condBalance_trackPred (ks : List AstType) (p : AstBranchPred) (s : StatsVisitor) :
    condBalance ks (trackPred p s)
      = condBalance ks s - (if s.m_counting = true then 1 else 0) := by
  unfold trackPred
  by_cases hc : s.m_counting = true
  · rw [if_pos hc, if_pos hc]
    simp only [condBalance, ifKindSum, predSum]
    cases p <;> simp <;> omega
  · rw [if_neg hc, if_neg hc]
    simp

theorem condBalance_varRule (ks : List AstType) {statsVars : Bool}
    {dtypep : Option AstNodeDType} {clk : Bool} {w : Nat} {name : String}
    {s s' : StatsVisitor} (h : varRule statsVars dtypep clk w name s = .ok s') :
    condBalance ks s' = condBalance ks s := by
  unfold varRule at h
  split at h
  · have hfr := varStats_frame h
    exact condBalance_congr ks (by rw [hfr]) (by rw [hfr])
  · cases h; rfl

theorem condBalance_varScopeRule (ks : List AstType) (dt : AstNodeDType) (s : StatsVisitor) :
    condBalance ks (varScopeRule dt s) = condBalance ks s := by
  unfold varScopeRule
  split <;> rfl

/-- The critical-path branch of a conditional keeps a predicate that the visits keep and that
does not depend on `m_instrs` and `m_counting`. -/
theorem criticalBranch_keeps {v : Visit} {G : AstNode → Prop} {P : StatsVisitor → Prop}
    (hv : ∀ a n s s', G n → P s → v a n s = .ok s' → P s')
    (hflag : ∀ s i c, P s → P { s with m_instrs := i, m_counting := c })
    {p : AstType} {pred : AstBranchPred} {o2 o3 : List AstNode} {s s' : StatsVisitor}
    (h2 : ∀ n ∈ o2, G n) (h3 : ∀ n ∈ o3, G n) (hp : P s)
    (h : criticalBranch v p pred o2 o3 s = .ok s') : P s' := by
  have hdry : ∀ arm (s : StatsVisitor) r, (∀ n ∈ arm, G n) → P s →
      dryRun v p arm s = .ok r → P r.2 := by
    intro arm s r harm hp h
    simp only [dryRun, bind_eq_ok] at h
    obtain ⟨s1, g1, g2⟩ := h
    cases g2
    exact hflag s1 s.m_instrs s.m_counting
      (iterateAndNextConst_inv hv p _ _ _ harm (hflag s 0 false hp) g1)
  simp only [criticalBranch, bind_eq_ok] at h
  obtain ⟨r1, hr1, r2, hr2, e⟩ := h
  have f1 : P r1.2 := by
    split at hr1
    · exact hdry _ _ _ h2 hp hr1
    · cases hr1; exact hp
  have f2 : P r2.2 := by
    split at hr2
    · exact hdry _ _ _ h3 f1 hr2
    · cases hr2; exact f1
  split at e
  · split at e
    · exact iterateAndNextConst_inv hv p _ _ _ h2 f2 e
    · exact iterateAndNextConst_inv hv p _ _ _ h3 f2 e
  · cases e; exact f2

/-- When the conditional kinds are the kinds of the nodes of class `AstNodeIf`, in the subtree
and in the callable functions, a visit keeps the balance between the counts of the
conditional kinds and the prediction tallies. -/
theorem visit_condBalance {statsVars : Bool} {funcs : FuncTable} {ks : List AstType}
    (hnd : ks.Nodup) (hfuncs : ∀ i, (funcs i).node.all (kindsOfIf ks) = true) :
    ∀ fuel a n s s', n.all (kindsOfIf ks) = true →
      visit statsVars funcs fuel a n s = .ok s' → condBalance ks s' = condBalance ks s := by
  intro fuel
  induction fuel with
  | zero => intro a n s s' _ h; simp [visit] at h
  | succ fuel ih =>
    intro a n s s' hn h
    obtain ⟨t, c, k, o1, o2, o3, o4⟩ := n
    obtain ⟨hR, h1, h2, h3, h4⟩ := all_mk.1 hn
    rw [allList_iff] at h1 h2 h3 h4
    have hv : ∀ d a n s s', n.all (kindsOfIf ks) = true → condBalance ks s = d →
        visit statsVars funcs fuel a n s = .ok s' → condBalance ks s' = d :=
      fun d a n s s' hn hd h => (ih a n s s' hn h).trans hd
    have hc := fun d s s' => iterateChildrenConst_inv (P := fun s => condBalance ks s = d)
      (hv d) t h1 h2 h3 h4 s s'
    have hplain : isNodeIf k = false →
        condBalance ks (allNodes a t c s) = condBalance ks s := by
      intro hk
      rw [condBalance_allNodes hnd]
      simp only [kindsOfIf, hk, beq_false, Bool.not_eq_true', decide_eq_false_iff_not] at hR
      simp [hR]
    simp only [visit] at h
    cases k with
    | Other => exact hc _ _ _ (hplain rfl) h
    | Var dt clk w name =>
      simp only [bind_eq_ok] at h
      obtain ⟨s2, e1, e2⟩ := h
      exact (condBalance_varRule ks e2).trans (hc _ _ _ (hplain rfl) e1)
    | VarScope dt =>
      simp only [bind_eq_ok] at h
      obtain ⟨s2, e1, e2⟩ := h
      cases e2
      exact (condBalance_varScopeRule ks dt s2).trans (hc _ _ _ (hplain rfl) e1)
    | NodeIf pred =>
      simp only [bind_eq_ok] at h
      obtain ⟨s2, e1, e2⟩ := h
      have ht : t ∈ ks := by
        simpa [kindsOfIf, isNodeIf] using hR
      have hfl := (allNodes_flags a t c s).trans
        (iterateAndNextConst_rel Flags.refl (fun _ _ _ => Flags.trans)
          (visit_flags statsVars funcs fuel) t o1 _ _ e1)
      have b2 : condBalance ks s2
          = condBalance ks s + (if s.m_counting = true then 1 else 0) := by
        have := iterateAndNextConst_inv (P := fun s => condBalance ks s = _) (hv _) t _ _ _ h1
          rfl e1
        rw [this, condBalance_allNodes hnd]
        simp [ht]
      have b3 : condBalance ks (trackPred pred s2) = condBalance ks s := by
        rw [condBalance_trackPred, b2, hfl.1]
        omega
      split at e2
      · exact hc _ _ _ b3 e2
      · exact criticalBranch_keeps (P := fun s => condBalance ks s = _) (hv _)
          (fun _ _ _ hp => hp) h2 h3 b3 e2
    | CCall f =>
      simp only [bind_eq_ok] at h
      obtain ⟨s2, e1, e2⟩ := h
      have b2 := hc _ _ _ (hplain rfl) e1
      split at e2
      · exact (ih _ _ _ _ (hfuncs f) e2).trans b2
      · cases e2; exact b2
    | CFunc name slow =>
      simp only [bind_eq_ok] at h
      obtain ⟨s2, e1, e2⟩ := h
      cases e2
      have hk : isNodeIf (.CFunc name slow) = false := rfl
      have ha : condBalance ks (allNodes a t c { s with m_cfuncp := some slow })
          = condBalance ks s := by
        rw [condBalance_allNodes hnd]
        simp only [kindsOfIf, hk, beq_false, Bool.not_eq_true', decide_eq_false_iff_not] at hR
        simp only [hR, and_false, if_false, add_zero]
        rfl
      show condBalance ks s2 = condBalance ks s
      exact hc _ _ _ ha e1

/-- The traversal of the netlist keeps a predicate that the visits of the nodes and the
accounting of the netlist and of the modules keep and that does not depend on `m_instrs`
and `m_counting`. -/
theorem visitNetlist_of_visit {v : Visit} {R : AstType → Int → NodeClass → Bool}
    {P : StatsVisitor → Prop}
    (hv : ∀ a n s s', n.all R = true → P s → v a n s = .ok s' → P s')
    (hnode : ∀ a t c s, R t c .Other = true → P s → P (allNodes a t c s))
    (hflag : ∀ s i c, P s → P { s with m_instrs := i, m_counting := c })
    {n : AstNetlist} {s s' : StatsVisitor} (hn : n.all R = true) (hp : P s)
    (h : visitNetlist v n s = .ok s') : P s' := by
  have hmod : ∀ a m s s', AstNodeModule.all R m = true → P s →
      visitNodeModule v a m s = .ok s' → P s' := by
    intro a m s s' hm hp h
    simp only [AstNodeModule.all, Bool.and_eq_true] at hm
    obtain ⟨⟨⟨⟨hR, h1⟩, h2⟩, h3⟩, h4⟩ := hm
    have ha := hnode a m.type m.instrCount s hR hp
    unfold visitNodeModule at h
    simp only at h
    split at h
    · rw [allList_iff] at h1 h2 h3 h4
      exact iterateChildrenConst_inv hv _ h1 h2 h3 h4 _ _ ha h
    · exact moduleEvalLoop_inv hv (fun s hp => hflag s 0 true hp)
        (fun s hp => hflag s s.m_instrs false hp) _ _ _ h2 ha h
  have hnext : ∀ l s s', l.all (AstNodeModule.all R) = true → P s →
      iterateNextModules v l s = .ok s' → P s' := by
    intro l
    induction l with
    | nil => intro s s' _ hp h; simp [iterateNextModules] at h; subst h; exact hp
    | cons m rest ih =>
      intro s s' hl hp h
      simp only [List.all_cons, Bool.and_eq_true] at hl
      simp only [iterateNextModules, bind_eq_ok] at h
      obtain ⟨s1, e1, e2⟩ := h
      exact ih _ _ hl.2 (hmod _ _ _ _ hl.1 hp e1) e2
  simp only [AstNetlist.all, Bool.and_eq_true] at hn
  obtain ⟨⟨⟨⟨hR, hm⟩, h2⟩, h3⟩, h4⟩ := hn
  rw [allList_iff] at h2 h3 h4
  simp only [visitNetlist, bind_eq_ok] at h
  obtain ⟨s3, ⟨s2, ⟨s1, e1, e2⟩, e3⟩, e4⟩ := h
  have ha := hnode none n.type n.instrCount s hR hp
  have p1 : P s1 := by
    cases hmp : n.modulesp with
    | nil => rw [hmp] at e1; simp [iterateModules] at e1; subst e1; exact ha
    | cons m rest =>
      rw [hmp] at e1 hm
      simp only [List.all_cons, Bool.and_eq_true] at hm
      simp only [iterateModules, bind_eq_ok] at e1
      obtain ⟨s0, e0, e1⟩ := e1
      exact hnext _ _ _ hm.2 (hmod _ _ _ _ hm.1 ha e0) e1
  have r := iterateAndNextConst_inv hv n.type
  exact r _ _ _ h4 (r _ _ _ h3 (r _ _ _ h2 p1 e2) e3) e4

/-- C20: let `ifKinds` list the conditional kinds, without repetition, so that the nodes of the
tree and of the callable functions that have one of these kinds are those of class
`AstNodeIf`.  A counted accounting of such a node adds one to the counts of the conditional
kinds and the tally of its hint adds one to the prediction counts; every visit of a node adds
the same amount to both sums; and at the end of the traversal, in either mode, the sum of
`m_statPred` over the hints equals the sum of `m_statTypeCount` over the conditional
kinds. -/
theorem pred_tallies_match_conditionals (statsVars : Bool) (funcs : FuncTable)
    (ifKinds : List AstType) (hnd : ifKinds.Nodup)
    (hfuncs : ∀ i, (funcs i).node.all (kindsOfIf ifKinds) = true) :
    (∀ a t c p s, s.m_counting = true → t ∈ ifKinds →
      ifKindSum ifKinds (allNodes a t c s) = ifKindSum ifKinds s + 1 ∧
        predSum (allNodes a t c s) = predSum s ∧
        predSum (trackPred p s) = predSum s + 1 ∧
        ifKindSum ifKinds (trackPred p s) = ifKindSum ifKinds s) ∧
    (∀ fuel a n s s', n.all (kindsOfIf ifKinds) = true →
      visit statsVars funcs fuel a n s = .ok s' →
      ifKindSum ifKinds s' + predSum s = ifKindSum ifKinds s + predSum s') ∧
    (∀ fuel nodep fast s, AstNetlist.all (kindsOfIf ifKinds) nodep = true →
      statsStageAll statsVars funcs fuel nodep fast = .ok s →
      predSum s = ifKindSum ifKinds s) := by
  refine ⟨fun a t c p s hc ht => ?_, fun fuel a n s s' hn h => ?_,
    fun fuel nodep fast s hn h => ?_⟩
  · have h1 := condBalance_allNodes hnd a t c s
    have h2 := condBalance_trackPred ifKinds p s
    have e1 : predSum (allNodes a t c s) = predSum s := by
      unfold allNodes; rw [if_pos hc]; rfl
    have e2 : ifKindSum ifKinds (trackPred p s) = ifKindSum ifKinds s := by
      unfold trackPred; rw [if_pos hc]; rfl
    rw [if_pos ⟨hc, ht⟩] at h1
    rw [if_pos hc] at h2
    simp only [condBalance] at h1 h2
    refine ⟨?_, e1, ?_, e2⟩
    · rw [e1] at h1; omega
    · rw [e2] at h2; omega
  · have := visit_condBalance hnd hfuncs fuel a n s s' hn h
    simp only [condBalance] at this
    omega
  · have : condBalance ifKinds s = 0 :=
      visitNetlist_of_visit (P := fun s => condBalance ifKinds s = 0)
        (fun a n s s' hn hp h => (visit_condBalance hnd hfuncs fuel a n s s' hn h).trans hp)
        (fun a t c s hR hp => by
          show condBalance ifKinds (allNodes a t c s) = 0
          have hp : condBalance ifKinds s = 0 := hp
          rw [condBalance_allNodes hnd]
          simp only [kindsOfIf, isNodeIf, beq_false, Bool.not_eq_true',
            decide_eq_false_iff_not] at hR
          simp [hR, hp])
        (fun _ _ _ hp => hp) hn (by simp [condBalance, ifKindSum, predSum, StatsVisitor.init]) h
    simp only [condBalance] at this
    omega

theorem pred_tallies_match_conditionals_witness :
    [3].Nodup ∧ (∀ i, (noFuncs i).node.all (kindsOfIf [3]) = true) ∧
    AstNetlist.all (kindsOfIf [3]) sampleNestedIf = true ∧
    (statsStageAll false noFuncs 10 sampleNestedIf false).toOption.map
      (fun s => (predSum s, ifKindSum [3] s)) = some (3, 3) ∧
    (statsStageAll false noFuncs 10 sampleNestedIf true).toOption.map
      (fun s => (predSum s, ifKindSum [3] s)) = some (2, 2) ∧
    ∃ s, statsStageAll false noFuncs 10 sampleNestedIf false = .ok s ∧
      predSum s = ifKindSum [3] s :=
  ⟨by decide, fun _ => rfl, by decide, by decide, by decide,
    match h : statsStageAll false noFuncs 10 sampleNestedIf false with
    | .ok s => ⟨s, rfl,
        (pred_tallies_match_conditionals false noFuncs [3] (by decide) (fun _ => rfl)).2.2
          10 sampleNestedIf false s (by decide) h⟩
    | .error e => by
        have : (statsStageAll false noFuncs 10 sampleNestedIf false).toOption.isSome
            = true := by decide
        rw [h] at this
        cases this⟩

/-! ### The arm that is not chosen -/

end V3Stats
